import Mathlib

/-
Verification of the weighted prefix-tree autocompleter
(`autocomplete/prefix_tree.py`: `SimplePrefixTree` and
`CompressedPrefixTree`).

The Python classes are embedded shallowly:

* every tree node is a `PT α` value carrying the four attributes
  `value`, `weight`, `subtrees`, `_length`;
* a node's `value` attribute holds either a list of α (a common-prefix
  label) or a stored value; stored values in the repository are strings,
  which are sequences, so they are modelled as `List α` as well, tagged
  by the constructor `NVal.val`.  Python's `==` between a list and a
  string is `False`, which the constructor tag reproduces;
* floats are modelled as `ℚ`, Python `int` lengths as `ℤ`;
* each mutating method becomes a function returning the new tree.
  Python mutates the object returned by `get_matching_subtree` (the
  first matching element) in place and removes subtrees by object
  identity; since that object is the first match of the list, this is
  modelled by replacing / dropping the first matching element;
* `list.sort(key=weight, reverse=True)` and
  `sorted(result, key=weight, reverse=True)` are stable descending
  sorts; a stable sort is a unique function of the key order, modelled
  here by a stable insertion sort.
-/

namespace Autocomplete

/-- The `_weight_type` attribute: `'sum'` or `'average'`. -/
inductive WType where
  | wsum
  | waverage
deriving DecidableEq, Repr

/-- A node's `value` attribute: a common-prefix label (a Python list) or
a stored value (a Python string, i.e. a sequence of characters). -/
inductive NVal (α : Type) where
  | pfx (l : List α)
  | val (v : List α)
deriving DecidableEq, Repr

/-- A prefix-tree node: the attributes `value`, `weight`, `subtrees` and
`_length` of `SimplePrefixTree` / `CompressedPrefixTree`. -/
inductive PT (α : Type) where
  | node (value : NVal α) (weight : ℚ) (subtrees : List (PT α)) (len : ℤ)
deriving Repr

section PTDecEq

variable {α : Type} [DecidableEq α]

mutual

def PT.beq : PT α → PT α → Bool
  | .node v1 w1 s1 l1, .node v2 w2 s2 l2 =>
    v1 == v2 && w1 == w2 && PT.beqList s1 s2 && l1 == l2

def PT.beqList : List (PT α) → List (PT α) → Bool
  | [], [] => true
  | a :: as1, b :: bs => PT.beq a b && PT.beqList as1 bs
  | _, _ => false

end

mutual

theorem PT.beq_iff : ∀ (a b : PT α), PT.beq a b = true ↔ a = b
  | .node v1 w1 s1 l1, .node v2 w2 s2 l2 => by
    simp [PT.beq, PT.beqList_iff s1 s2, and_assoc]

theorem PT.beqList_iff : ∀ (a b : List (PT α)), PT.beqList a b = true ↔ a = b
  | [], [] => by simp [PT.beqList]
  | [], _ :: _ => by simp [PT.beqList]
  | _ :: _, [] => by simp [PT.beqList]
  | a :: as1, b :: bs => by
    simp [PT.beqList, PT.beq_iff a b, PT.beqList_iff as1 bs]

end

instance : DecidableEq (PT α) :=
  fun a b => decidable_of_iff (PT.beq a b = true) (PT.beq_iff a b)

end PTDecEq

namespace PT

def value : PT α → NVal α
  | node v _ _ _ => v

def weight : PT α → ℚ
  | node _ w _ _ => w

def subtrees : PT α → List (PT α)
  | node _ _ s _ => s

def len : PT α → ℤ
  | node _ _ _ l => l

@[simp] theorem value_node (v : NVal α) (w : ℚ) (s : List (PT α)) (l : ℤ) :
    (PT.node v w s l).value = v := rfl

@[simp] theorem weight_node (v : NVal α) (w : ℚ) (s : List (PT α)) (l : ℤ) :
    (PT.node v w s l).weight = w := rfl

@[simp] theorem subtrees_node (v : NVal α) (w : ℚ) (s : List (PT α)) (l : ℤ) :
    (PT.node v w s l).subtrees = s := rfl

@[simp] theorem len_node (v : NVal α) (w : ℚ) (s : List (PT α)) (l : ℤ) :
    (PT.node v w s l).len = l := rfl

theorem sizeOf_subtrees_lt {α : Type} (s : PT α) : sizeOf s.subtrees < sizeOf s := by
  cases s with
  | node v w subs l => simp [PT.subtrees]; omega

end PT

theorem sizeOf_mem_lt {α : Type} {s : PT α} {t : PT α} (h : s ∈ t.subtrees) :
    sizeOf s < sizeOf t :=
  lt_trans (List.sizeOf_lt_of_mem h) (PT.sizeOf_subtrees_lt t)

variable {α : Type} [DecidableEq α]

/-- `SimplePrefixTree.__init__`: the empty tree
(`value = []`, `weight = 0.0`, `subtrees = []`, `_length = 0`). -/
def emptyTree : PT α := .node (.pfx []) 0 [] 0

/-- `is_empty`: `self.weight == 0.0`. -/
def is_empty (t : PT α) : Bool := t.weight == 0

/-- `is_leaf`: `self.weight > 0 and self.subtrees == []`. -/
def is_leaf (t : PT α) : Bool := decide (0 < t.weight) && t.subtrees.isEmpty

/-- The underlying list of a `value` attribute. -/
def nvList : NVal α → List α
  | .pfx l => l
  | .val v => v

/-- `len(self.value)`. -/
def nvLen (nv : NVal α) : ℕ := (nvList nv).length

/-- Python truthiness of the `value` attribute (`if self.value:`). -/
def nvTruthy (nv : NVal α) : Bool := !(nvList nv).isEmpty

/-- Python `self.value == ps` where `ps` is a list: a string never
equals a list. -/
def nvEqList (nv : NVal α) (ps : List α) : Bool :=
  match nv with
  | .pfx l => l == ps
  | .val _ => false

/-- Python `ps == self.value[:len(ps)]` where `ps` is a list: slicing a
string yields a string, which never equals a list. -/
def nvTakeEq (nv : NVal α) (ps : List α) : Bool :=
  match nv with
  | .pfx l => l.take ps.length == ps
  | .val _ => false

/-- The loop body test of `get_matching_subtree(prefix, both_way)`:
`prefix[:len(subtree.value)] == subtree.value` or (when `both_way`)
`subtree.value[:len(prefix)] == prefix`.  The query is a list for
prefix searches and a string for value searches (`insert` passes the
inserted value); comparisons across the two kinds are `False` in
Python. -/
def matchesQ (q : NVal α) (both : Bool) (c : PT α) : Bool :=
  match q, c.value with
  | .pfx p, .pfx l => (p.take l.length == l) || (both && (l.take p.length == p))
  | .pfx _, .val _ => false
  | .val _, .pfx _ => false
  | .val v, .val w => (v.take w.length == w) || (both && (w.take v.length == v))

/-- `get_matching_subtree`: the first subtree matching the query. -/
def get_matching_subtree (q : NVal α) (both : Bool) (t : PT α) : Option (PT α) :=
  t.subtrees.find? (matchesQ q both)

/-- Replace the first element satisfying `p` (Python mutates the object
returned by `get_matching_subtree` in place). -/
def updFirst (p : PT α → Bool) (new : PT α) : List (PT α) → List (PT α)
  | [] => []
  | s :: rest => if p s then new :: rest else s :: updFirst p new rest

/-- Drop the first element satisfying `p`
(`self.subtrees.remove(subtree)` removes by object identity, and the
removed object is the first match of the list). -/
def dropFirst (p : PT α → Bool) : List (PT α) → List (PT α)
  | [] => []
  | s :: rest => if p s then rest else s :: dropFirst p rest

/-- `sub.weight += weight` on the first element satisfying `p` (the
object returned by `get_matching_subtree`, mutated in place). -/
def addWFirst (p : PT α → Bool) (w : ℚ) : List (PT α) → List (PT α)
  | [] => []
  | s :: rest =>
    if p s then .node s.value (s.weight + w) s.subtrees s.len :: rest
    else s :: addWFirst p w rest

/-- Stable insertion into a weight-descending list: the new element goes
after all elements of greater or equal weight. -/
def insDesc (x : PT α) : List (PT α) → List (PT α)
  | [] => [x]
  | y :: ys => if x.weight ≤ y.weight then y :: insDesc x ys else x :: y :: ys

/-- `self.subtrees.sort(key=lambda s: s.weight, reverse=True)`:
the stable descending sort by weight. -/
def sortDesc (l : List (PT α)) : List (PT α) := l.foldl (fun acc x => insDesc x acc) []

/-- Stable insertion into a list of `(value, weight)` pairs sorted by
non-increasing weight. -/
def insDescP (x : List α × ℚ) : List (List α × ℚ) → List (List α × ℚ)
  | [] => [x]
  | y :: ys => if x.2 ≤ y.2 then y :: insDescP x ys else x :: y :: ys

/-- `sorted(result, key=lambda s: s[1], reverse=True)`. -/
def sortDescP (l : List (List α × ℚ)) : List (List α × ℚ) :=
  l.foldl (fun acc x => insDescP x acc) []

/-- `sum([len(s) for s in self.subtrees])`. -/
def sumLens (subs : List (PT α)) : ℤ := (subs.map PT.len).sum

/-- `get_total_leaf_weights`: leaves contribute their weight, non-leaf
subtrees `weight * len`. -/
def get_total_leaf_weights (subs : List (PT α)) : ℚ :=
  (subs.map (fun s => if is_leaf s then s.weight else s.weight * (s.len : ℚ))).sum

/-- `get_aggr_weight`.  `oldW` is the node's current `self.weight`,
read only in the `'average'` case with no subtrees; `subs` and `len`
are `self.subtrees` and `len(self)` at the moment of the call. -/
def get_aggr_weight (wt : WType) (oldW : ℚ) (subs : List (PT α)) (len : ℤ) : ℚ :=
  match wt with
  | .wsum => (subs.map PT.weight).sum
  | .waverage =>
    match subs with
    | [] => oldW
    | [s] => s.weight
    | _ => get_total_leaf_weights subs / (len : ℚ)

/-! ### SimplePrefixTree -/

/-- `SimplePrefixTree.insert_spt(value, weight, prefix, depth)`: builds
the chain of new nodes for the unmatched part of the prefix sequence,
appends it, re-sorts `subtrees` and recomputes `_length` and `weight`.
The recursion on `depth` (`depth + 1` while `depth < len(prefix)`) is
represented structurally by `rest`, the suffix `prefix[depth:]`, so
`depth = len(prefix) - len(rest)` and `depth < len(prefix)` is
`rest != []`. -/
def insert_spt (wt : WType) (t : PT α) (v : List α) (w : ℚ) (ps : List α)
    (rest : List α) : PT α :=
  let sub : PT α :=
    match rest with
    | _ :: rest2 =>
      -- `depth < len(prefix)`: recurse on a fresh empty tree with `depth + 1`
      insert_spt wt emptyTree v w ps rest2
    | [] =>
      -- `subtree.value = value; subtree.weight += weight; subtree._length += 1`
      .node (.val v) (0 + w) [] (0 + 1)
  let subs := sortDesc (t.subtrees ++ [sub])
  let len2 := t.len + 1
  .node (.pfx (ps.take (ps.length - rest.length)))
    (get_aggr_weight wt t.weight subs len2) subs len2

mutual

/-- `SimplePrefixTree.insert(value, weight, prefix)`. -/
def insertS (wt : WType) (t : PT α) (v : List α) (w : ℚ) (ps : List α) : PT α :=
  match t with
  | .node nv tw subs len =>
    if !ps.isEmpty then
      match insertSWalk wt subs v w ps with
      | some subs1 =>
        -- found subtree that matches given prefix (already updated by the
        -- walk): sort, recompute `_length` and `weight`
        let subs2 := sortDesc subs1
        let len2 := sumLens subs2
        .node nv (get_aggr_weight wt tw subs2 len2) subs2 len2
      | none =>
        if nvEqList nv ps then
          -- prefix matches exactly with subtree value: look up the value
          if (subs.find? (matchesQ (.val v) false)).isSome then
            -- value already inserted: `sub.weight += weight`, recompute weight
            let subs1 := addWFirst (matchesQ (.val v) false) w subs
            .node nv (get_aggr_weight wt tw subs1 len) subs1 len
          else insert_spt wt t v w ps (ps.drop ps.length)
        else insert_spt wt t v w ps (ps.drop (nvLen nv))
    else insert_spt wt t v w ps (ps.drop ps.length)

/-- The combination `get_matching_subtree(prefix)` / recursive
`subtree.insert(...)` of `SimplePrefixTree.insert`: Python mutates the
first matching subtree in place; the walk returns the updated subtree
list, or `None` when no subtree matches. -/
def insertSWalk (wt : WType) (subs : List (PT α)) (v : List α) (w : ℚ)
    (ps : List α) : Option (List (PT α)) :=
  match subs with
  | [] => none
  | s :: rest =>
    if matchesQ (.pfx ps) false s then some (insertS wt s v w ps :: rest)
    else (insertSWalk wt rest v w ps).map (s :: ·)

end

/-- Python truthiness of the `limit` argument
(`limit if limit else float('inf')`): `None` and `0` both become
unbounded. -/
def limitNorm (limit : Option ℤ) : Option ℤ :=
  match limit with
  | none => none
  | some l => if l == 0 then none else some l

/-- `len(items) == limit` (`limit` may be `float('inf')`, modelled by
`none`, which no length ever equals). -/
def limitHit (limit : Option ℤ) (n : ℕ) : Bool :=
  match limit with
  | none => false
  | some l => (n : ℤ) == l

mutual

/-- `autocomplete_helper(limit, result)`: walks `subtrees` in order,
collecting `(value, weight)` for leaves and recursing into non-leaf
subtrees with `limit - len(items)`, stopping once `len(items) == limit`.
`acc` is the `items` list accumulated so far at the current level.
The bodies of `SimplePrefixTree.autocomplete_helper` and
`CompressedPrefixTree.autocomplete_helper` are identical. -/
def helperGo (limit : Option ℤ) : List (PT α) → List (List α × ℚ) → List (List α × ℚ)
  | [], acc => acc
  | s :: rest, acc =>
    if limitHit limit acc.length then acc
    else
      let acc' :=
        if !is_leaf s then
          acc ++ helperSub (limit.map (fun l => l - acc.length)) s
        else acc ++ [(nvList s.value, s.weight)]
      helperGo limit rest acc'

/-- The recursive call `subtree.autocomplete_helper(new_limit, items)`:
the subtree's own loop starts with a fresh local `items` list whose
contents are appended to the caller's. -/
def helperSub (limit : Option ℤ) : PT α → List (List α × ℚ)
  | .node _ _ subs _ => helperGo limit subs []

end

mutual

/-- `autocomplete(prefix, limit)`.  `both = false` gives
`SimplePrefixTree.autocomplete`, `both = true` gives
`CompressedPrefixTree.autocomplete`; the two method bodies differ only
in passing `both_way=True` to `get_matching_subtree`. -/
def autocompleteGen (both : Bool) (t : PT α) (ps : List α) (limit : Option ℤ) :
    List (List α × ℚ) :=
  match t with
  | .node nv tw subs _ =>
    if tw == 0 then []
    else if nvEqList nv ps || nvTakeEq nv ps then
      -- `prefix in (self.value, self.value[:len(prefix)])`
      sortDescP (helperGo (limitNorm limit) subs [])
    else
      -- `subtree = self.get_matching_subtree(prefix[, both_way=True])`
      match autoWalk both subs ps limit with
      | some r => r
      | none => []

/-- `get_matching_subtree` followed by the recursive
`subtree.autocomplete(prefix, limit)` on the first match. -/
def autoWalk (both : Bool) (subs : List (PT α)) (ps : List α)
    (limit : Option ℤ) : Option (List (List α × ℚ)) :=
  match subs with
  | [] => none
  | s :: rest =>
    if matchesQ (.pfx ps) both s then some (autocompleteGen both s ps limit)
    else autoWalk both rest ps limit

end

mutual

/-- `SimplePrefixTree.remove(prefix)`. -/
def removeS (wt : WType) (t : PT α) (ps : List α) : PT α :=
  match t with
  | .node nv tw subs len =>
    if tw == 0 then t
    else if nvEqList nv ps then
      -- blank this subtree:
      -- `subtrees = []; weight = 0.0; value = []; _length -= 1`
      .node (.pfx []) 0 [] (len - 1)
    else
      match removeSWalk wt subs ps with
      | some subs1 =>
        let len2 := sumLens subs1
        .node nv (get_aggr_weight wt tw subs1 len2) subs1 len2
      | none => t

/-- `get_matching_subtree(prefix)` followed by the recursive
`subtree.remove(prefix)` on the first match, dropping the subtree
when it became empty. -/
def removeSWalk (wt : WType) (subs : List (PT α)) (ps : List α) :
    Option (List (PT α)) :=
  match subs with
  | [] => none
  | s :: rest =>
    if matchesQ (.pfx ps) false s then
      let s2 := removeS wt s ps
      some (if is_empty s2 then rest else s2 :: rest)
    else (removeSWalk wt rest ps).map (s :: ·)

end

/-! ### CompressedPrefixTree -/

/-- `find_common_prefix_len(prefix1, prefix2)`. -/
def find_common_prefix_len : List α → List α → ℕ
  | a :: as2, b :: bs => if a = b then find_common_prefix_len as2 bs + 1 else 0
  | _, _ => 0

/-- The loop of `find_max_common_subtree`, tracking the index of the
current best subtree in the original `subtrees` list (Python keeps the
object itself; the object is recovered from the index).  Only subtrees
whose `value` is a list take part, and a candidate wins only with a
strictly longer common prefix, so the first maximum is kept. -/
def fmcsGo (ps : List α) : List (PT α) → ℕ → List α × Option ℕ → List α × Option ℕ
  | [], _, best => best
  | s :: rest, i, best =>
    match s.value with
    | .pfx l =>
      let cl := find_common_prefix_len ps l
      if best.1.length < cl then fmcsGo ps rest (i + 1) (ps.take cl, some i)
      else fmcsGo ps rest (i + 1) best
    | .val _ => fmcsGo ps rest (i + 1) best

/-- `find_max_common_subtree(prefix)`: the longest common prefix found
and the index of the matching subtree (`(​[], None)` when no subtree
shares a non-empty common prefix). -/
def find_max_common_subtree (t : PT α) (ps : List α) : List α × Option ℕ :=
  fmcsGo ps t.subtrees 0 ([], none)

theorem fmcsGo_idx_lt (ps : List α) (subs : List (PT α)) (i : ℕ)
    (best : List α × Option ℕ)
    (hb : ∀ j, best.2 = some j → j < i) :
    ∀ j, (fmcsGo ps subs i best).2 = some j → j < i + subs.length := by
  induction subs generalizing i best with
  | nil => intro j hj; exact lt_of_lt_of_le (hb j hj) (by simp)
  | cons s rest ih =>
    intro j hj
    have step : ∀ b2 : List α × Option ℕ, (∀ k, b2.2 = some k → k < i + 1) →
        (fmcsGo ps rest (i + 1) b2).2 = some j → j < i + (s :: rest).length := by
      intro b2 hb2 hj2
      have := ih (i + 1) b2 hb2 j hj2
      simp only [List.length_cons]
      omega
    simp only [fmcsGo] at hj
    cases hv : s.value with
    | pfx l =>
      simp only [hv] at hj
      by_cases hc : best.1.length < find_common_prefix_len ps l
      · simp only [if_pos hc] at hj
        exact step _ (by intro k hk; simp at hk; omega) hj
      · simp only [if_neg hc] at hj
        exact step _ (fun k hk => lt_trans (hb k hk) (by omega)) hj
    | val v =>
      simp only [hv] at hj
      exact step _ (fun k hk => lt_trans (hb k hk) (by omega)) hj

theorem fmcs_idx_lt (t : PT α) (ps : List α) {i : ℕ}
    (h : (find_max_common_subtree t ps).2 = some i) : i < t.subtrees.length := by
  have := fmcsGo_idx_lt ps t.subtrees 0 ([], none) (by intro j hj; simp at hj) i
  simp only [find_max_common_subtree] at h
  have h2 := this h
  omega

/-- `create_subtree(value, weight, subtrees, length)`: when the given
weight is `0.0` the aggregate weight is computed instead (a fresh
node's `self.weight` is `0.0` at that point). -/
def create_subtree (wt : WType) (nv : NVal α) (w : ℚ) (subs : List (PT α))
    (len : ℤ) : PT α :=
  .node nv (if w ≠ 0 then w else get_aggr_weight wt 0 subs len) subs len

/-- The `is_empty` branch of `CompressedPrefixTree.insert`:
`self.value = prefix; self.weight = weight;`
`self.subtrees.append(create_subtree(value, weight)); self._length += 1`. -/
def insert_into_empty (wt : WType) (t : PT α) (v : List α) (w : ℚ)
    (ps : List α) : PT α :=
  .node (.pfx ps) w (t.subtrees ++ [create_subtree wt (.val v) w [] 1]) (t.len + 1)

mutual

/-- `CompressedPrefixTree.insert_cpt(value, weight, prefix)`. -/
def insert_cpt (wt : WType) (t : PT α) (v : List α) (w : ℚ) (ps : List α) : PT α :=
  match t with
  | .node nv tw subs len =>
    match fmcsGo ps subs 0 ([], none) with
    | (common, some i) =>
      if nvEqList nv common then
        -- `found` is not `None` but `self.value == common`: append a brand
        -- new subtree built by `insert` on a fresh empty tree
        let nd := insert_into_empty wt emptyTree v w ps
        let subs1 := subs ++ [nd]
        .node nv (get_aggr_weight wt tw subs1 (len + 1)) (sortDesc subs1) (len + 1)
      else
        -- `node = self.merge_value(found, common, data)`;
        -- `if found != node:` compares object identity: `r.2` records
        -- whether `merge_value` returned `found` itself (mutated in place),
        -- in which case it stays at its position, otherwise the old subtree
        -- is removed and the new node appended
        let r := mergeAt wt subs i common v w ps
        let subs1 := if r.2 then subs.set i r.1 else subs.eraseIdx i ++ [r.1]
        .node nv (get_aggr_weight wt tw subs1 (len + 1)) (sortDesc subs1) (len + 1)
    | (_, none) =>
      let nd := insert_into_empty wt emptyTree v w ps
      let subs1 := subs ++ [nd]
      .node nv (get_aggr_weight wt tw subs1 (len + 1)) (sortDesc subs1) (len + 1)

/-- Dispatch of `merge_value` to the subtree found by
`find_max_common_subtree`, addressed by its index (Python passes the
object itself).  The out-of-range case cannot occur: the index returned
by `find_max_common_subtree` is within bounds (`fmcs_idx_lt`). -/
def mergeAt (wt : WType) (subs : List (PT α)) (i : ℕ) (common : List α)
    (v : List α) (w : ℚ) (ps : List α) : PT α × Bool :=
  match subs, i with
  | [], _ => (emptyTree, true)
  | s :: _, 0 => merge_value wt s common v w ps
  | _ :: rest, n + 1 => mergeAt wt rest n common v w ps

/-- `CompressedPrefixTree.merge_value(found, common, data)`; the boolean
result records whether the returned tree is `found` itself (Python
object identity, tested by `insert_cpt`). -/
def merge_value (wt : WType) (found : PT α) (common : List α) (v : List α)
    (w : ℚ) (ps : List α) : PT α × Bool :=
  if nvEqList found.value ps then
    -- common prefix tree has the same value as the given prefix
    match found.subtrees with
    | s0 :: rest =>
      if s0.value = NVal.val v then
        -- `found.subtrees[0].weight += weight`
        let subs := (PT.node s0.value (s0.weight + w) s0.subtrees s0.len) :: rest
        (.node found.value (get_aggr_weight wt found.weight subs found.len)
          subs found.len, true)
      else
        -- append `create_subtree(value, weight)`, `found._length += 1`
        let subs := (s0 :: rest) ++ [create_subtree wt (.val v) w [] 1]
        (.node found.value (get_aggr_weight wt found.weight subs (found.len + 1))
          subs (found.len + 1), true)
    | [] =>
      -- `found.subtrees[0]` would raise IndexError; unreachable for trees
      -- produced by `insert`
      (found, true)
  else if nvTakeEq found.value ps then
    -- `found.value[:len(prefix)] == prefix`
    let new_tree := create_subtree wt (.val v) w [] 1
    (create_subtree wt (.pfx common) 0 [new_tree, found] (found.len + new_tree.len),
      false)
  else if matchesQ (.pfx ps) false found then
    -- `prefix[:len(found.value)] == found.value`
    (insert_cpt wt found v w ps, true)
  else
    -- some common prefix, neither containing the other
    let new_tree_sub := create_subtree wt (.val v) w [] 1
    let new_tree := create_subtree wt (.pfx ps) w [new_tree_sub] 1
    (create_subtree wt (.pfx common) 0 [new_tree, found] (found.len + new_tree.len),
      false)

end

/-- `CompressedPrefixTree.insert(value, weight, prefix)`. -/
def insertC (wt : WType) (t : PT α) (v : List α) (w : ℚ) (ps : List α) : PT α :=
  if is_empty t then insert_into_empty wt t v w ps
  else if nvTruthy t.value then
    -- wrap the current root in a temporary parent with value `[]`,
    -- insert below it, then unwrap
    let clone := create_subtree wt t.value t.weight t.subtrees t.len
    let wrap := create_subtree wt (.pfx []) t.weight [clone] t.len
    let wrap2 := insert_cpt wt wrap v w ps
    if 1 < wrap2.subtrees.length then
      .node (.pfx []) (get_aggr_weight wt t.weight wrap2.subtrees wrap2.len)
        wrap2.subtrees wrap2.len
    else
      match wrap2.subtrees with
      | s0 :: _ =>
        .node s0.value (get_aggr_weight wt t.weight s0.subtrees s0.len)
          s0.subtrees s0.len
      | [] =>
        -- `subtree.subtrees[0]` would raise IndexError; unreachable since
        -- `insert_cpt` never empties the subtree list
        .node (.pfx []) (get_aggr_weight wt t.weight ([] : List (PT α)) wrap2.len)
          [] wrap2.len
  else insert_cpt wt t v w ps

mutual

/-- `CompressedPrefixTree.remove(prefix)`. -/
def removeC (wt : WType) (t : PT α) (ps : List α) : PT α :=
  match t with
  | .node nv tw subs len =>
    if tw == 0 then t
    else if nvEqList nv ps || nvTakeEq nv ps then
      -- blank this subtree
      .node (.pfx []) 0 [] (len - 1)
    else
      match removeCWalk wt subs ps with
      | some subs1 =>
        match subs1 with
        | [only] =>
          -- compress: the single remaining subtree is pulled up
          -- (`value` and `weight` copied, its subtrees become ours), then
          -- `self.weight = self.get_aggr_weight()`; `_length` is untouched
          .node only.value (get_aggr_weight wt only.weight only.subtrees len)
            only.subtrees len
        | other =>
          .node nv (get_aggr_weight wt tw other len) other len
      | none => t

/-- `get_matching_subtree(prefix, both_way=True)` followed by the
recursive `subtree.remove(prefix)` on the first match, dropping the
subtree when it became empty. -/
def removeCWalk (wt : WType) (subs : List (PT α)) (ps : List α) :
    Option (List (PT α)) :=
  match subs with
  | [] => none
  | s :: rest =>
    if matchesQ (.pfx ps) true s then
      let s2 := removeC wt s ps
      some (if is_empty s2 then rest else s2 :: rest)
    else (removeCWalk wt rest ps).map (s :: ·)

end

/-! ### The stored entries of a tree, and specification-side notions

A stored value lives in a leaf; its prefix sequence is the label of the
leaf's parent node.  `entries` lists the `(value, weight, prefix)`
triples of a tree in depth-first order, mirroring the traversal of
`autocomplete_helper`. -/

mutual

/-- The `(value, weight, prefix-sequence)` triples stored in a tree, in
depth-first subtree order. -/
def entries : PT α → List (List α × ℚ × List α)
  | .node nv _ subs _ => entriesL (nvList nv) subs

/-- The entries contributed by a list of subtrees whose parent's label
is `lab`: a leaf holds a value indexed by `lab`, a non-leaf contributes
its own entries. -/
def entriesL (lab : List α) : List (PT α) → List (List α × ℚ × List α)
  | [] => []
  | s :: rest =>
    (if is_leaf s then [(nvList s.value, s.weight, lab)] else entries s)
      ++ entriesL lab rest

end

/-- The stored values of a tree (with multiplicity). -/
def storedVals (t : PT α) : List (List α) := (entries t).map (fun e => e.1)

/-- The distinct stored values of a tree. -/
def distinctVals (t : PT α) : List (List α) := (storedVals t).dedup

/-- The total weight of the stored leaves. -/
def totalLeafWeight (t : PT α) : ℚ := ((entries t).map (fun e => e.2.1)).sum

/-- `a` is an initial segment of `b` (the sequence `b` starts with `a`). -/
def pre {β : Type} (a b : List β) : Prop := b.take a.length = a

instance {β : Type} [DecidableEq β] (a b : List β) : Decidable (pre a b) :=
  inferInstanceAs (Decidable (b.take a.length = a))

/-- Boolean version of `pre`. -/
def preB (a b : List α) : Bool := b.take a.length == a

/-- The entries of `t` whose prefix sequence starts with `ps`, as
`(value, weight)` pairs: what `autocomplete(ps)` is specified to
return. -/
def matchPairs (t : PT α) (ps : List α) : List (List α × ℚ) :=
  ((entries t).filter (fun e => preB ps e.2.2)).map (fun e => (e.1, e.2.1))

/-- `subtrees[i].weight >= subtrees[i+1].weight` for all valid `i`. -/
def wtsDesc : List (PT α) → Bool
  | [] => true
  | [_] => true
  | a :: b :: rest => decide (b.weight ≤ a.weight) && wtsDesc (b :: rest)

mutual

/-- The documented representation invariant checked by claim C5: at
every reachable node the subtree list is sorted by non-increasing
weight and contains no empty trees. -/
def sortedInv : PT α → Bool
  | .node _ _ subs _ =>
    wtsDesc subs && subs.all (fun s => !is_empty s) && sortedInvL subs

def sortedInvL : List (PT α) → Bool
  | [] => true
  | s :: rest => sortedInv s && sortedInvL rest

end

/-! ### Concrete scenario trees -/

/-- Compressed sum-mode tree holding `ca` (weight 1, prefix `['c','a']`)
and `cat` (weight 2, prefix `['c','a','t']`). -/
def exCaCat : PT Char :=
  insertC .wsum (insertC .wsum emptyTree ['c', 'a'] 1 ['c', 'a'])
    ['c', 'a', 't'] 2 ['c', 'a', 't']

/-- The compressed sum-mode tree of the spec's concrete scenario:
`cat` 2.0, `car` 4.0, `care` 3.0. -/
def exCCC : PT Char :=
  insertC .wsum (insertC .wsum (insertC .wsum emptyTree
    ['c', 'a', 't'] 2 ['c', 'a', 't'])
    ['c', 'a', 'r'] 4 ['c', 'a', 'r'])
    ['c', 'a', 'r', 'e'] 3 ['c', 'a', 'r', 'e']

/-- The simple sum-mode tree of the spec's concrete scenario. -/
def exSCC : PT Char :=
  insertS .wsum (insertS .wsum (insertS .wsum emptyTree
    ['c', 'a', 't'] 2 ['c', 'a', 't'])
    ['c', 'a', 'r'] 4 ['c', 'a', 'r'])
    ['c', 'a', 'r', 'e'] 3 ['c', 'a', 'r', 'e']

/-- Simple sum-mode tree after inserting the value `a` twice with the
empty prefix sequence and weight 1. -/
def exDup : PT Char :=
  insertS .wsum (insertS .wsum emptyTree ['a'] 1 []) ['a'] 1 []

/-- Average-mode version of `exDup`. -/
def exDupAvg : PT Char :=
  insertS .waverage (insertS .waverage emptyTree ['a'] 1 []) ['a'] 1 []

/-- Simple sum-mode tree: `a` 1 under `['x']`, `b` 5 under `['x']`,
then `a` again with weight 10 (merged into the existing leaf). -/
def exMerge : PT Char :=
  insertS .wsum (insertS .wsum (insertS .wsum emptyTree
    ['a'] 1 ['x']) ['b'] 5 ['x']) ['a'] 10 ['x']

/-- Simple sum-mode tree where the heaviest subtree holds a light leaf:
`pa` 9 and `pb` 1 under `['x','a']` (subtree weight 10), `q` 5 under
`['x','b']` (subtree weight 5). -/
def exTrunc : PT Char :=
  insertS .wsum (insertS .wsum (insertS .wsum emptyTree
    ['p', 'a'] 9 ['x', 'a']) ['p', 'b'] 1 ['x', 'a']) ['q'] 5 ['x', 'b']

/-- Simple sum-mode tree holding `cat` 2 and `car` 4. -/
def exTwo : PT Char :=
  insertS .wsum (insertS .wsum emptyTree ['c', 'a', 't'] 2 ['c', 'a', 't'])
    ['c', 'a', 'r'] 4 ['c', 'a', 'r']

/-! ### Claim theorems: concrete evaluations -/

/-- C1: `remove(p)` must delete exactly the stored values whose prefix
sequence starts with `p`, keeping every other value retrievable.  On the
compressed tree holding `ca` (prefix `['c','a']`) and `cat` (prefix
`['c','a','t']`), `remove(['c','a','t'])` destroys `ca` as well: the
pulled-up leaf's weight is recomputed as the sum over an empty subtree
list, leaving an "empty" root, so `autocomplete(['c','a'])` returns
nothing although `ca`'s prefix sequence does not start with
`['c','a','t']`. -/
theorem C1_remove_destroys_nonmatching_value :
    entries exCaCat
      = [(['c', 'a', 't'], 2, ['c', 'a', 't']), (['c', 'a'], 1, ['c', 'a'])] ∧
    ¬ pre ['c', 'a', 't'] ['c', 'a'] ∧
    autocompleteGen true exCaCat ['c', 'a'] none
      = [(['c', 'a', 't'], 2), (['c', 'a'], 1)] ∧
    removeC .wsum exCaCat ['c', 'a', 't'] = PT.node (.val ['c', 'a']) 0 [] 2 ∧
    autocompleteGen true (removeC .wsum exCaCat ['c', 'a', 't']) ['c', 'a'] none
      = [] := by
  refine ⟨?_, by decide, ?_, ?_, ?_⟩ <;>
    norm_num +decide [exCaCat, insertC, insert_cpt, merge_value, mergeAt, insert_into_empty,
      create_subtree, find_max_common_subtree, fmcsGo, find_common_prefix_len,
      emptyTree, is_empty, is_leaf, nvTruthy, nvEqList, nvTakeEq, nvLen, nvList,
      matchesQ, sortDesc, insDesc, get_aggr_weight, get_total_leaf_weights, sumLens,
      removeC, removeCWalk, autocompleteGen, autoWalk, helperGo, helperSub,
      limitNorm, limitHit, sortDescP, insDescP, entries, entriesL, pre]

/-- C2: in the sum-mode compressed tree holding `cat` 2.0, `car` 4.0 and
`care` 3.0, `remove(['c','a','r'])` removes `car` and `care`,
`autocomplete(['c','a'])` then returns exactly `[("cat", 2.0)]`, and the
remaining structure has re-collapsed into a single chain for `cat`: an
internal node labelled `['c','a','t']` whose only child is the leaf. -/
theorem C2_remove_scenario_compressed :
    autocompleteGen true (removeC .wsum exCCC ['c', 'a', 'r']) ['c', 'a'] none
      = [(['c', 'a', 't'], 2)] ∧
    removeC .wsum exCCC ['c', 'a', 'r']
      = PT.node (.pfx ['c', 'a', 't']) 2 [PT.node (.val ['c', 'a', 't']) 2 [] 1] 3 := by
  constructor <;>
    norm_num +decide [exCCC, insertC, insert_cpt, merge_value, mergeAt, insert_into_empty,
      create_subtree, find_max_common_subtree, fmcsGo, find_common_prefix_len,
      emptyTree, is_empty, is_leaf, nvTruthy, nvEqList, nvTakeEq, nvLen, nvList,
      matchesQ, sortDesc, insDesc, get_aggr_weight, get_total_leaf_weights, sumLens,
      removeC, removeCWalk, autocompleteGen, autoWalk, helperGo, helperSub,
      limitNorm, limitHit, sortDescP, insDescP]

/-- C4: re-inserting an already-stored value must add the new weight to
the existing entry without creating a duplicate and without changing
`len`.  Inserting `a` with weight 1 and the empty prefix twice instead
creates a second leaf: `autocomplete` returns two entries of weight 1
(not one of weight 2) and `len` grows from 1 to 2. -/
theorem C4_reinsert_creates_duplicate :
    (insertS .wsum emptyTree ['a'] 1 ([] : List Char)).len = 1 ∧
    exDup.len = 2 ∧
    storedVals exDup = [['a'], ['a']] ∧
    autocompleteGen false exDup [] none = [(['a'], 1), (['a'], 1)] ∧
    (['a'], (2 : ℚ)) ∉ autocompleteGen false exDup [] none := by
  refine ⟨?_, ?_, ?_, ?_, ?_⟩ <;>
    norm_num +decide [exDup, insertS, insertSWalk, insert_spt, emptyTree, is_empty, is_leaf,
      nvEqList, nvTakeEq, nvLen, nvList, matchesQ, sortDesc, insDesc, addWFirst,
      get_aggr_weight, get_total_leaf_weights, sumLens, autocompleteGen, autoWalk,
      helperGo, helperSub, limitNorm, limitHit, sortDescP, insDescP, entries,
      entriesL, storedVals]

/-- C5: the documented invariant that every reachable node's subtree
list is sorted by non-increasing weight fails after an insert that
merges weight into an existing value: after `a` 1 and `b` 5 under
`['x']`, re-inserting `a` with weight 10 bumps the leaf to 11 without
re-sorting the node `['x']`, whose subtree weights are then `[5, 11]`. -/
theorem C5_sorted_invariant_broken :
    exMerge.subtrees.map (fun s => s.subtrees.map PT.weight) = [[5, 11]] ∧
    sortedInv exMerge = false := by
  constructor <;>
    norm_num +decide [exMerge, insertS, insertSWalk, insert_spt, emptyTree, is_empty, is_leaf,
      nvEqList, nvTakeEq, nvLen, nvList, matchesQ, sortDesc, insDesc, addWFirst,
      get_aggr_weight, get_total_leaf_weights, sumLens, sortedInv, sortedInvL, wtsDesc]

/-- C8: `len` must equal the number of stored values.  After inserting
`cat` and `car` into a simple tree (`len = 2`), `remove([])` empties the
tree but only decrements `_length`, leaving `len = 1` with no stored
values; similarly compressed `remove` never updates `_length`: removing
`car`/`care` from the three-value compressed tree leaves `len = 3` with
a single stored value. -/
theorem C8_len_wrong_after_remove :
    exTwo.len = 2 ∧ (storedVals exTwo).length = 2 ∧
    (removeS .wsum exTwo []).len = 1 ∧
    entries (removeS .wsum exTwo []) = [] ∧
    (removeC .wsum exCCC ['c', 'a', 'r']).len = 3 ∧
    (storedVals (removeC .wsum exCCC ['c', 'a', 'r'])).length = 1 := by
  refine ⟨?_, ?_, ?_, ?_, ?_, ?_⟩ <;>
    norm_num +decide [exTwo, exCCC, insertS, insertSWalk, insert_spt, insertC, insert_cpt,
      merge_value, mergeAt, insert_into_empty, create_subtree, find_max_common_subtree,
      fmcsGo, find_common_prefix_len, emptyTree, is_empty, is_leaf, nvTruthy,
      nvEqList, nvTakeEq, nvLen, nvList, matchesQ, sortDesc, insDesc, addWFirst,
      get_aggr_weight, get_total_leaf_weights, sumLens, removeS, removeSWalk,
      removeC, removeCWalk, entries, entriesL, storedVals]

/-! ### Frame property of `autocomplete`

To express that `autocomplete` does not mutate the tree, the traversal
is re-embedded in state-passing style: every node whose methods run
returns, besides its result, its post-state, and every recursive call's
post-state is threaded back into the parent's subtree list.  The claim
is that the post-state equals the input tree. -/

mutual

/-- State-threading version of `autocomplete`: result and post-state of
the receiver. -/
def autocompleteFr (both : Bool) (t : PT α) (ps : List α) (limit : Option ℤ) :
    List (List α × ℚ) × PT α :=
  match t with
  | .node nv tw subs len =>
    if tw == 0 then ([], .node nv tw subs len)
    else if nvEqList nv ps || nvTakeEq nv ps then
      let r := helperFrGo (limitNorm limit) subs []
      (sortDescP r.1, .node nv tw r.2 len)
    else
      match autoWalkFr both subs ps limit with
      | some r => (r.1, .node nv tw r.2 len)
      | none => ([], .node nv tw subs len)

/-- State-threading version of `autoWalk`: result and post-states of the
walked subtrees. -/
def autoWalkFr (both : Bool) (subs : List (PT α)) (ps : List α)
    (limit : Option ℤ) : Option (List (List α × ℚ) × List (PT α)) :=
  match subs with
  | [] => none
  | s :: rest =>
    if matchesQ (.pfx ps) both s then
      let r := autocompleteFr both s ps limit
      some (r.1, r.2 :: rest)
    else (autoWalkFr both rest ps limit).map (fun r => (r.1, s :: r.2))

/-- State-threading version of `helperGo`: collected items and
post-states of the visited subtrees. -/
def helperFrGo (limit : Option ℤ) :
    List (PT α) → List (List α × ℚ) → List (List α × ℚ) × List (PT α)
  | [], acc => (acc, [])
  | s :: rest, acc =>
    if limitHit limit acc.length then (acc, s :: rest)
    else
      let p : List (List α × ℚ) × PT α :=
        if !is_leaf s then
          let r := helperFrSub (limit.map (fun l => l - acc.length)) s
          (acc ++ r.1, r.2)
        else (acc ++ [(nvList s.value, s.weight)], s)
      let q := helperFrGo limit rest p.1
      (q.1, p.2 :: q.2)

/-- State-threading version of `helperSub`. -/
def helperFrSub (limit : Option ℤ) : PT α → List (List α × ℚ) × PT α
  | .node nv w subs len =>
    let r := helperFrGo limit subs []
    (r.1, .node nv w r.2 len)

end

mutual

theorem autocompleteFr_eq : ∀ (both : Bool) (t : PT α) (ps : List α)
    (limit : Option ℤ),
    autocompleteFr both t ps limit = (autocompleteGen both t ps limit, t)
  | both, .node nv tw subs len, ps, limit => by
    rw [autocompleteFr, autocompleteGen]
    by_cases h0 : tw == 0
    · simp [h0]
    · by_cases hm : (nvEqList nv ps || nvTakeEq nv ps : Bool)
      · simp [h0, hm, helperFrGo_eq (limitNorm limit) subs []]
      · simp only [h0, hm, autoWalkFr_eq both subs ps limit, if_neg, Bool.false_eq_true,
          if_false]
        cases hw : autoWalk both subs ps limit with
        | none => simp
        | some r => simp

theorem autoWalkFr_eq : ∀ (both : Bool) (subs : List (PT α)) (ps : List α)
    (limit : Option ℤ),
    autoWalkFr both subs ps limit
      = (autoWalk both subs ps limit).map (fun r => (r, subs))
  | both, [], ps, limit => by simp [autoWalkFr, autoWalk]
  | both, s :: rest, ps, limit => by
    rw [autoWalkFr, autoWalk]
    by_cases hm : matchesQ (.pfx ps) both s
    · simp [hm, autocompleteFr_eq both s ps limit]
    · simp only [hm, Bool.false_eq_true, if_false, autoWalkFr_eq both rest ps limit]
      cases hw : autoWalk both rest ps limit with
      | none => simp
      | some r => simp

theorem helperFrGo_eq : ∀ (limit : Option ℤ) (subs : List (PT α))
    (acc : List (List α × ℚ)),
    helperFrGo limit subs acc = (helperGo limit subs acc, subs)
  | limit, [], acc => by simp [helperFrGo, helperGo]
  | limit, s :: rest, acc => by
    rw [helperFrGo, helperGo]
    by_cases hl : limitHit limit acc.length
    · simp [hl]
    · by_cases hleaf : is_leaf s
      · simp [hl, hleaf, helperFrGo_eq limit rest (acc ++ [(nvList s.value, s.weight)])]
      · simp [hl, hleaf, helperFrSub_eq (limit.map (fun l => l - acc.length)) s,
          helperFrGo_eq limit rest
            (acc ++ helperSub (limit.map (fun l => l - acc.length)) s)]

theorem helperFrSub_eq : ∀ (limit : Option ℤ) (t : PT α),
    helperFrSub limit t = (helperSub limit t, t)
  | limit, .node nv w subs len => by
    rw [helperFrSub, helperSub]
    simp [helperFrGo_eq limit subs []]

end

/-- C10: `autocomplete` (either variant, any prefix sequence and limit)
returns its result without mutating the tree: in the state-threading
embedding `autocompleteFr`, the post-state of every reachable node -
value, weight, subtree list (including order) and stored length - is
identical to its pre-state, and the result is that of the pure
traversal. -/
theorem C10_autocomplete_pure (both : Bool) (t : PT α) (ps : List α)
    (limit : Option ℤ) :
    (autocompleteFr both t ps limit).2 = t ∧
    (autocompleteFr both t ps limit).1 = autocompleteGen both t ps limit := by
  rw [autocompleteFr_eq]
  exact ⟨rfl, rfl⟩

/-! ### Sorting lemmas -/

/-- A result list ordered by non-increasing weight. -/
def PairsSorted (l : List (List α × ℚ)) : Prop :=
  List.Pairwise (fun a b => b.2 ≤ a.2) l

theorem insDescP_perm (x : List α × ℚ) (l : List (List α × ℚ)) :
    List.Perm (insDescP x l) (x :: l) := by
  induction l with
  | nil => rfl
  | cons y ys ih =>
    rw [insDescP]
    by_cases h : x.2 ≤ y.2
    · simp only [if_pos h]
      exact (ih.cons y).trans (List.Perm.swap x y ys)
    · simp [if_neg h]

theorem sortDescP_perm_aux (l : List (List α × ℚ)) :
    ∀ acc, List.Perm (l.foldl (fun acc x => insDescP x acc) acc) (acc ++ l) := by
  induction l with
  | nil => intro acc; simp
  | cons x xs ih =>
    intro acc
    have h1 : (x :: xs).foldl (fun acc x => insDescP x acc) acc
        = xs.foldl (fun acc x => insDescP x acc) (insDescP x acc) := rfl
    rw [h1]
    exact ((ih _).trans ((insDescP_perm x acc).append_right xs)).trans
      List.perm_middle.symm

theorem sortDescP_perm (l : List (List α × ℚ)) : List.Perm (sortDescP l) l := by
  simpa using sortDescP_perm_aux l []

theorem insDescP_sorted (x : List α × ℚ) (l : List (List α × ℚ))
    (h : PairsSorted l) : PairsSorted (insDescP x l) := by
  induction l with
  | nil => simp [insDescP, PairsSorted]
  | cons y ys ih =>
    rw [insDescP]
    rcases List.pairwise_cons.mp h with ⟨hy, hys⟩
    by_cases hx : x.2 ≤ y.2
    · simp only [if_pos hx]
      refine List.pairwise_cons.mpr ⟨?_, ih hys⟩
      intro z hz
      rcases List.mem_cons.mp ((insDescP_perm x ys).mem_iff.mp hz) with hz1 | hz2
      · exact hz1 ▸ hx
      · exact hy z hz2
    · simp only [if_neg hx]
      refine List.pairwise_cons.mpr ⟨?_, h⟩
      intro z hz
      rcases List.mem_cons.mp hz with hz1 | hz2
      · exact hz1 ▸ le_of_lt (lt_of_not_le hx)
      · exact le_trans (hy z hz2) (le_of_lt (lt_of_not_le hx))

theorem sortDescP_sorted_aux (l : List (List α × ℚ)) :
    ∀ acc, PairsSorted acc →
      PairsSorted (l.foldl (fun acc x => insDescP x acc) acc) := by
  induction l with
  | nil => intro acc h; exact h
  | cons x xs ih => intro acc h; exact ih _ (insDescP_sorted x acc h)

theorem sortDescP_sorted (l : List (List α × ℚ)) : PairsSorted (sortDescP l) :=
  sortDescP_sorted_aux l [] List.Pairwise.nil

/-! ### Truncation lemmas for `autocomplete_helper` -/

/-- One loop iteration of `autocomplete_helper`. -/
theorem helperGo_cons (limit : Option ℤ) (s : PT α) (rest : List (PT α))
    (acc : List (List α × ℚ)) :
    helperGo limit (s :: rest) acc =
      if limitHit limit acc.length then acc
      else helperGo limit rest
        (if !is_leaf s then
          acc ++ helperSub (limit.map (fun l => l - acc.length)) s
         else acc ++ [(nvList s.value, s.weight)]) := by
  rw [helperGo]

theorem helperGo_acc (subs : List (PT α)) :
    ∀ acc, helperGo none subs acc = acc ++ helperGo none subs [] := by
  induction subs with
  | nil => intro acc; simp [helperGo]
  | cons s rest ih =>
    intro acc
    rw [helperGo_cons, helperGo_cons]
    simp only [limitHit, Bool.false_eq_true, if_false, Option.map_none']
    by_cases hleaf : is_leaf s
    · simp only [hleaf, Bool.not_true, Bool.false_eq_true, if_false]
      rw [ih (acc ++ [(nvList s.value, s.weight)]),
        ih ([] ++ [(nvList s.value, s.weight)])]
      simp
    · simp only [hleaf, Bool.not_false, if_true]
      rw [ih (acc ++ helperSub none s), ih ([] ++ helperSub none s)]
      simp

theorem take_append_take (m : ℕ) (x y : List (List α × ℚ)) :
    (x.take m ++ y).take m = (x ++ y).take m := by
  rw [List.take_append_eq_append_take, List.take_append_eq_append_take,
    List.take_take, List.length_take]
  congr 2
  · omega
  · omega

mutual

theorem helperGo_take : ∀ (subs : List (PT α)) (acc : List (List α × ℚ)) (n : ℕ),
    acc.length ≤ n →
    helperGo (some (n : ℤ)) subs acc = (acc ++ helperGo none subs []).take n
  | [], acc, n, h => by
    rw [helperGo, helperGo]
    simp [List.take_of_length_le h]
  | s :: rest, acc, n, h => by
    rw [helperGo_cons]
    have hnone : helperGo none (s :: rest) [] =
        (if !is_leaf s then helperSub none s
         else [(nvList s.value, s.weight)]) ++ helperGo none rest [] := by
      rw [helperGo_cons]
      simp only [limitHit, Bool.false_eq_true, if_false, Option.map_none',
        List.nil_append]
      exact helperGo_acc rest _
    by_cases heq : acc.length = n
    · have hhit : limitHit (some (n : ℤ)) acc.length = true := by
        simp [limitHit, heq]
      rw [if_pos hhit, ← heq]
      exact (List.take_left' rfl).symm
    · have hlt : acc.length < n := lt_of_le_of_ne h heq
      have hhit : ¬ (limitHit (some (n : ℤ)) acc.length = true) := by
        simp [limitHit]; omega
      rw [if_neg hhit, hnone]
      by_cases hleaf : is_leaf s
      · simp only [hleaf, Bool.not_true, Bool.false_eq_true, if_false]
        rw [helperGo_take rest (acc ++ [(nvList s.value, s.weight)]) n
          (by simp; omega)]
        simp
      · simp only [hleaf, Bool.not_false, if_true]
        have hmap : (some (n : ℤ)).map (fun l => l - (acc.length : ℤ))
            = some ((n - acc.length : ℕ) : ℤ) := by
          simp only [Option.map_some']
          congr 1
          omega
        rw [hmap, helperSub_take s (n - acc.length)]
        rw [helperGo_take rest (acc ++ (helperSub none s).take (n - acc.length)) n
          (by simp [List.length_take]; omega)]
        rw [List.append_assoc]
        conv_lhs => rw [List.take_append_eq_append_take]
        conv_rhs => rw [List.take_append_eq_append_take]
        congr 1
        exact take_append_take (n - acc.length) (helperSub none s)
          (helperGo none rest [])

theorem helperSub_take : ∀ (t : PT α) (n : ℕ),
    helperSub (some (n : ℤ)) t = (helperSub none t).take n
  | .node nv w subs len, n => by
    rw [helperSub, helperSub]
    simpa using helperGo_take subs [] n (by simp)

end

mutual

theorem helperGo_neg : ∀ (subs : List (PT α)) (acc : List (List α × ℚ)) (l : ℤ),
    l < 0 → helperGo (some l) subs acc = helperGo none subs acc
  | [], acc, l, h => by rw [helperGo, helperGo]
  | s :: rest, acc, l, h => by
    have hhit : limitHit (some l) acc.length = false := by
      simp [limitHit]; omega
    rw [helperGo_cons, helperGo_cons, hhit]
    simp only [limitHit, Bool.false_eq_true, if_false, Option.map_some',
      Option.map_none']
    by_cases hleaf : is_leaf s
    · simp only [hleaf, Bool.not_true, Bool.false_eq_true, if_false]
      exact helperGo_neg rest _ l h
    · simp only [hleaf, Bool.not_false, if_true]
      rw [helperSub_neg s (l - acc.length) (by omega)]
      exact helperGo_neg rest _ l h

theorem helperSub_neg : ∀ (t : PT α) (l : ℤ),
    l < 0 → helperSub (some l) t = helperSub none t
  | .node nv w subs len, l, h => by
    rw [helperSub, helperSub]
    exact helperGo_neg subs [] l h

end

/-- `autoWalk` is the recursion on the first subtree accepted by
`get_matching_subtree`. -/
theorem autoWalk_eq_find (both : Bool) (subs : List (PT α)) (ps : List α)
    (limit : Option ℤ) :
    autoWalk both subs ps limit
      = (subs.find? (matchesQ (.pfx ps) both)).map
          (fun s => autocompleteGen both s ps limit) := by
  induction subs with
  | nil => simp [autoWalk]
  | cons s rest ih =>
    rw [autoWalk, List.find?]
    by_cases hm : matchesQ (.pfx ps) both s
    · simp [hm]
    · simp only [hm, Bool.false_eq_true, if_false, ih]

theorem sizeOf_pos (t : PT α) : 0 < sizeOf t := by
  cases t; simp

/-- One unfolding step of `autocomplete`. -/
theorem autocompleteGen_node (both : Bool) (nv : NVal α) (tw : ℚ)
    (subs : List (PT α)) (len : ℤ) (ps : List α) (limit : Option ℤ) :
    autocompleteGen both (.node nv tw subs len) ps limit =
      if tw == 0 then []
      else if nvEqList nv ps || nvTakeEq nv ps then
        sortDescP (helperGo (limitNorm limit) subs [])
      else
        match autoWalk both subs ps limit with
        | some r => r
        | none => [] := by
  rw [autocompleteGen]

theorem auto_limit_facts (n : ℕ) : ∀ (t : PT α), sizeOf t ≤ n →
    ∀ (both : Bool) (ps : List α) (k : ℕ), 0 < k →
    (autocompleteGen both t ps (some (k : ℤ))).length ≤ k ∧
    PairsSorted (autocompleteGen both t ps (some (k : ℤ))) ∧
    (∀ x ∈ autocompleteGen both t ps (some (k : ℤ)),
      x ∈ autocompleteGen both t ps none) := by
  induction n with
  | zero =>
    intro t ht
    exact absurd (lt_of_lt_of_le (sizeOf_pos t) ht) (lt_irrefl 0)
  | succ n ih =>
    rintro ⟨nv, tw, subs, len⟩ ht both ps k hk
    rw [autocompleteGen_node, autocompleteGen_node]
    by_cases h0 : tw == 0
    · rw [if_pos h0]
      exact ⟨by simp, List.Pairwise.nil, by simp⟩
    · rw [if_neg h0, if_neg h0]
      by_cases hm : (nvEqList nv ps || nvTakeEq nv ps) = true
      · rw [if_pos hm, if_pos hm]
        have hk0 : limitNorm (some (k : ℤ)) = some (k : ℤ) := by
          simp [limitNorm]
          omega
        have hnn : limitNorm (none : Option ℤ) = none := rfl
        rw [hk0, hnn, helperGo_take subs [] k (by simp), List.nil_append]
        refine ⟨?_, sortDescP_sorted _, ?_⟩
        · rw [(sortDescP_perm _).length_eq, List.length_take]
          omega
        · intro x hx
          have hx2 := (sortDescP_perm _).mem_iff.mp hx
          exact (sortDescP_perm _).mem_iff.mpr
            (List.take_subset k (helperGo none subs []) hx2)
      · rw [if_neg hm, if_neg hm, autoWalk_eq_find, autoWalk_eq_find]
        cases hf : subs.find? (matchesQ (.pfx ps) both) with
        | none => exact ⟨by simp, by simp [PairsSorted], by simp⟩
        | some s =>
          simp only [Option.map_some']
          have hs : sizeOf s < sizeOf (PT.node nv tw subs len) :=
            sizeOf_mem_lt (t := PT.node nv tw subs len)
              (List.mem_of_find?_eq_some hf)
          exact ih s (by omega) both ps k hk

theorem auto_nonpos_limit (n : ℕ) : ∀ (t : PT α), sizeOf t ≤ n →
    ∀ (both : Bool) (ps : List α) (l : ℤ), l ≤ 0 →
    autocompleteGen both t ps (some l) = autocompleteGen both t ps none := by
  induction n with
  | zero =>
    intro t ht
    exact absurd (lt_of_lt_of_le (sizeOf_pos t) ht) (lt_irrefl 0)
  | succ n ih =>
    rintro ⟨nv, tw, subs, len⟩ ht both ps l hl
    rw [autocompleteGen_node, autocompleteGen_node]
    by_cases h0 : tw == 0
    · rw [if_pos h0, if_pos h0]
    · rw [if_neg h0, if_neg h0]
      by_cases hm : (nvEqList nv ps || nvTakeEq nv ps) = true
      · rw [if_pos hm, if_pos hm]
        rcases lt_or_eq_of_le hl with hneg | hzero
        · have hlim : limitNorm (some l) = some l := by
            simp [limitNorm]
            omega
          rw [hlim, helperGo_neg subs [] l hneg]
          rfl
        · subst hzero
          rfl
      · rw [if_neg hm, if_neg hm, autoWalk_eq_find, autoWalk_eq_find]
        cases hf : subs.find? (matchesQ (.pfx ps) both) with
        | none => rfl
        | some s =>
          simp only [Option.map_some']
          have hs : sizeOf s < sizeOf (PT.node nv tw subs len) :=
            sizeOf_mem_lt (t := PT.node nv tw subs len)
              (List.mem_of_find?_eq_some hf)
          rw [ih s (by omega) both ps l hl]

theorem insert_spt_len (wt : WType) (t : PT α) (v : List α) (w : ℚ)
    (ps rest : List α) : (insert_spt wt t v w ps rest).len = t.len + 1 := by
  rw [insert_spt.eq_def]
  rfl

theorem insertS_empty_len (wt : WType) (v : List α) (w : ℚ) (ps : List α) :
    (insertS wt (emptyTree : PT α) v w ps).len = 1 := by
  cases ps with
  | nil =>
    rw [show (emptyTree : PT α) = .node (.pfx []) 0 [] 0 from rfl, insertS]
    simp [insert_spt_len]
  | cons p pr =>
    rw [show (emptyTree : PT α) = .node (.pfx []) 0 [] 0 from rfl, insertS]
    simp [insertSWalk, nvEqList, nvLen, nvList, insert_spt_len]

/-- C6: the original claim says `autocomplete(p, k)` is a prefix (by
weight order) of `autocomplete(p, None)`.  On the tree `exTrunc` the
heaviest subtree (weight 10) is traversed first and contributes its
light leaf `pb` (weight 1) before the limit is reached, so the
truncated result `[(pa,9),(pb,1)]` is not a prefix of the full
`[(pa,9),(q,5),(pb,1)]`: the limit is applied to the depth-first
traversal before sorting. -/
theorem C6_truncation_counterexample :
    autocompleteGen false exTrunc ['x'] (some 2)
      = [(['p', 'a'], 9), (['p', 'b'], 1)] ∧
    autocompleteGen false exTrunc ['x'] none
      = [(['p', 'a'], 9), (['q'], 5), (['p', 'b'], 1)] ∧
    ¬ pre (autocompleteGen false exTrunc ['x'] (some 2))
        (autocompleteGen false exTrunc ['x'] none) := by
  have h1 : autocompleteGen false exTrunc ['x'] (some 2)
      = [(['p', 'a'], 9), (['p', 'b'], 1)] := by
    norm_num +decide [exTrunc, insertS, insertSWalk, insert_spt, emptyTree, is_empty,
      is_leaf, nvEqList, nvTakeEq, nvLen, nvList, matchesQ, sortDesc, insDesc,
      addWFirst, get_aggr_weight, get_total_leaf_weights, sumLens, autocompleteGen,
      autoWalk, helperGo, helperSub, limitNorm, limitHit, sortDescP, insDescP]
  have h2 : autocompleteGen false exTrunc ['x'] none
      = [(['p', 'a'], 9), (['q'], 5), (['p', 'b'], 1)] := by
    norm_num +decide [exTrunc, insertS, insertSWalk, insert_spt, emptyTree, is_empty,
      is_leaf, nvEqList, nvTakeEq, nvLen, nvList, matchesQ, sortDesc, insDesc,
      addWFirst, get_aggr_weight, get_total_leaf_weights, sumLens, autocompleteGen,
      autoWalk, helperGo, helperSub, limitNorm, limitHit, sortDescP, insDescP]
  refine ⟨h1, h2, ?_⟩
  rw [h1, h2]
  intro hpre
  rw [pre] at hpre
  simp at hpre

/-- C6 (amended): `autocomplete(p, k)` with `k > 0` returns at most `k`
results, ordered by non-increasing weight, each of which also appears
in `autocomplete(p, None)`; the limit is applied to the depth-first
traversal before sorting, so the retained results need not be the `k`
heaviest. -/
theorem C6_amended_limit_truncation (both : Bool) (t : PT α) (ps : List α)
    (k : ℕ) (hk : 0 < k) :
    (autocompleteGen both t ps (some (k : ℤ))).length ≤ k ∧
    PairsSorted (autocompleteGen both t ps (some (k : ℤ))) ∧
    ∀ x ∈ autocompleteGen both t ps (some (k : ℤ)),
      x ∈ autocompleteGen both t ps none :=
  auto_limit_facts (sizeOf t) t le_rfl both ps k hk

/-- Witness for C6 (amended) at `exTrunc`, query `['x']`, limit 2. -/
theorem C6_amended_witness :
    0 < 2 ∧
    ((autocompleteGen false exTrunc ['x'] (some (2 : ℤ))).length ≤ 2 ∧
     PairsSorted (autocompleteGen false exTrunc ['x'] (some (2 : ℤ))) ∧
     ∀ x ∈ autocompleteGen false exTrunc ['x'] (some (2 : ℤ)),
       x ∈ autocompleteGen false exTrunc ['x'] none) :=
  ⟨by norm_num, C6_amended_limit_truncation false exTrunc ['x'] 2 (by norm_num)⟩

/-- C7: the original claim says insert with weight ≤ 0 "performs no
mutation of the tree" (after reporting an error).  The code checks
nothing: inserting weight −1 into the empty tree builds the chain with
weight −1 throughout, and `autocomplete` with limit 0 silently returns
every match. -/
theorem C7_no_error_counterexample :
    insertS .wsum (emptyTree : PT Char) ['a'] (-1) ['x']
      = PT.node (.pfx []) (-1)
          [PT.node (.pfx ['x']) (-1) [PT.node (.val ['a']) (-1) [] 1] 1] 1 ∧
    insertS .wsum (emptyTree : PT Char) ['a'] (-1) ['x'] ≠ emptyTree ∧
    autocompleteGen false exTrunc ['x'] (some 0)
      = [(['p', 'a'], 9), (['q'], 5), (['p', 'b'], 1)] := by
  have h1 : insertS .wsum (emptyTree : PT Char) ['a'] (-1) ['x']
      = PT.node (.pfx []) (-1)
          [PT.node (.pfx ['x']) (-1) [PT.node (.val ['a']) (-1) [] 1] 1] 1 := by
    norm_num +decide [insertS, insertSWalk, insert_spt, emptyTree, nvEqList, nvLen,
      nvList, matchesQ, sortDesc, insDesc, get_aggr_weight, sumLens]
  refine ⟨h1, ?_, ?_⟩
  · rw [h1, emptyTree]
    intro h
    have := congrArg PT.len h
    simp at this
  · norm_num +decide [exTrunc, insertS, insertSWalk, insert_spt, emptyTree, is_empty,
      is_leaf, nvEqList, nvTakeEq, nvLen, nvList, matchesQ, sortDesc, insDesc,
      addWFirst, get_aggr_weight, get_total_leaf_weights, sumLens, autocompleteGen,
      autoWalk, helperGo, helperSub, limitNorm, limitHit, sortDescP, insDescP]

/-- C7 (amended): the preconditions are not checked.  `autocomplete`
with limit ≤ 0 behaves exactly like limit `None` (0 is falsy and is
replaced by "unbounded", a negative limit never equals the collected
count), and `insert` of either variant with non-positive weight
performs the insertion, mutating the tree (the compressed variant even
stores the non-positive weight at the root). -/
theorem C7_amended_no_precondition_checks :
    (∀ (both : Bool) (t : PT α) (ps : List α) (l : ℤ), l ≤ 0 →
      autocompleteGen both t ps (some l) = autocompleteGen both t ps none) ∧
    (∀ (wt : WType) (v : List α) (w : ℚ) (ps : List α), w ≤ 0 →
      insertS wt (emptyTree : PT α) v w ps ≠ emptyTree) ∧
    (∀ (wt : WType) (v : List α) (w : ℚ) (ps : List α), w ≤ 0 →
      insertC wt (emptyTree : PT α) v w ps ≠ emptyTree ∧
      (insertC wt (emptyTree : PT α) v w ps).weight = w) := by
  refine ⟨?_, ?_, ?_⟩
  · intro both t ps l hl
    exact auto_nonpos_limit (sizeOf t) t le_rfl both ps l hl
  · intro wt v w ps hw heq
    have := congrArg PT.len heq
    rw [insertS_empty_len] at this
    simp [emptyTree] at this
  · intro wt v w ps hw
    have hempty : is_empty (emptyTree : PT α) = true := by
      simp [is_empty, emptyTree, PT.weight]
    rw [insertC, if_pos hempty]
    constructor
    · intro heq
      have := congrArg PT.len heq
      rw [insert_into_empty, PT.len] at this
      simp [emptyTree, PT.len] at this
    · rw [insert_into_empty, PT.weight]

/-- Witness for C7 (amended) at limit −1 and weight −1. -/
theorem C7_amended_witness :
    ((-1 : ℤ) ≤ 0 ∧
      autocompleteGen false exTrunc ['x'] (some (-1))
        = autocompleteGen false exTrunc ['x'] none) ∧
    ((-1 : ℚ) ≤ 0 ∧
      insertS .wsum (emptyTree : PT Char) ['a'] (-1) ['x'] ≠ emptyTree) ∧
    ((-1 : ℚ) ≤ 0 ∧
      insertC .wsum (emptyTree : PT Char) ['a'] (-1) ['x'] ≠ emptyTree ∧
      (insertC .wsum (emptyTree : PT Char) ['a'] (-1) ['x']).weight = -1) :=
  ⟨⟨by norm_num,
    C7_amended_no_precondition_checks.1 false exTrunc ['x'] (-1) (by norm_num)⟩,
   ⟨by norm_num,
    C7_amended_no_precondition_checks.2.1 .wsum ['a'] (-1) ['x'] (by norm_num)⟩,
   ⟨by norm_num,
    C7_amended_no_precondition_checks.2.2 .wsum ['a'] (-1) ['x'] (by norm_num)⟩⟩

/-- C9: the original claim says the average-mode root weight is the
total leaf weight divided by the number of distinct stored values.
After inserting the value `a` (weight 1, empty prefix) twice into an
average-mode simple tree, the tree holds two leaves for the single
distinct value `a`: the root weight is 1 (= 2/2, total over stored
leaves) while total leaf weight divided by distinct count is 2/1 = 2. -/
theorem C9_average_weight_counterexample :
    exDupAvg = PT.node (.pfx []) 1
      [PT.node (.val ['a']) 1 [] 1, PT.node (.val ['a']) 1 [] 1] 2 ∧
    exDupAvg.weight = 1 ∧
    totalLeafWeight exDupAvg = 2 ∧
    distinctVals exDupAvg = [['a']] ∧
    exDupAvg.weight
      ≠ totalLeafWeight exDupAvg / ((distinctVals exDupAvg).length : ℚ) := by
  have he : exDupAvg = PT.node (.pfx []) 1
      [PT.node (.val ['a']) 1 [] 1, PT.node (.val ['a']) 1 [] 1] 2 := by
    norm_num +decide [exDupAvg, insertS, insertSWalk, insert_spt, emptyTree,
      is_empty, is_leaf, nvEqList, nvTakeEq, nvLen, nvList, matchesQ, sortDesc,
      insDesc, addWFirst, get_aggr_weight, get_total_leaf_weights, sumLens]
  have h2 : totalLeafWeight exDupAvg = 2 := by
    rw [he]
    norm_num +decide [totalLeafWeight, entries, entriesL, is_leaf, nvList]
  have h3 : distinctVals exDupAvg = [['a']] := by
    rw [he]
    norm_num +decide [distinctVals, storedVals, entries, entriesL, is_leaf, nvList,
      List.dedup]
  refine ⟨he, by simp [he], h2, h3, ?_⟩
  rw [h2, h3, he]
  norm_num

/-! ### Well-formed trees

`WF both t` is the representation invariant documented for the two
classes (`both = false`: `SimplePrefixTree`, whose non-leaf subtree
labels extend the parent's by exactly one element; `both = true`:
`CompressedPrefixTree`, whose non-leaf subtree labels strictly extend
the parent's, and any two of them diverge within one element of the
parent label). -/

/-- The `value` holds a prefix list. -/
def isPfx : NVal α → Bool
  | .pfx _ => true
  | .val _ => false

/-- The `value` holds a stored value. -/
def isVal : NVal α → Bool
  | .pfx _ => false
  | .val _ => true

/-- The labels of the non-leaf subtrees. -/
def branchLabels (subs : List (PT α)) : List (List α) :=
  subs.filterMap (fun s => if s.subtrees.isEmpty then none else some (nvList s.value))

/-- How a non-leaf subtree's label must relate to its parent's value:
one extra element in the simple variant, any strict extension in the
compressed variant. -/
def childLabelOK (both : Bool) (nv : NVal α) : NVal α → Bool
  | .pfx m =>
    (if both then decide (nvLen nv < m.length) else m.length == nvLen nv + 1)
      && m.take (nvLen nv) == nvList nv
  | .val _ => false

mutual

/-- Representation invariant of a tree node (see section header). -/
def WF (both : Bool) : PT α → Bool
  | .node nv w subs _ =>
    isPfx nv &&
    (w != 0 || subs.isEmpty) &&
    subs.all (fun s => !is_empty s) &&
    subs.all (fun s => !s.subtrees.isEmpty || isVal s.value) &&
    subs.all (fun s => s.subtrees.isEmpty || childLabelOK both nv s.value) &&
    decide (((branchLabels subs).map (fun m => m.take (nvLen nv + 1))).Nodup) &&
    WFL both subs

def WFL (both : Bool) : List (PT α) → Bool
  | [] => true
  | s :: rest => (s.subtrees.isEmpty || WF both s) && WFL both rest

end

/-- `SimplePrefixTree` well-formedness. -/
def WFs (t : PT α) : Bool := WF false t

/-- `CompressedPrefixTree` well-formedness. -/
def WFc (t : PT α) : Bool := WF true t

/-! ### Initial-segment lemmas -/

theorem preB_iff (a b : List α) : preB a b = true ↔ pre a b := by
  simp [preB, pre]

theorem pre_refl (a : List α) : pre a a := by
  simp [pre]

theorem pre_len {β : Type} {a b : List β} (h : pre a b) : a.length ≤ b.length := by
  have := congrArg List.length h
  simp [List.length_take] at this
  omega

theorem pre_trans {a b c : List α} (hab : pre a b) (hbc : pre b c) : pre a c := by
  rw [pre] at hab hbc ⊢
  have hl : a.length ≤ b.length := pre_len hab
  calc c.take a.length = (c.take b.length).take a.length := by
        rw [List.take_take]
        congr 1
        omega
    _ = b.take a.length := by rw [hbc]
    _ = a := hab

theorem pre_of_pre_of_le {a b c : List α} (hac : pre a c) (hbc : pre b c)
    (hl : a.length ≤ b.length) : pre a b := by
  rw [pre] at hac hbc ⊢
  calc b.take a.length = (c.take b.length).take a.length := by rw [hbc]
    _ = c.take a.length := by
        rw [List.take_take]
        congr 1
        omega
    _ = a := hac

theorem pre_comparable {a b c : List α} (hac : pre a c) (hbc : pre b c) :
    pre a b ∨ pre b a := by
  rcases le_total a.length b.length with h | h
  · exact Or.inl (pre_of_pre_of_le hac hbc h)
  · exact Or.inr (pre_of_pre_of_le hbc hac h)

theorem pre_eq_of_len {a b : List α} (h : pre a b) (hl : b.length ≤ a.length) :
    a = b := by
  rw [pre] at h
  rw [← h, List.take_of_length_le hl]

theorem pre_take_eq {a b : List α} (h : pre a b) {n : ℕ} (hn : n ≤ a.length) :
    b.take n = a.take n := by
  rw [pre] at h
  calc b.take n = (b.take a.length).take n := by
        rw [List.take_take]
        congr 1
        omega
    _ = a.take n := by rw [h]

/-! ### Entry lemmas -/

theorem entries_node (nv : NVal α) (w : ℚ) (subs : List (PT α)) (len : ℤ) :
    entries (.node nv w subs len) = entriesL (nvList nv) subs := by
  rw [entries]

theorem entriesL_cons (lab : List α) (s : PT α) (rest : List (PT α)) :
    entriesL lab (s :: rest)
      = (if is_leaf s then [(nvList s.value, s.weight, lab)] else entries s)
          ++ entriesL lab rest := by
  rw [entriesL]

theorem helperGo_entries : ∀ (subs : List (PT α)) (lab : List α),
    helperGo none subs [] = (entriesL lab subs).map (fun e => (e.1, e.2.1))
  | [], lab => by rw [helperGo, entriesL]; rfl
  | s :: rest, lab => by
    rw [helperGo_cons, entriesL_cons]
    simp only [limitHit, Bool.false_eq_true, if_false, Option.map_none',
      List.nil_append]
    rw [helperGo_acc rest, helperGo_entries rest lab, List.map_append]
    by_cases hleaf : is_leaf s
    · simp [hleaf]
    · simp only [hleaf, Bool.not_false, if_true, Bool.false_eq_true, if_false]
      congr 1
      cases s with
      | node nv w subs2 len =>
        rw [helperSub, entries_node, helperGo_entries subs2 (nvList nv)]

theorem mem_entriesL {e : List α × ℚ × List α} {lab : List α} :
    ∀ {subs : List (PT α)}, e ∈ entriesL lab subs ↔
      ∃ s ∈ subs, (is_leaf s = true ∧ e = (nvList s.value, s.weight, lab)) ∨
        (is_leaf s = false ∧ e ∈ entries s) := by
  intro subs
  induction subs with
  | nil => simp [entriesL]
  | cons s rest ih =>
    rw [entriesL_cons]
    by_cases hleaf : is_leaf s
    · simp only [hleaf, if_true, List.mem_append, List.mem_singleton, ih]
      constructor
      · rintro (he | ⟨s2, hs2, hc⟩)
        · exact ⟨s, List.mem_cons_self s rest, Or.inl ⟨hleaf, he⟩⟩
        · exact ⟨s2, List.mem_cons_of_mem s hs2, hc⟩
      · rintro ⟨s2, hs2, hc⟩
        rcases List.mem_cons.mp hs2 with rfl | hs2
        · rcases hc with ⟨_, he⟩ | ⟨hl, _⟩
          · exact Or.inl he
          · rw [hleaf] at hl; cases hl
        · exact Or.inr ⟨s2, hs2, hc⟩
    · simp only [hleaf, if_false, Bool.false_eq_true, List.mem_append, ih]
      constructor
      · rintro (he | ⟨s2, hs2, hc⟩)
        · exact ⟨s, List.mem_cons_self s rest,
            Or.inr ⟨Bool.eq_false_iff.mpr hleaf, he⟩⟩
        · exact ⟨s2, List.mem_cons_of_mem s hs2, hc⟩
      · rintro ⟨s2, hs2, hc⟩
        rcases List.mem_cons.mp hs2 with rfl | hs2
        · rcases hc with ⟨hl, _⟩ | ⟨_, he⟩
          · exact absurd hl hleaf
          · exact Or.inl he
        · exact Or.inr ⟨s2, hs2, hc⟩

/-! ### Destructors of the well-formedness invariant -/

theorem isPfx_dest {nv : NVal α} (h : isPfx nv = true) : ∃ L, nv = .pfx L := by
  cases nv with
  | pfx L => exact ⟨L, rfl⟩
  | val v => simp [isPfx] at h

theorem childLabelOK_dest {both : Bool} {L : List α} {nv2 : NVal α}
    (h : childLabelOK both (.pfx L) nv2 = true) :
    ∃ m, nv2 = .pfx m ∧ pre L m ∧ L.length < m.length ∧
      (both = false → m.length = L.length + 1) := by
  cases nv2 with
  | val v => simp [childLabelOK] at h
  | pfx m =>
    refine ⟨m, rfl, ?_⟩
    cases both with
    | true =>
      simp only [childLabelOK, if_true, Bool.and_eq_true, decide_eq_true_eq,
        beq_iff_eq, nvLen, nvList] at h
      exact ⟨h.2, h.1, by intro hc; cases hc⟩
    | false =>
      simp only [childLabelOK, if_false, Bool.and_eq_true, beq_iff_eq,
        Nat.succ_eq_add_one, nvLen, nvList, Bool.false_eq_true] at h
      exact ⟨h.2, by omega, fun _ => h.1⟩

theorem WFL_dest {both : Bool} : ∀ {subs : List (PT α)}, WFL both subs = true →
    ∀ s ∈ subs, s.subtrees ≠ [] → WF both s = true := by
  intro subs
  induction subs with
  | nil => intro _ s hs; cases hs
  | cons s rest ih =>
    intro h s2 hs2 hne
    rw [WFL, Bool.and_eq_true] at h
    rcases List.mem_cons.mp hs2 with rfl | hs2
    · rcases Bool.or_eq_true_iff.mp h.1 with he | hw
      · exact absurd (List.isEmpty_iff.mp he) hne
      · exact hw
    · exact ih h.2 s2 hs2 hne

theorem WF_node_dest {both : Bool} {nv : NVal α} {w : ℚ} {subs : List (PT α)}
    {len : ℤ} (h : WF both (.node nv w subs len) = true) :
    isPfx nv = true ∧ (w = 0 → subs = []) ∧
    (∀ s ∈ subs, s.subtrees = [] → isVal s.value = true) ∧
    (∀ s ∈ subs, s.subtrees ≠ [] → childLabelOK both nv s.value = true) ∧
    ((branchLabels subs).map (fun m => m.take (nvLen nv + 1))).Nodup ∧
    (∀ s ∈ subs, s.subtrees ≠ [] → WF both s = true) := by
  rw [WF] at h
  simp only [Bool.and_eq_true, List.all_eq_true, Bool.or_eq_true_iff,
    Bool.not_eq_true', bne_iff_ne, ne_eq, decide_eq_true_eq] at h
  obtain ⟨⟨⟨⟨⟨⟨hpfx, hw⟩, _⟩, hval⟩, hlab⟩, hnd⟩, hwfl⟩ := h
  refine ⟨hpfx, ?_, ?_, ?_, hnd, WFL_dest hwfl⟩
  · intro h0
    rcases hw with hw | hw
    · exact absurd h0 hw
    · exact List.isEmpty_iff.mp hw
  · intro s hs hne
    rcases hval s hs with h1 | h1
    · rw [hne] at h1
      simp at h1
    · exact h1
  · intro s hs hne
    rcases hlab s hs with h1 | h1
    · exact absurd (List.isEmpty_iff.mp h1) hne
    · exact h1

theorem is_leaf_false_of_branch {s : PT α} (h : s.subtrees ≠ []) :
    is_leaf s = false := by
  rw [is_leaf]
  cases hE : s.subtrees.isEmpty with
  | true => exact absurd (List.isEmpty_iff.mp hE) h
  | false => simp

theorem entries_childless {s : PT α} (h : s.subtrees = []) : entries s = [] := by
  cases s with
  | node nv w subs len =>
    simp only [PT.subtrees] at h
    subst h
    rw [entries_node, entriesL]

theorem branchLabels_cons (s : PT α) (rest : List (PT α)) :
    branchLabels (s :: rest) =
      if s.subtrees.isEmpty then branchLabels rest
      else nvList s.value :: branchLabels rest := by
  rw [branchLabels, List.filterMap_cons]
  cases hE : s.subtrees.isEmpty with
  | true => simp [branchLabels]
  | false => simp [branchLabels]

theorem mem_branchLabels {s2 : PT α} {rest : List (PT α)} (h : s2 ∈ rest)
    (hne : s2.subtrees ≠ []) : nvList s2.value ∈ branchLabels rest := by
  rw [branchLabels, List.mem_filterMap]
  refine ⟨s2, h, ?_⟩
  cases hE : s2.subtrees.isEmpty with
  | true => exact absurd (List.isEmpty_iff.mp hE) hne
  | false => simp

/-! ### Matching lemmas -/

theorem matchesQ_pfx_iff {ps m : List α} {both : Bool} {c : PT α}
    (hv : c.value = .pfx m) :
    matchesQ (.pfx ps) both c = true ↔ (pre m ps ∨ (both = true ∧ pre ps m)) := by
  cases c with
  | node nv w subs len =>
    simp only [PT.value] at hv
    subst hv
    simp [matchesQ, PT.value, pre, Bool.and_eq_true]

theorem matchesQ_pfx_value {ps : List α} {both : Bool} {c : PT α}
    (h : matchesQ (.pfx ps) both c = true) : ∃ m, c.value = .pfx m := by
  cases c with
  | node nv w subs len =>
    cases nv with
    | pfx m => exact ⟨m, rfl⟩
    | val v => simp [matchesQ, PT.value] at h

theorem matched_iff {L ps : List α} :
    (nvEqList (.pfx L) ps || nvTakeEq (.pfx L) ps) = true ↔ pre ps L := by
  simp only [nvEqList, nvTakeEq, Bool.or_eq_true_iff, beq_iff_eq, pre]
  constructor
  · rintro (rfl | h)
    · exact List.take_length L
    · exact h
  · exact fun h => Or.inr h

/-- `entries_ext`: every stored entry's prefix sequence starts with the
label of the node it lies under. -/
theorem entries_ext (both : Bool) : ∀ (n : ℕ) (t : PT α), sizeOf t ≤ n →
    WF both t = true → ∀ e ∈ entries t, pre (nvList t.value) e.2.2 := by
  intro n
  induction n with
  | zero => intro t ht; exact absurd ht (by have := sizeOf_pos t; omega)
  | succ n ih =>
    intro t ht hwf e he
    cases t with
    | node nv w subs len =>
      obtain ⟨hpfx, _, hval, hlab, _, hwfl⟩ := WF_node_dest hwf
      rw [entries_node] at he
      rw [PT.value]
      rcases mem_entriesL.mp he with ⟨s, hs, ⟨_, rfl⟩ | ⟨_, hes⟩⟩
      · exact pre_refl _
      · by_cases hne : s.subtrees = []
        · rw [entries_childless hne] at hes
          cases hes
        · obtain ⟨m, hm, hLm, _, _⟩ := childLabelOK_dest (hlab s hs hne)
          have hsz : sizeOf s ≤ n := by
            have := sizeOf_mem_lt (t := PT.node nv w subs len)
              (by simpa [PT.subtrees] using hs)
            omega
          have hrec := ih s hsz (hwfl s hs hne) e hes
          rw [hm, nvList] at hrec
          exact pre_trans hLm hrec

theorem entries_ext_of_wf {both : Bool} {t : PT α} (h : WF both t = true) :
    ∀ e ∈ entries t, pre (nvList t.value) e.2.2 :=
  entries_ext both (sizeOf t) t le_rfl h

/-- No entry below a non-matching subtree can start with the query. -/
theorem filter_nil_of_nomatch {both : Bool} {L ps m : List α} {s : PT α}
    (hv : s.value = .pfx m) (hwf : WF both s = true) (hLm : pre L m)
    (hlen : L.length < m.length)
    (hsimple : both = false → m.length = L.length + 1)
    (hnm : ¬ pre ps L) (hmatch : matchesQ (.pfx ps) both s = false) :
    (entries s).filter (fun e => preB ps e.2.2) = [] := by
  rw [List.filter_eq_nil]
  intro e he
  rw [Bool.not_eq_true, ← Bool.not_eq_true, preB_iff]
  intro hps
  have hme := entries_ext_of_wf hwf e he
  rw [hv, nvList] at hme
  have hnomatch := (not_iff_not.mpr (matchesQ_pfx_iff hv)).mp
    (by rw [hmatch]; exact Bool.false_ne_true)
  push_neg at hnomatch
  rcases pre_comparable hme hps with hmps | hpsm
  · exact hnomatch.1 hmps
  · cases both with
    | true => exact hnomatch.2 rfl hpsm
    | false =>
      rcases le_or_lt ps.length L.length with hle | hlt
      · exact hnm (pre_of_pre_of_le hpsm hLm hle)
      · have hml : m.length ≤ ps.length := by
          rw [hsimple rfl]; omega
        have : ps = m := pre_eq_of_len hpsm hml
        subst this
        exact hnomatch.1 (pre_refl ps)

/-- The query extends the node label strictly once some subtree
matches it but the node label itself does not. -/
theorem match_len_lt {both : Bool} {L ps ms : List α}
    (hLm : pre L ms) (hlen : L.length < ms.length)
    (hcomp : pre ms ps ∨ (both = true ∧ pre ps ms)) (hnm : ¬ pre ps L) :
    L.length < ps.length := by
  rcases hcomp with h | ⟨_, h⟩
  · have := pre_len h
    omega
  · by_contra hle
    push_neg at hle
    exact hnm (pre_of_pre_of_le h hLm hle)

/-- Any subtree label comparable with the query agrees with it on the
first `|L| + 1` elements. -/
theorem match_take_eq {L ps m : List α} (hcomp : pre m ps ∨ pre ps m)
    (hLp : L.length < ps.length) (hLm : L.length < m.length) :
    m.take (L.length + 1) = ps.take (L.length + 1) := by
  rcases hcomp with h | h
  · exact (pre_take_eq h (by omega)).symm
  · exact pre_take_eq h (by omega)

/-- When `get_matching_subtree` finds nothing and the node label does
not extend the query, no stored entry matches the query. -/
theorem filterL_find_none {both : Bool} {L ps : List α} (hnm : ¬ pre ps L) :
    ∀ subs : List (PT α),
    (∀ s ∈ subs, s.subtrees = [] → isVal s.value = true) →
    (∀ s ∈ subs, s.subtrees ≠ [] → childLabelOK both (.pfx L) s.value = true) →
    (∀ s ∈ subs, s.subtrees ≠ [] → WF both s = true) →
    subs.find? (matchesQ (.pfx ps) both) = none →
    (entriesL L subs).filter (fun e => preB ps e.2.2) = [] := by
  intro subs
  induction subs with
  | nil => intro _ _ _ _; rw [entriesL]; rfl
  | cons s rest ih =>
    intro hval hlab hwf hfind
    have hm : matchesQ (.pfx ps) both s = false := by
      cases hms : matchesQ (.pfx ps) both s with
      | true => rw [List.find?_cons_of_pos _ hms] at hfind; cases hfind
      | false => rfl
    rw [List.find?_cons_of_neg _ (by rw [hm]; exact Bool.false_ne_true)] at hfind
    rw [entriesL_cons, List.filter_append]
    have hrest := ih (fun s2 h2 => hval s2 (List.mem_cons_of_mem s h2))
      (fun s2 h2 => hlab s2 (List.mem_cons_of_mem s h2))
      (fun s2 h2 => hwf s2 (List.mem_cons_of_mem s h2)) hfind
    rw [hrest, List.append_nil]
    by_cases hleaf : is_leaf s
    · rw [if_pos hleaf]
      rw [List.filter_eq_nil]
      intro e he
      rw [List.mem_singleton] at he
      subst he
      rw [Bool.not_eq_true, ← Bool.not_eq_true, preB_iff]
      exact hnm
    · rw [if_neg hleaf]
      by_cases hne : s.subtrees = []
      · rw [entries_childless hne]; rfl
      · obtain ⟨m, hv, hLm, hlen, hsimple⟩ :=
          childLabelOK_dest (hlab s (List.mem_cons_self s rest) hne)
        exact filter_nil_of_nomatch hv
          (hwf s (List.mem_cons_self s rest) hne) hLm hlen hsimple hnm hm

/-- When `get_matching_subtree` finds a subtree and the node label does
not extend the query, all matching entries lie below that subtree. -/
theorem filterL_find_some {both : Bool} {L ps : List α} (hnm : ¬ pre ps L) :
    ∀ (subs : List (PT α)) (s : PT α),
    (∀ s2 ∈ subs, s2.subtrees = [] → isVal s2.value = true) →
    (∀ s2 ∈ subs, s2.subtrees ≠ [] → childLabelOK both (.pfx L) s2.value = true) →
    (∀ s2 ∈ subs, s2.subtrees ≠ [] → WF both s2 = true) →
    ((branchLabels subs).map (fun m => m.take (L.length + 1))).Nodup →
    subs.find? (matchesQ (.pfx ps) both) = some s →
    (entriesL L subs).filter (fun e => preB ps e.2.2)
      = (entries s).filter (fun e => preB ps e.2.2) := by
  intro subs
  induction subs with
  | nil => intro s _ _ _ _ hfind; cases hfind
  | cons s0 rest ih =>
    intro s hval hlab hwf hnd hfind
    rw [entriesL_cons, List.filter_append]
    cases hms : matchesQ (.pfx ps) both s0 with
    | false =>
      rw [List.find?_cons_of_neg _ (by rw [hms]; exact Bool.false_ne_true)]
        at hfind
      have hrest := ih s (fun s2 h2 => hval s2 (List.mem_cons_of_mem s0 h2))
        (fun s2 h2 => hlab s2 (List.mem_cons_of_mem s0 h2))
        (fun s2 h2 => hwf s2 (List.mem_cons_of_mem s0 h2))
        (by
          rw [branchLabels_cons] at hnd
          cases hE : s0.subtrees.isEmpty with
          | true => rw [hE] at hnd; simpa using hnd
          | false =>
            rw [hE] at hnd
            simp only [if_false, List.map_cons, List.nodup_cons,
              Bool.false_eq_true] at hnd
            exact hnd.2) hfind
      rw [hrest]
      have hhead : (if is_leaf s0 then [(nvList s0.value, s0.weight, L)]
          else entries s0).filter (fun e => preB ps e.2.2) = [] := by
        by_cases hleaf : is_leaf s0
        · rw [if_pos hleaf, List.filter_eq_nil]
          intro e he
          rw [List.mem_singleton] at he
          subst he
          rw [Bool.not_eq_true, ← Bool.not_eq_true, preB_iff]
          exact hnm
        · rw [if_neg hleaf]
          by_cases hne : s0.subtrees = []
          · rw [entries_childless hne]; rfl
          · obtain ⟨m, hv, hLm, hlen, hsimple⟩ :=
              childLabelOK_dest (hlab s0 (List.mem_cons_self s0 rest) hne)
            exact filter_nil_of_nomatch hv
              (hwf s0 (List.mem_cons_self s0 rest) hne) hLm hlen hsimple hnm hms
      rw [hhead, List.nil_append]
    | true =>
      rw [List.find?_cons_of_pos _ hms] at hfind
      injection hfind with hfind
      subst hfind
      obtain ⟨ms, hvs⟩ := matchesQ_pfx_value hms
      have hnes : s0.subtrees ≠ [] := by
        intro hc
        have := hval s0 (List.mem_cons_self s0 rest) hc
        rw [hvs, isVal] at this
        cases this
      obtain ⟨ms2, hvs2, hLms, hlens, _⟩ :=
        childLabelOK_dest (hlab s0 (List.mem_cons_self s0 rest) hnes)
      rw [hvs] at hvs2
      injection hvs2 with hvs2
      subst hvs2
      have hleaf : is_leaf s0 = false := is_leaf_false_of_branch hnes
      rw [hleaf]
      simp only [Bool.false_eq_true, if_false]
      have hcomps : pre ms ps ∨ (both = true ∧ pre ps ms) :=
        (matchesQ_pfx_iff hvs).mp hms
      have hLp : L.length < ps.length := match_len_lt hLms hlens hcomps hnm
      have hcomp2 : pre ms ps ∨ pre ps ms := by
        rcases hcomps with h | ⟨_, h⟩
        · exact Or.inl h
        · exact Or.inr h
      have htakes : ms.take (L.length + 1) = ps.take (L.length + 1) :=
        match_take_eq hcomp2 hLp hlens
      have hrest : (entriesL L rest).filter (fun e => preB ps e.2.2) = [] := by
        rw [List.filter_eq_nil]
        intro e he
        rw [Bool.not_eq_true, ← Bool.not_eq_true, preB_iff]
        intro hps
        rcases mem_entriesL.mp he with ⟨s2, hs2, ⟨_, rfl⟩ | ⟨_, hes2⟩⟩
        · exact hnm hps
        · by_cases hne2 : s2.subtrees = []
          · rw [entries_childless hne2] at hes2
            cases hes2
          · obtain ⟨m2, hv2, hLm2, hlen2, _⟩ := childLabelOK_dest
              (hlab s2 (List.mem_cons_of_mem s0 hs2) hne2)
            have hme2 := entries_ext_of_wf
              (hwf s2 (List.mem_cons_of_mem s0 hs2) hne2) e hes2
            rw [hv2, nvList] at hme2
            have htake2 : m2.take (L.length + 1) = ps.take (L.length + 1) :=
              match_take_eq (pre_comparable hme2 hps) hLp hlen2
            rw [branchLabels_cons] at hnd
            have hE : s0.subtrees.isEmpty = false := by
              cases hE : s0.subtrees.isEmpty with
              | true => exact absurd (List.isEmpty_iff.mp hE) hnes
              | false => rfl
            rw [hE] at hnd
            simp only [if_false, List.map_cons, List.nodup_cons,
              Bool.false_eq_true] at hnd
            refine hnd.1 ?_
            rw [List.mem_map]
            refine ⟨m2, ?_, by rw [htake2, ← htakes, hvs, nvList]⟩
            have := mem_branchLabels hs2 hne2
            rw [hv2, nvList] at this
            exact this
      rw [hrest, List.append_nil]

/-- The central C3 lemma: on a well-formed tree, an unlimited
`autocomplete` query returns a permutation of the matching stored
entries, sorted by non-increasing weight. -/
theorem auto_matchPairs (both : Bool) : ∀ (n : ℕ) (t : PT α), sizeOf t ≤ n →
    WF both t = true → ∀ ps : List α,
    List.Perm (autocompleteGen both t ps none) (matchPairs t ps) ∧
    PairsSorted (autocompleteGen both t ps none) := by
  intro n
  induction n with
  | zero => intro t ht; exact absurd ht (by have := sizeOf_pos t; omega)
  | succ n ih =>
    intro t ht hwf ps
    cases t with
    | node nv tw subs len =>
      obtain ⟨hpfx, hzero, hval, hlab, hnd, hwfl⟩ := WF_node_dest hwf
      obtain ⟨L, rfl⟩ := isPfx_dest hpfx
      rw [autocompleteGen_node]
      by_cases htw : tw = 0
      · rw [if_pos (by rw [htw]; rfl)]
        have hsubs := hzero htw
        subst hsubs
        constructor
        · rw [matchPairs, entries_node, entriesL]
          exact List.Perm.refl _
        · exact List.Pairwise.nil
      · rw [if_neg (by simpa using htw)]
        by_cases hmq : (nvEqList (.pfx L) ps || nvTakeEq (.pfx L) ps) = true
        · rw [if_pos hmq]
          have hpsL : pre ps L := matched_iff.mp hmq
          have hfilter : (entries (PT.node (.pfx L) tw subs len)).filter
              (fun e => preB ps e.2.2)
              = entries (PT.node (.pfx L) tw subs len) := by
            rw [List.filter_eq_self]
            intro e he
            rw [preB_iff]
            have := entries_ext_of_wf hwf e he
            simp only [PT.value, nvList] at this
            exact pre_trans hpsL this
          have hgo : helperGo (limitNorm none) subs []
              = (entriesL L subs).map (fun e => (e.1, e.2.1)) :=
            helperGo_entries subs L
          constructor
          · rw [hgo, matchPairs, hfilter, entries_node]
            exact sortDescP_perm _
          · rw [hgo]
            exact sortDescP_sorted _
        · rw [if_neg hmq]
          have hnm : ¬ pre ps L := fun h => hmq (matched_iff.mpr h)
          rw [autoWalk_eq_find]
          cases hfind : subs.find? (matchesQ (.pfx ps) both) with
          | none =>
            simp only [Option.map_none']
            constructor
            · rw [matchPairs, entries_node]
              simp only [nvList]
              rw [filterL_find_none hnm subs hval
                  (by simpa using hlab) hwfl hfind]
              exact List.Perm.refl _
            · exact List.Pairwise.nil
          | some s =>
            simp only [Option.map_some']
            have hmem : s ∈ subs := List.mem_of_find?_eq_some hfind
            have hms : matchesQ (.pfx ps) both s = true :=
              List.find?_some hfind
            obtain ⟨ms, hvs⟩ := matchesQ_pfx_value hms
            have hnes : s.subtrees ≠ [] := by
              intro hc
              have := hval s hmem hc
              rw [hvs, isVal] at this
              cases this
            have hwfs := hwfl s hmem hnes
            have hsz : sizeOf s ≤ n := by
              have := sizeOf_mem_lt (t := PT.node (.pfx L) tw subs len)
                (by simpa [PT.subtrees] using hmem)
              omega
            have hrec := ih s hsz hwfs ps
            have hfilter := filterL_find_some hnm subs s hval
              (by simpa using hlab) hwfl (by simpa [nvLen, nvList] using hnd)
              hfind
            refine ⟨?_, hrec.2⟩
            rw [matchPairs, entries_node]
            simp only [nvList]
            rw [hfilter]
            exact hrec.1

/-- C3: on every well-formed tree of either variant, an unlimited
`autocomplete(p)` query returns exactly the stored values whose prefix
sequence starts with `p` (a permutation of the matching `(value,
weight)` entries; the empty query matches everything since every
sequence starts with `[]`), ordered by non-increasing weight; and on
the concrete sum-mode trees built by inserting `cat` 2.0, `car` 4.0 and
`care` 3.0, `autocomplete(['c','a'])` returns
`[("car", 4.0), ("care", 3.0), ("cat", 2.0)]` in both variants. -/
theorem C3_autocomplete_returns_matching_sorted :
    (∀ (β : Type) [DecidableEq β] (t : PT β) (ps : List β), WFs t = true →
      List.Perm (autocompleteGen false t ps none) (matchPairs t ps) ∧
      PairsSorted (autocompleteGen false t ps none)) ∧
    (∀ (β : Type) [DecidableEq β] (t : PT β) (ps : List β), WFc t = true →
      List.Perm (autocompleteGen true t ps none) (matchPairs t ps) ∧
      PairsSorted (autocompleteGen true t ps none)) ∧
    autocompleteGen false exSCC ['c', 'a'] none
      = [(['c', 'a', 'r'], 4), (['c', 'a', 'r', 'e'], 3), (['c', 'a', 't'], 2)] ∧
    autocompleteGen true exCCC ['c', 'a'] none
      = [(['c', 'a', 'r'], 4), (['c', 'a', 'r', 'e'], 3), (['c', 'a', 't'], 2)] := by
  refine ⟨?_, ?_, ?_, ?_⟩
  · intro β _ t ps h
    rw [WFs] at h
    exact auto_matchPairs false (sizeOf t) t le_rfl h ps
  · intro β _ t ps h
    rw [WFc] at h
    exact auto_matchPairs true (sizeOf t) t le_rfl h ps
  · norm_num +decide [exSCC, insertS, insertSWalk, insert_spt, emptyTree, is_empty,
      is_leaf, nvEqList, nvTakeEq, nvLen, nvList, matchesQ, sortDesc, insDesc,
      addWFirst, get_aggr_weight, get_total_leaf_weights, sumLens, autocompleteGen,
      autoWalk, helperGo, helperSub, limitNorm, limitHit, sortDescP, insDescP]
  · norm_num +decide [exCCC, insertC, insert_cpt, merge_value, mergeAt,
      insert_into_empty, create_subtree, find_max_common_subtree, fmcsGo,
      find_common_prefix_len, emptyTree, is_empty, is_leaf, nvTruthy, nvEqList,
      nvTakeEq, nvLen, nvList, matchesQ, sortDesc, insDesc, get_aggr_weight,
      get_total_leaf_weights, sumLens, autocompleteGen, autoWalk, helperGo,
      helperSub, limitNorm, limitHit, sortDescP, insDescP]

/-- Witness for C3 at the two scenario trees. -/
theorem C3_witness :
    WFs exSCC = true ∧ WFc exCCC = true ∧
    (List.Perm (autocompleteGen false exSCC ['c', 'a'] none)
        (matchPairs exSCC ['c', 'a']) ∧
      PairsSorted (autocompleteGen false exSCC ['c', 'a'] none)) ∧
    (List.Perm (autocompleteGen true exCCC ['c', 'a'] none)
        (matchPairs exCCC ['c', 'a']) ∧
      PairsSorted (autocompleteGen true exCCC ['c', 'a'] none)) := by
  have h1 : WFs exSCC = true := by
    norm_num +decide [exSCC, insertS, insertSWalk, insert_spt, emptyTree, is_empty,
      is_leaf, nvEqList, nvTakeEq, nvLen, nvList, matchesQ, sortDesc, insDesc,
      addWFirst, get_aggr_weight, get_total_leaf_weights, sumLens, WFs, WF, WFL,
      isPfx, isVal, branchLabels, childLabelOK, List.nodup_cons, List.mem_cons,
      List.not_mem_nil, List.nodup_nil]
  have h2 : WFc exCCC = true := by
    norm_num +decide [exCCC, insertC, insert_cpt, merge_value, mergeAt,
      insert_into_empty, create_subtree, find_max_common_subtree, fmcsGo,
      find_common_prefix_len, emptyTree, is_empty, is_leaf, nvTruthy, nvEqList,
      nvTakeEq, nvLen, nvList, matchesQ, sortDesc, insDesc, get_aggr_weight,
      get_total_leaf_weights, sumLens, WFc, WF, WFL, isPfx, isVal, branchLabels,
      childLabelOK, List.nodup_cons, List.mem_cons, List.not_mem_nil,
      List.nodup_nil]
  exact ⟨h1, h2,
    C3_autocomplete_returns_matching_sorted.1 Char exSCC ['c', 'a'] h1,
    C3_autocomplete_returns_matching_sorted.2.1 Char exCCC ['c', 'a'] h2⟩

/-! ### C9: weight aggregation over insert sequences

`runS`/`runC` replay a list of `insert(value, weight, prefix)` requests
on an initially empty tree.  `sumOK` is the per-node `'sum'`-mode
aggregation rule (a node with subtrees weighs the sum of its subtrees'
weights; stored values are positive-weight leaves); `avgOK` is the
per-node `'average'`-mode rule maintained by the simple variant
(`weight * len` equals the total leaf weight of the node's subtrees,
`len` is the sum of the subtrees' `len`s). -/

/-- Replay of insert requests on `SimplePrefixTree`. -/
def runS (wt : WType) (reqs : List (List α × ℚ × List α)) : PT α :=
  reqs.foldl (fun t r => insertS wt t r.1 r.2.1 r.2.2) emptyTree

/-- Replay of insert requests on `CompressedPrefixTree`. -/
def runC (wt : WType) (reqs : List (List α × ℚ × List α)) : PT α :=
  reqs.foldl (fun t r => insertC wt t r.1 r.2.1 r.2.2) emptyTree

mutual

/-- `'sum'`-mode invariant (see section header). -/
def sumOK : PT α → Bool
  | .node nv w subs _ =>
    (match subs with
     | [] => isVal nv && decide (0 < w)
     | _ => isPfx nv && (w == (subs.map PT.weight).sum)) && sumOKL subs

def sumOKL : List (PT α) → Bool
  | [] => true
  | s :: rest => sumOK s && sumOKL rest

end

mutual

/-- `'average'`-mode invariant of the simple variant (see section
header). -/
def avgOK : PT α → Bool
  | .node nv w subs len =>
    (match subs with
     | [] => isVal nv && decide (0 < w) && len == 1
     | _ => isPfx nv && (len == sumLens subs)
         && (w * (len : ℚ) == get_total_leaf_weights subs)) && avgOKL subs

def avgOKL : List (PT α) → Bool
  | [] => true
  | s :: rest => avgOK s && avgOKL rest

end

theorem sumOKL_iff : ∀ {l : List (PT α)}, sumOKL l = true ↔ ∀ s ∈ l, sumOK s = true := by
  intro l
  induction l with
  | nil => simp [sumOKL]
  | cons s rest ih =>
    rw [sumOKL, Bool.and_eq_true, ih]
    constructor
    · rintro ⟨h1, h2⟩ s2 hs2
      rcases List.mem_cons.mp hs2 with rfl | hs2
      · exact h1
      · exact h2 s2 hs2
    · intro h
      exact ⟨h s (List.mem_cons_self s rest),
        fun s2 hs2 => h s2 (List.mem_cons_of_mem s hs2)⟩

theorem avgOKL_iff : ∀ {l : List (PT α)}, avgOKL l = true ↔ ∀ s ∈ l, avgOK s = true := by
  intro l
  induction l with
  | nil => simp [avgOKL]
  | cons s rest ih =>
    rw [avgOKL, Bool.and_eq_true, ih]
    constructor
    · rintro ⟨h1, h2⟩ s2 hs2
      rcases List.mem_cons.mp hs2 with rfl | hs2
      · exact h1
      · exact h2 s2 hs2
    · intro h
      exact ⟨h s (List.mem_cons_self s rest),
        fun s2 hs2 => h s2 (List.mem_cons_of_mem s hs2)⟩

theorem sumOK_nil_iff {nv : NVal α} {w : ℚ} {len : ℤ} :
    sumOK (.node nv w [] len) = true ↔ isVal nv = true ∧ 0 < w := by
  rw [sumOK]
  simp [sumOKL]

theorem sumOK_cons_iff {nv : NVal α} {w : ℚ} {s : PT α} {rest : List (PT α)}
    {len : ℤ} :
    sumOK (.node nv w (s :: rest) len) = true ↔
      isPfx nv = true ∧ w = ((s :: rest).map PT.weight).sum ∧
        ∀ x ∈ s :: rest, sumOK x = true := by
  rw [sumOK]
  simp [Bool.and_eq_true, sumOKL_iff, and_assoc]
  exact fun h => List.noConfusion h

theorem avgOK_nil_iff {nv : NVal α} {w : ℚ} {len : ℤ} :
    avgOK (.node nv w [] len) = true ↔ isVal nv = true ∧ 0 < w ∧ len = 1 := by
  rw [avgOK]
  simp [avgOKL, and_assoc]

theorem avgOK_cons_iff {nv : NVal α} {w : ℚ} {s : PT α} {rest : List (PT α)}
    {len : ℤ} :
    avgOK (.node nv w (s :: rest) len) = true ↔
      isPfx nv = true ∧ len = sumLens (s :: rest) ∧
        w * (len : ℚ) = get_total_leaf_weights (s :: rest) ∧
        ∀ x ∈ s :: rest, avgOK x = true := by
  rw [avgOK]
  simp [Bool.and_eq_true, avgOKL_iff, and_assoc]
  exact fun h => List.noConfusion h

/-- A `sumOK` node holding a prefix label has subtrees. -/
theorem sumOK_pfx_branch {t : PT α} {m : List α} (h : sumOK t = true)
    (hv : t.value = .pfx m) : t.subtrees ≠ [] := by
  cases t with
  | node nv w subs len =>
    simp only [PT.value] at hv
    subst hv
    cases subs with
    | nil =>
      rcases sumOK_nil_iff.mp h with ⟨h1, _⟩
      rw [isVal] at h1
      cases h1
    | cons s rest => simp [PT.subtrees]

/-- A `sumOK` node holding a stored value is childless. -/
theorem sumOK_val_leaf {t : PT α} {v : List α} (h : sumOK t = true)
    (hv : t.value = .val v) : t.subtrees = [] := by
  cases t with
  | node nv w subs len =>
    simp only [PT.value] at hv
    subst hv
    cases subs with
    | nil => rfl
    | cons s rest =>
      rcases sumOK_cons_iff.mp h with ⟨h1, _⟩
      rw [isPfx] at h1
      cases h1

theorem avgOK_pfx_branch {t : PT α} {m : List α} (h : avgOK t = true)
    (hv : t.value = .pfx m) : t.subtrees ≠ [] := by
  cases t with
  | node nv w subs len =>
    simp only [PT.value] at hv
    subst hv
    cases subs with
    | nil =>
      rcases avgOK_nil_iff.mp h with ⟨h1, _⟩
      rw [isVal] at h1
      cases h1
    | cons s rest => simp [PT.subtrees]

theorem avgOK_val_leaf {t : PT α} {v : List α} (h : avgOK t = true)
    (hv : t.value = .val v) : t.subtrees = [] := by
  cases t with
  | node nv w subs len =>
    simp only [PT.value] at hv
    subst hv
    cases subs with
    | nil => rfl
    | cons s rest =>
      rcases avgOK_cons_iff.mp h with ⟨h1, _⟩
      rw [isPfx] at h1
      cases h1

/-- Every `sumOK` node has positive weight. -/
theorem sumOK_pos : ∀ (n : ℕ) (t : PT α), sizeOf t ≤ n → sumOK t = true →
    0 < t.weight := by
  intro n
  induction n with
  | zero => intro t ht; exact absurd ht (by have := sizeOf_pos t; omega)
  | succ n ih =>
    intro t ht h
    cases t with
    | node nv w subs len =>
      cases subs with
      | nil =>
        rw [PT.weight]
        exact (sumOK_nil_iff.mp h).2
      | cons s rest =>
        rcases sumOK_cons_iff.mp h with ⟨_, hw, hall⟩
        rw [PT.weight, hw]
        refine List.sum_pos _ ?_ (by simp)
        intro x hx
        rw [List.mem_map] at hx
        obtain ⟨s2, hs2, rfl⟩ := hx
        have hsz : sizeOf s2 ≤ n := by
          have := sizeOf_mem_lt (t := PT.node nv w (s :: rest) len)
            (by simpa [PT.subtrees] using hs2)
          omega
        exact ih s2 hsz (hall s2 hs2)

/-- Every `avgOK` node records a positive `len`. -/
theorem avgOK_len_pos : ∀ (n : ℕ) (t : PT α), sizeOf t ≤ n → avgOK t = true →
    1 ≤ t.len := by
  intro n
  induction n with
  | zero => intro t ht; exact absurd ht (by have := sizeOf_pos t; omega)
  | succ n ih =>
    intro t ht h
    cases t with
    | node nv w subs len =>
      cases subs with
      | nil =>
        rw [PT.len, (avgOK_nil_iff.mp h).2.2]
      | cons s rest =>
        rcases avgOK_cons_iff.mp h with ⟨_, hlen, _, hall⟩
        rw [PT.len, hlen]
        have hrest : 0 ≤ sumLens rest := by
          rw [sumLens]
          refine List.sum_nonneg ?_
          intro x hx
          rw [List.mem_map] at hx
          obtain ⟨s2, hs2, rfl⟩ := hx
          have hsz : sizeOf s2 ≤ n := by
            have := sizeOf_mem_lt (t := PT.node nv w (s :: rest) len)
              (by rw [PT.subtrees]; exact List.mem_cons_of_mem s hs2)
            omega
          have := ih s2 hsz (hall s2 (List.mem_cons_of_mem s hs2))
          omega
        have hs : 1 ≤ s.len := by
          have hsz : sizeOf s ≤ n := by
            have := sizeOf_mem_lt (t := PT.node nv w (s :: rest) len)
              (by rw [PT.subtrees]; exact List.mem_cons_self s rest)
            omega
          exact ih s hsz (hall s (List.mem_cons_self s rest))
        have : sumLens (s :: rest) = s.len + sumLens rest := by
          simp [sumLens]
        omega

/-- On `avgOK` subtrees, `get_total_leaf_weights` is the total weight
of the stored entries. -/
theorem gtlw_entriesL : ∀ (n : ℕ) (subs : List (PT α)), sizeOf subs ≤ n →
    (∀ s ∈ subs, avgOK s = true) → ∀ lab : List α,
    get_total_leaf_weights subs
      = ((entriesL lab subs).map (fun e => e.2.1)).sum := by
  intro n
  induction n with
  | zero =>
    intro subs hsz
    cases subs with
    | nil => intro _ lab; rw [entriesL]; rfl
    | cons s rest =>
      simp only [List.cons.sizeOf_spec] at hsz
      omega
  | succ n ih =>
    intro subs hsz hall lab
    cases subs with
    | nil => rw [entriesL]; rfl
    | cons s rest =>
      have hszr : sizeOf rest ≤ n := by
        simp only [List.cons.sizeOf_spec] at hsz
        have := sizeOf_pos s
        omega
      rw [entriesL_cons, List.map_append, List.sum_append,
        ← ih rest hszr (fun x hx => hall x (List.mem_cons_of_mem s hx)) lab]
      have hdecomp : get_total_leaf_weights (s :: rest)
          = (if is_leaf s then s.weight else s.weight * (s.len : ℚ))
            + get_total_leaf_weights rest := by
        simp [get_total_leaf_weights]
      rw [hdecomp]
      congr 1
      have havg := hall s (List.mem_cons_self s rest)
      cases s with
      | node nv2 w2 subs2 len2 =>
        cases subs2 with
        | nil =>
          rcases avgOK_nil_iff.mp havg with ⟨_, hpos, _⟩
          have hleaf : is_leaf (PT.node nv2 w2 [] len2) = true := by
            simp [is_leaf, PT.weight, PT.subtrees, hpos]
          rw [hleaf]
          simp [PT.weight]
        | cons s2 rest2 =>
          rcases avgOK_cons_iff.mp havg with ⟨_, _, hw, hall2⟩
          have hleaf : is_leaf (PT.node nv2 w2 (s2 :: rest2) len2) = false := by
            simp [is_leaf, PT.subtrees]
          rw [hleaf]
          simp only [Bool.false_eq_true, if_false]
          have hsz2 : sizeOf (s2 :: rest2) ≤ n := by
            simp only [List.cons.sizeOf_spec, PT.node.sizeOf_spec] at hsz ⊢
            omega
          rw [entries_node, ← ih (s2 :: rest2) hsz2 hall2 (nvList nv2)]
          simpa [PT.weight, PT.len] using hw

theorem insDesc_perm (x : PT α) (l : List (PT α)) :
    List.Perm (insDesc x l) (x :: l) := by
  induction l with
  | nil => rfl
  | cons y ys ih =>
    rw [insDesc]
    by_cases h : x.weight ≤ y.weight
    · simp only [if_pos h]
      exact (ih.cons y).trans (List.Perm.swap x y ys)
    · simp [if_neg h]

theorem sortDesc_perm_aux (l : List (PT α)) :
    ∀ acc, List.Perm (l.foldl (fun acc x => insDesc x acc) acc) (acc ++ l) := by
  induction l with
  | nil => intro acc; simp
  | cons x xs ih =>
    intro acc
    have h1 : (x :: xs).foldl (fun acc x => insDesc x acc) acc
        = xs.foldl (fun acc x => insDesc x acc) (insDesc x acc) := rfl
    rw [h1]
    exact ((ih _).trans ((insDesc_perm x acc).append_right xs)).trans
      List.perm_middle.symm

theorem sortDesc_perm (l : List (PT α)) : List.Perm (sortDesc l) l := by
  simpa using sortDesc_perm_aux l []

theorem sortDesc_mem {s : PT α} {l : List (PT α)} : s ∈ sortDesc l ↔ s ∈ l :=
  (sortDesc_perm l).mem_iff

theorem sortDesc_ne_nil {l : List (PT α)} (h : l ≠ []) : sortDesc l ≠ [] := by
  intro hc
  apply h
  have hp := sortDesc_perm l
  rw [hc] at hp
  exact (hp.symm.eq_nil)

theorem sortDesc_weight_sum (l : List (PT α)) :
    ((sortDesc l).map PT.weight).sum = (l.map PT.weight).sum :=
  ((sortDesc_perm l).map PT.weight).sum_eq

theorem sortDesc_sumLens (l : List (PT α)) : sumLens (sortDesc l) = sumLens l :=
  ((sortDesc_perm l).map PT.len).sum_eq

theorem sortDesc_gtlw (l : List (PT α)) :
    get_total_leaf_weights (sortDesc l) = get_total_leaf_weights l :=
  ((sortDesc_perm l).map
    (fun s => if is_leaf s then s.weight else s.weight * (s.len : ℚ))).sum_eq

theorem sortDesc_length (l : List (PT α)) : (sortDesc l).length = l.length :=
  (sortDesc_perm l).length_eq

/-- `get_aggr_weight` in `'sum'` mode is the subtree weight sum. -/
theorem get_aggr_sum (a : ℚ) (subs : List (PT α)) (l : ℤ) :
    get_aggr_weight .wsum a subs l = (subs.map PT.weight).sum := by
  rw [get_aggr_weight]

theorem sumOK_build {nv : NVal α} {w : ℚ} {subs : List (PT α)} {len : ℤ}
    (hp : isPfx nv = true) (hne : subs ≠ [])
    (hw : w = (subs.map PT.weight).sum)
    (hall : ∀ s ∈ subs, sumOK s = true) :
    sumOK (.node nv w subs len) = true := by
  cases subs with
  | nil => exact absurd rfl hne
  | cons s rest => exact sumOK_cons_iff.mpr ⟨hp, hw, hall⟩

theorem avgOK_build {nv : NVal α} {w : ℚ} {subs : List (PT α)} {len : ℤ}
    (hp : isPfx nv = true) (hne : subs ≠ [])
    (hlen : len = sumLens subs)
    (hw : w * (len : ℚ) = get_total_leaf_weights subs)
    (hall : ∀ s ∈ subs, avgOK s = true) :
    avgOK (.node nv w subs len) = true := by
  cases subs with
  | nil => exact absurd rfl hne
  | cons s rest => exact avgOK_cons_iff.mpr ⟨hp, hlen, hw, hall⟩

theorem sumOK_weight_eq {t : PT α} (h : sumOK t = true) (hne : t.subtrees ≠ []) :
    t.weight = (t.subtrees.map PT.weight).sum := by
  cases t with
  | node nv w subs len =>
    cases subs with
    | nil => simp [PT.subtrees] at hne
    | cons s rest =>
      simpa [PT.weight, PT.subtrees] using (sumOK_cons_iff.mp h).2.1

theorem sumOK_sub {t : PT α} (h : sumOK t = true) :
    ∀ s ∈ t.subtrees, sumOK s = true := by
  cases t with
  | node nv w subs len =>
    cases subs with
    | nil => intro s hs; simp [PT.subtrees] at hs
    | cons s rest =>
      intro s2 hs2
      exact (sumOK_cons_iff.mp h).2.2 s2 (by simpa [PT.subtrees] using hs2)

theorem sumOK_isPfx {t : PT α} (h : sumOK t = true) (hne : t.subtrees ≠ []) :
    isPfx t.value = true := by
  cases t with
  | node nv w subs len =>
    cases subs with
    | nil => simp [PT.subtrees] at hne
    | cons s rest => simpa [PT.value] using (sumOK_cons_iff.mp h).1

theorem avgOK_len_eq {t : PT α} (h : avgOK t = true) (hne : t.subtrees ≠ []) :
    t.len = sumLens t.subtrees := by
  cases t with
  | node nv w subs len =>
    cases subs with
    | nil => simp [PT.subtrees] at hne
    | cons s rest =>
      simpa [PT.len, PT.subtrees] using (avgOK_cons_iff.mp h).2.1

theorem avgOK_sub {t : PT α} (h : avgOK t = true) :
    ∀ s ∈ t.subtrees, avgOK s = true := by
  cases t with
  | node nv w subs len =>
    cases subs with
    | nil => intro s hs; simp [PT.subtrees] at hs
    | cons s rest =>
      intro s2 hs2
      exact (avgOK_cons_iff.mp h).2.2.2 s2 (by simpa [PT.subtrees] using hs2)

theorem avgOK_isPfx {t : PT α} (h : avgOK t = true) (hne : t.subtrees ≠ []) :
    isPfx t.value = true := by
  cases t with
  | node nv w subs len =>
    cases subs with
    | nil => simp [PT.subtrees] at hne
    | cons s rest => simpa [PT.value] using (avgOK_cons_iff.mp h).1

/-- An `avgOK` node's leaf-weight contribution is `weight * len` either
way: a leaf has `len = 1`. -/
theorem avgOK_contrib {s : PT α} (h : avgOK s = true) :
    (if is_leaf s then s.weight else s.weight * (s.len : ℚ))
      = s.weight * (s.len : ℚ) := by
  cases s with
  | node nv w subs len =>
    cases subs with
    | nil =>
      rcases avgOK_nil_iff.mp h with ⟨_, hpos, hlen⟩
      have hleaf : is_leaf (PT.node nv w [] len) = true := by
        simp [is_leaf, PT.weight, PT.subtrees, hpos]
      rw [hleaf, if_pos rfl]
      simp [PT.weight, PT.len, hlen]
    | cons s2 rest2 =>
      have hleaf : is_leaf (PT.node nv w (s2 :: rest2) len) = false := by
        simp [is_leaf, PT.subtrees]
      rw [hleaf]
      simp

theorem avgOK_len_pos_of (t : PT α) (h : avgOK t = true) : 1 ≤ t.len :=
  avgOK_len_pos (sizeOf t) t le_rfl h

theorem sumLens_pos {subs : List (PT α)} (hne : subs ≠ [])
    (h : ∀ s ∈ subs, 1 ≤ s.len) : 1 ≤ sumLens subs := by
  cases subs with
  | nil => exact absurd rfl hne
  | cons s rest =>
    have h1 := h s (List.mem_cons_self s rest)
    have h2 : 0 ≤ sumLens rest := by
      rw [sumLens]
      refine List.sum_nonneg ?_
      intro x hx
      rw [List.mem_map] at hx
      obtain ⟨s2, hs2, rfl⟩ := hx
      have := h s2 (List.mem_cons_of_mem s hs2)
      omega
    have h3 : sumLens (s :: rest) = s.len + sumLens rest := by simp [sumLens]
    omega

/-- `get_total_leaf_weights` of `avgOK` subtrees is `Σ weight * len`. -/
theorem gtlw_cons (s : PT α) (rest : List (PT α)) :
    get_total_leaf_weights (s :: rest)
      = (if is_leaf s then s.weight else s.weight * (s.len : ℚ))
        + get_total_leaf_weights rest := by
  simp [get_total_leaf_weights]

/-- The chain of fresh nodes built by `insert_spt` on an empty tree:
one node per remaining prefix element, ending in the value leaf.  In
`'sum'` mode the whole chain weighs the inserted weight. -/
theorem insert_spt_chain_sum (v : List α) (w : ℚ) (ps : List α) (hw : 0 < w) :
    ∀ rest : List α,
    sumOK (insert_spt .wsum emptyTree v w ps rest) = true ∧
    (insert_spt .wsum emptyTree v w ps rest).subtrees ≠ [] ∧
    (insert_spt .wsum emptyTree v w ps rest).weight = w := by
  intro rest
  induction rest with
  | nil =>
    refine ⟨?_, ?_, ?_⟩ <;>
      simp [insert_spt, emptyTree, sortDesc, insDesc, get_aggr_weight, sumOK,
        sumOKL, isPfx, isVal, PT.weight, PT.subtrees, hw]
  | cons x rest2 ih =>
    obtain ⟨hOK, hne, hwt⟩ := ih
    have hstep : insert_spt (α := α) .wsum emptyTree v w ps (x :: rest2)
        = PT.node (.pfx (ps.take (ps.length - (x :: rest2).length)))
            (get_aggr_weight .wsum 0 [insert_spt .wsum emptyTree v w ps rest2] 1)
            [insert_spt .wsum emptyTree v w ps rest2] 1 := by
      rw [insert_spt.eq_def]
      rfl
    rw [hstep]
    refine ⟨?_, by simp [PT.subtrees], ?_⟩
    · refine sumOK_build (by rw [isPfx]) (by simp) ?_ ?_
      · rw [get_aggr_sum]
      · intro s hs
        rw [List.mem_singleton] at hs
        subst hs
        exact hOK
    · rw [PT.weight, get_aggr_sum]
      simp [hwt]

/-- The same chain in `'average'` mode: each node records `len = 1` and
the inserted weight. -/
theorem insert_spt_chain_avg (v : List α) (w : ℚ) (ps : List α) (hw : 0 < w) :
    ∀ rest : List α,
    avgOK (insert_spt .waverage emptyTree v w ps rest) = true ∧
    (insert_spt .waverage emptyTree v w ps rest).subtrees ≠ [] ∧
    (insert_spt .waverage emptyTree v w ps rest).weight = w ∧
    (insert_spt .waverage emptyTree v w ps rest).len = 1 := by
  intro rest
  induction rest with
  | nil =>
    refine ⟨?_, ?_, ?_, ?_⟩ <;>
      simp [insert_spt, emptyTree, sortDesc, insDesc, get_aggr_weight, avgOK,
        avgOKL, isPfx, isVal, PT.weight, PT.subtrees, PT.len, hw, sumLens,
        get_total_leaf_weights, is_leaf]
  | cons x rest2 ih =>
    obtain ⟨hOK, hne, hwt, hlen⟩ := ih
    have hstep : insert_spt (α := α) .waverage emptyTree v w ps (x :: rest2)
        = PT.node (.pfx (ps.take (ps.length - (x :: rest2).length)))
            (get_aggr_weight .waverage 0
              [insert_spt .waverage emptyTree v w ps rest2] 1)
            [insert_spt .waverage emptyTree v w ps rest2] 1 := by
      rw [insert_spt.eq_def]
      rfl
    rw [hstep]
    have hagg : get_aggr_weight .waverage 0
        [insert_spt (α := α) .waverage emptyTree v w ps rest2] 1
        = (insert_spt (α := α) .waverage emptyTree v w ps rest2).weight := by
      rw [get_aggr_weight]
    refine ⟨?_, by simp [PT.subtrees], ?_, by rw [PT.len]⟩
    · refine avgOK_build (by rw [isPfx]) (by simp) ?_ ?_ ?_
      · simp [sumLens, hlen]
      · rw [hagg, gtlw_cons, avgOK_contrib hOK, hwt, hlen]
        simp [get_total_leaf_weights]
      · intro s hs
        rw [List.mem_singleton] at hs
        subst hs
        exact hOK
    · rw [PT.weight, hagg, hwt]

theorem sortDesc_single (x : PT α) : sortDesc [x] = [x] := rfl

theorem get_aggr_avg_nil (a : ℚ) (l : ℤ) :
    get_aggr_weight (α := α) .waverage a [] l = a := by
  rw [get_aggr_weight]

theorem get_aggr_avg_one (a : ℚ) (x : PT α) (l : ℤ) :
    get_aggr_weight .waverage a [x] l = x.weight := by
  rw [get_aggr_weight]

theorem get_aggr_avg_two (a : ℚ) (x y : PT α) (tail : List (PT α)) (l : ℤ) :
    get_aggr_weight .waverage a (x :: y :: tail) l
      = get_total_leaf_weights (x :: y :: tail) / (l : ℚ) := by
  rw [get_aggr_weight]
  · intro h
    cases h
  · intro s h
    injection h with h1 h2
    cases h2

/-- The node `insert_spt` rebuilds around the appended chain, `'sum'`
mode: invariant and weight increment. -/
theorem insert_spt_sum_node {w : ℚ} (lab : List α) (t sub : PT α) (len2 : ℤ)
    (hsub : sumOK sub = true) (hsw : sub.weight = w)
    (hinv : t = emptyTree ∨ (sumOK t = true ∧ t.subtrees ≠ [])) :
    sumOK (.node (.pfx lab)
        (get_aggr_weight .wsum t.weight (sortDesc (t.subtrees ++ [sub])) len2)
        (sortDesc (t.subtrees ++ [sub])) len2) = true ∧
    sortDesc (t.subtrees ++ [sub]) ≠ [] ∧
    get_aggr_weight .wsum t.weight (sortDesc (t.subtrees ++ [sub])) len2
      = t.weight + w := by
  have hne : sortDesc (t.subtrees ++ [sub]) ≠ [] :=
    sortDesc_ne_nil (by simp)
  have hsum : ((sortDesc (t.subtrees ++ [sub])).map PT.weight).sum
      = (t.subtrees.map PT.weight).sum + w := by
    rw [sortDesc_weight_sum, List.map_append, List.sum_append]
    simp [hsw]
  have hmem : ∀ s ∈ sortDesc (t.subtrees ++ [sub]), sumOK s = true := by
    intro s hs
    rcases List.mem_append.mp (sortDesc_mem.mp hs) with hs | hs
    · rcases hinv with rfl | ⟨hok, _⟩
      · simp [emptyTree, PT.subtrees] at hs
      · exact sumOK_sub hok s hs
    · rw [List.mem_singleton] at hs
      subst hs
      exact hsub
  have hw : get_aggr_weight .wsum t.weight (sortDesc (t.subtrees ++ [sub])) len2
      = t.weight + w := by
    rw [get_aggr_sum, hsum]
    rcases hinv with rfl | ⟨hok, hne2⟩
    · simp [emptyTree, PT.weight, PT.subtrees]
    · rw [← sumOK_weight_eq hok hne2]
  refine ⟨?_, hne, hw⟩
  exact sumOK_build (by rw [isPfx]) hne (by rw [get_aggr_sum]) hmem

/-- The node `insert_spt` rebuilds around the appended chain,
`'average'` mode. -/
theorem insert_spt_avg_node {w : ℚ} (lab : List α) (t sub : PT α)
    (hsub : avgOK sub = true) (hsw : sub.weight = w) (hsl : sub.len = 1)
    (hinv : t = emptyTree ∨ (avgOK t = true ∧ t.subtrees ≠ [])) :
    avgOK (.node (.pfx lab)
        (get_aggr_weight .waverage t.weight (sortDesc (t.subtrees ++ [sub]))
          (t.len + 1))
        (sortDesc (t.subtrees ++ [sub])) (t.len + 1)) = true ∧
    sortDesc (t.subtrees ++ [sub]) ≠ [] := by
  have hne : sortDesc (t.subtrees ++ [sub]) ≠ [] :=
    sortDesc_ne_nil (by simp)
  have hmem : ∀ s ∈ sortDesc (t.subtrees ++ [sub]), avgOK s = true := by
    intro s hs
    rcases List.mem_append.mp (sortDesc_mem.mp hs) with hs | hs
    · rcases hinv with rfl | ⟨hok, _⟩
      · simp [emptyTree, PT.subtrees] at hs
      · exact avgOK_sub hok s hs
    · rw [List.mem_singleton] at hs
      subst hs
      exact hsub
  have hlens : t.len + 1 = sumLens (sortDesc (t.subtrees ++ [sub])) := by
    rw [sortDesc_sumLens]
    have : sumLens (t.subtrees ++ [sub]) = sumLens t.subtrees + sub.len := by
      simp [sumLens]
    rw [this, hsl]
    rcases hinv with rfl | ⟨hok, hne2⟩
    · simp [emptyTree, PT.subtrees, PT.len, sumLens]
    · rw [← avgOK_len_eq hok hne2]
  refine ⟨?_, hne⟩
  refine avgOK_build (by rw [isPfx]) hne hlens ?_ hmem
  by_cases hts : t.subtrees = []
  · -- `t` is the empty tree: a single fresh subtree
    have hempty : t = emptyTree := by
      rcases hinv with rfl | ⟨hok, hne2⟩
      · rfl
      · exact absurd hts hne2
    subst hempty
    rw [show (emptyTree (α := α)).subtrees ++ [sub] = [sub] from
        by simp [emptyTree, PT.subtrees]]
    rw [sortDesc_single, get_aggr_avg_one, gtlw_cons, avgOK_contrib hsub, hsl]
    simp [emptyTree, PT.len, get_total_leaf_weights]
  · -- at least two subtrees: the average formula, `len ≥ 1`
    have hlen2 : (2 : ℤ) ≤ t.len + 1 := by
      rcases hinv with rfl | ⟨hok, hne2⟩
      · exact absurd rfl hts
      · have := avgOK_len_pos_of t hok
        omega
    have hlength : 2 ≤ (sortDesc (t.subtrees ++ [sub])).length := by
      rw [sortDesc_length, List.length_append]
      have := List.length_pos.mpr hts
      simp only [List.length_singleton]
      omega
    rcases hsd : sortDesc (t.subtrees ++ [sub]) with _ | ⟨x, _ | ⟨y, tail⟩⟩
    · rw [hsd] at hlength
      simp at hlength
    · rw [hsd] at hlength
      simp at hlength
    · rw [get_aggr_avg_two, div_mul_cancel₀]
      exact_mod_cast (by omega : (t.len + 1 : ℤ) ≠ 0)

theorem sumOK_pos_of (t : PT α) (h : sumOK t = true) : 0 < t.weight :=
  sumOK_pos (sizeOf t) t le_rfl h

theorem matchesQ_val_value {v : List α} {both : Bool} {c : PT α}
    (h : matchesQ (.val v) both c = true) : ∃ vv, c.value = .val vv := by
  cases c with
  | node nv w subs len =>
    cases nv with
    | pfx m => simp [matchesQ, PT.value] at h
    | val vv => exact ⟨vv, rfl⟩

/-- `insert_spt` on a general tree, `'sum'` mode. -/
theorem insert_spt_sum_top (v : List α) {w : ℚ} (ps : List α) (hw : 0 < w)
    (rest : List α) (t : PT α)
    (hinv : t = emptyTree ∨ (sumOK t = true ∧ t.subtrees ≠ [])) :
    sumOK (insert_spt .wsum t v w ps rest) = true ∧
    (insert_spt .wsum t v w ps rest).subtrees ≠ [] ∧
    (insert_spt .wsum t v w ps rest).weight = t.weight + w := by
  cases rest with
  | nil =>
    have hstep : insert_spt .wsum t v w ps []
        = PT.node (.pfx (ps.take (ps.length - ([] : List α).length)))
            (get_aggr_weight .wsum t.weight
              (sortDesc (t.subtrees ++ [PT.node (.val v) (0 + w) [] (0 + 1)]))
              (t.len + 1))
            (sortDesc (t.subtrees ++ [PT.node (.val v) (0 + w) [] (0 + 1)]))
            (t.len + 1) := by
      rw [insert_spt.eq_def]
    rw [hstep]
    have h := insert_spt_sum_node (w := w) (ps.take (ps.length - 0)) t
      (PT.node (.val v) (0 + w) [] (0 + 1)) (t.len + 1)
      (sumOK_nil_iff.mpr ⟨by rw [isVal], by simpa using hw⟩)
      (by rw [PT.weight]; exact zero_add w) hinv
    exact ⟨h.1, by rw [PT.subtrees]; exact h.2.1, by rw [PT.weight]; exact h.2.2⟩
  | cons x r2 =>
    obtain ⟨hOK, _, hwt⟩ := insert_spt_chain_sum v w ps hw r2
    have hstep : insert_spt .wsum t v w ps (x :: r2)
        = PT.node (.pfx (ps.take (ps.length - (x :: r2).length)))
            (get_aggr_weight .wsum t.weight
              (sortDesc (t.subtrees ++ [insert_spt .wsum emptyTree v w ps r2]))
              (t.len + 1))
            (sortDesc (t.subtrees ++ [insert_spt .wsum emptyTree v w ps r2]))
            (t.len + 1) := by
      rw [insert_spt.eq_def]
    rw [hstep]
    have h := insert_spt_sum_node (w := w) (ps.take (ps.length - (x :: r2).length))
      t (insert_spt .wsum emptyTree v w ps r2) (t.len + 1) hOK hwt hinv
    exact ⟨h.1, by rw [PT.subtrees]; exact h.2.1, by rw [PT.weight]; exact h.2.2⟩

/-- `insert_spt` on a general tree, `'average'` mode. -/
theorem insert_spt_avg_top (v : List α) {w : ℚ} (ps : List α) (hw : 0 < w)
    (rest : List α) (t : PT α)
    (hinv : t = emptyTree ∨ (avgOK t = true ∧ t.subtrees ≠ [])) :
    avgOK (insert_spt .waverage t v w ps rest) = true ∧
    (insert_spt .waverage t v w ps rest).subtrees ≠ [] := by
  cases rest with
  | nil =>
    have hstep : insert_spt .waverage t v w ps []
        = PT.node (.pfx (ps.take (ps.length - ([] : List α).length)))
            (get_aggr_weight .waverage t.weight
              (sortDesc (t.subtrees ++ [PT.node (.val v) (0 + w) [] (0 + 1)]))
              (t.len + 1))
            (sortDesc (t.subtrees ++ [PT.node (.val v) (0 + w) [] (0 + 1)]))
            (t.len + 1) := by
      rw [insert_spt.eq_def]
    rw [hstep]
    have h := insert_spt_avg_node (w := w) (ps.take (ps.length - 0)) t
      (PT.node (.val v) (0 + w) [] (0 + 1))
      (avgOK_nil_iff.mpr ⟨by rw [isVal], by simpa using hw, by norm_num⟩)
      (by rw [PT.weight]; exact zero_add w) (by rw [PT.len]; norm_num) hinv
    exact ⟨h.1, by rw [PT.subtrees]; exact h.2⟩
  | cons x r2 =>
    obtain ⟨hOK, _, hwt, hlen⟩ := insert_spt_chain_avg v w ps hw r2
    have hstep : insert_spt .waverage t v w ps (x :: r2)
        = PT.node (.pfx (ps.take (ps.length - (x :: r2).length)))
            (get_aggr_weight .waverage t.weight
              (sortDesc (t.subtrees ++ [insert_spt .waverage emptyTree v w ps r2]))
              (t.len + 1))
            (sortDesc (t.subtrees ++ [insert_spt .waverage emptyTree v w ps r2]))
            (t.len + 1) := by
      rw [insert_spt.eq_def]
    rw [hstep]
    have h := insert_spt_avg_node (w := w) (ps.take (ps.length - (x :: r2).length))
      t (insert_spt .waverage emptyTree v w ps r2) hOK hwt hlen hinv
    exact ⟨h.1, by rw [PT.subtrees]; exact h.2⟩

/-- `sub.weight += weight` on the found value leaf, `'sum'` mode. -/
theorem addW_sum (p : PT α → Bool) {w : ℚ} (hw : 0 < w) :
    ∀ subs : List (PT α), (subs.find? p).isSome = true →
    (∀ s ∈ subs, sumOK s = true) →
    (∀ s, p s = true → ∃ vv, s.value = NVal.val vv) →
    ((addWFirst p w subs).map PT.weight).sum = (subs.map PT.weight).sum + w ∧
    (∀ s ∈ addWFirst p w subs, sumOK s = true) ∧
    addWFirst p w subs ≠ [] := by
  intro subs
  induction subs with
  | nil => intro h; simp [List.find?] at h
  | cons s rest ihw =>
    intro hfind hall hv
    rw [addWFirst]
    by_cases hp : p s = true
    · rw [if_pos hp]
      obtain ⟨vv, hvv⟩ := hv s hp
      have hleaf : s.subtrees = [] :=
        sumOK_val_leaf (hall s (List.mem_cons_self s rest)) hvv
      have hpos : 0 < s.weight :=
        sumOK_pos_of s (hall s (List.mem_cons_self s rest))
      have hbump : sumOK (PT.node s.value (s.weight + w) s.subtrees s.len)
          = true := by
        rw [hvv, hleaf]
        exact sumOK_nil_iff.mpr ⟨by rw [isVal], add_pos hpos hw⟩
      refine ⟨?_, ?_, by simp⟩
      · simp only [List.map_cons, List.sum_cons, PT.weight]
        ring
      · intro s2 hs2
        rcases List.mem_cons.mp hs2 with rfl | hs2
        · exact hbump
        · exact hall s2 (List.mem_cons_of_mem s hs2)
    · rw [if_neg hp]
      rw [List.find?_cons_of_neg _ hp] at hfind
      obtain ⟨hsum, hmem, hne⟩ := ihw hfind
        (fun s2 h2 => hall s2 (List.mem_cons_of_mem s h2)) hv
      refine ⟨?_, ?_, by simp⟩
      · simp only [List.map_cons, List.sum_cons, hsum]
        ring
      · intro s2 hs2
        rcases List.mem_cons.mp hs2 with rfl | hs2
        · exact hall s2 (List.mem_cons_self s2 rest)
        · exact hmem s2 hs2

/-- `sub.weight += weight` on the found value leaf, `'average'` mode:
the invariant is kept and no recorded length changes. -/
theorem addW_avg (p : PT α → Bool) {w : ℚ} (hw : 0 < w) :
    ∀ subs : List (PT α), (subs.find? p).isSome = true →
    (∀ s ∈ subs, avgOK s = true) →
    (∀ s, p s = true → ∃ vv, s.value = NVal.val vv) →
    (∀ s ∈ addWFirst p w subs, avgOK s = true) ∧
    addWFirst p w subs ≠ [] ∧
    (addWFirst p w subs).map PT.len = subs.map PT.len := by
  intro subs
  induction subs with
  | nil => intro h; simp [List.find?] at h
  | cons s rest ihw =>
    intro hfind hall hv
    rw [addWFirst]
    by_cases hp : p s = true
    · rw [if_pos hp]
      obtain ⟨vv, hvv⟩ := hv s hp
      have havg := hall s (List.mem_cons_self s rest)
      have hleaf : s.subtrees = [] := avgOK_val_leaf havg hvv
      have hprops : 0 < s.weight ∧ s.len = 1 := by
        cases s with
        | node nv2 w2 subs2 len2 =>
          simp only [PT.subtrees] at hleaf
          subst hleaf
          rcases avgOK_nil_iff.mp havg with ⟨_, hpos, hl⟩
          exact ⟨by simpa [PT.weight] using hpos, by simpa [PT.len] using hl⟩
      have hbump : avgOK (PT.node s.value (s.weight + w) s.subtrees s.len)
          = true := by
        rw [hvv, hleaf]
        refine avgOK_nil_iff.mpr ⟨by rw [isVal], add_pos hprops.1 hw, ?_⟩
        exact hprops.2
      refine ⟨?_, by simp, by simp [PT.len]⟩
      intro s2 hs2
      rcases List.mem_cons.mp hs2 with rfl | hs2
      · exact hbump
      · exact hall s2 (List.mem_cons_of_mem s hs2)
    · rw [if_neg hp]
      rw [List.find?_cons_of_neg _ hp] at hfind
      obtain ⟨hmem, hne, hlens⟩ := ihw hfind
        (fun s2 h2 => hall s2 (List.mem_cons_of_mem s h2)) hv
      refine ⟨?_, by simp, by simp [hlens]⟩
      intro s2 hs2
      rcases List.mem_cons.mp hs2 with rfl | hs2
      · exact hall s2 (List.mem_cons_self s2 rest)
      · exact hmem s2 hs2

/-- `SimplePrefixTree.insert` in `'sum'` mode: keeps the per-node sum
rule and adds the inserted weight to the root. -/
theorem insS_sum (v : List α) {w : ℚ} (ps : List α) (hw : 0 < w) :
    ∀ (n : ℕ) (t : PT α), sizeOf t ≤ n →
    (t = emptyTree ∨ (sumOK t = true ∧ t.subtrees ≠ [])) →
    sumOK (insertS .wsum t v w ps) = true ∧
    (insertS .wsum t v w ps).subtrees ≠ [] ∧
    (insertS .wsum t v w ps).weight = t.weight + w := by
  intro n
  induction n with
  | zero => intro t ht; exact absurd ht (by have := sizeOf_pos t; omega)
  | succ n ih =>
    intro t ht hinv
    have walk : ∀ subs : List (PT α), (∀ s ∈ subs, sizeOf s ≤ n) →
        (∀ s ∈ subs, sumOK s = true) →
        ∀ subs1, insertSWalk .wsum subs v w ps = some subs1 →
        (∀ s ∈ subs1, sumOK s = true) ∧ subs1 ≠ [] ∧
        (subs1.map PT.weight).sum = (subs.map PT.weight).sum + w := by
      intro subs
      induction subs with
      | nil =>
        intro _ _ subs1 h
        rw [insertSWalk] at h
        cases h
      | cons s rest ihw =>
        intro hsz hall subs1 hwalk
        rw [insertSWalk] at hwalk
        by_cases hm : matchesQ (.pfx ps) false s = true
        · rw [if_pos hm] at hwalk
          injection hwalk with hwalk
          subst hwalk
          have hssub : s.subtrees ≠ [] := by
            obtain ⟨m, hm2⟩ := matchesQ_pfx_value hm
            exact sumOK_pfx_branch (hall s (List.mem_cons_self s rest)) hm2
          have hrec := ih s (hsz s (List.mem_cons_self s rest))
            (Or.inr ⟨hall s (List.mem_cons_self s rest), hssub⟩)
          refine ⟨?_, by simp, ?_⟩
          · intro s2 hs2
            rcases List.mem_cons.mp hs2 with rfl | hs2
            · exact hrec.1
            · exact hall s2 (List.mem_cons_of_mem s hs2)
          · simp only [List.map_cons, List.sum_cons, hrec.2.2]
            ring
        · rw [if_neg hm] at hwalk
          rw [Option.map_eq_some'] at hwalk
          obtain ⟨subs1', h1, h2⟩ := hwalk
          subst h2
          obtain ⟨hmem, hne, hsum⟩ := ihw
            (fun s2 h2 => hsz s2 (List.mem_cons_of_mem s h2))
            (fun s2 h2 => hall s2 (List.mem_cons_of_mem s h2)) subs1' h1
          refine ⟨?_, by simp, ?_⟩
          · intro s2 hs2
            rcases List.mem_cons.mp hs2 with rfl | hs2
            · exact hall s2 (List.mem_cons_self s2 rest)
            · exact hmem s2 hs2
          · simp only [List.map_cons, List.sum_cons, hsum]
            ring
    cases t with
    | node nv tw subs len =>
      have hsz : ∀ s ∈ subs, sizeOf s ≤ n := by
        intro s hs
        have := sizeOf_mem_lt (t := PT.node nv tw subs len)
          (by rw [PT.subtrees]; exact hs)
        omega
      rw [insertS]
      by_cases hps : (!ps.isEmpty) = true
      · rw [if_pos hps]
        cases hwalk : insertSWalk .wsum subs v w ps with
        | some subs1 =>
          have hne : subs ≠ [] := by
            intro hc
            subst hc
            rw [insertSWalk] at hwalk
            cases hwalk
          have hok : sumOK (PT.node nv tw subs len) = true ∧ subs ≠ [] := by
            rcases hinv with he | ⟨hok, hne2⟩
            · exfalso
              rw [emptyTree] at he
              injection he with h1 h2 h3 h4
              exact hne h3
            · exact ⟨hok, hne⟩
          obtain ⟨hmem, hne1, hsum⟩ := walk subs hsz
            (sumOK_sub hok.1) subs1 hwalk
          refine ⟨?_, ?_, ?_⟩
          · refine sumOK_build ?_ (sortDesc_ne_nil hne1) (by rw [get_aggr_sum]) ?_
            · have := sumOK_isPfx hok.1 (by rw [PT.subtrees]; exact hne)
              rwa [PT.value] at this
            · intro s2 hs2
              exact hmem s2 (sortDesc_mem.mp hs2)
          · rw [PT.subtrees]
            exact sortDesc_ne_nil hne1
          · rw [PT.weight, get_aggr_sum, sortDesc_weight_sum, hsum]
            have := sumOK_weight_eq hok.1 (by rw [PT.subtrees]; exact hne)
            rw [PT.weight, PT.subtrees] at this
            rw [← this, PT.weight]
        | none =>
          by_cases hnv : nvEqList nv ps = true
          · rw [if_pos hnv]
            by_cases hfind : (subs.find? (matchesQ (.val v) false)).isSome = true
            · rw [if_pos hfind]
              have hne : subs ≠ [] := by
                intro hc
                subst hc
                simp [List.find?] at hfind
              have hok : sumOK (PT.node nv tw subs len) = true := by
                rcases hinv with he | ⟨hok, _⟩
                · exfalso
                  rw [emptyTree] at he
                  injection he with h1 h2 h3 h4
                  exact hne h3
                · exact hok
              obtain ⟨hsum, hmem, hne1⟩ := addW_sum (matchesQ (.val v) false) hw
                subs hfind (sumOK_sub hok)
                (fun s2 h2 => matchesQ_val_value h2)
              refine ⟨?_, by rw [PT.subtrees]; exact hne1, ?_⟩
              · refine sumOK_build ?_ hne1 (by rw [get_aggr_sum]) hmem
                have := sumOK_isPfx hok (by rw [PT.subtrees]; exact hne)
                rwa [PT.value] at this
              · rw [PT.weight, get_aggr_sum, hsum]
                have := sumOK_weight_eq hok (by rw [PT.subtrees]; exact hne)
                rw [PT.weight, PT.subtrees] at this
                rw [← this, PT.weight]
            · rw [if_neg hfind]
              exact insert_spt_sum_top v ps hw _ _ hinv
          · rw [if_neg hnv]
            exact insert_spt_sum_top v ps hw _ _ hinv
      · rw [if_neg hps]
        exact insert_spt_sum_top v ps hw _ _ hinv

/-- `SimplePrefixTree.insert` in `'average'` mode: keeps the per-node
average rule. -/
theorem insS_avg (v : List α) {w : ℚ} (ps : List α) (hw : 0 < w) :
    ∀ (n : ℕ) (t : PT α), sizeOf t ≤ n →
    (t = emptyTree ∨ (avgOK t = true ∧ t.subtrees ≠ [])) →
    avgOK (insertS .waverage t v w ps) = true ∧
    (insertS .waverage t v w ps).subtrees ≠ [] := by
  intro n
  induction n with
  | zero => intro t ht; exact absurd ht (by have := sizeOf_pos t; omega)
  | succ n ih =>
    intro t ht hinv
    have walk : ∀ subs : List (PT α), (∀ s ∈ subs, sizeOf s ≤ n) →
        (∀ s ∈ subs, avgOK s = true) →
        ∀ subs1, insertSWalk .waverage subs v w ps = some subs1 →
        (∀ s ∈ subs1, avgOK s = true) ∧ subs1 ≠ [] := by
      intro subs
      induction subs with
      | nil =>
        intro _ _ subs1 h
        rw [insertSWalk] at h
        cases h
      | cons s rest ihw =>
        intro hsz hall subs1 hwalk
        rw [insertSWalk] at hwalk
        by_cases hm : matchesQ (.pfx ps) false s = true
        · rw [if_pos hm] at hwalk
          injection hwalk with hwalk
          subst hwalk
          have hssub : s.subtrees ≠ [] := by
            obtain ⟨m, hm2⟩ := matchesQ_pfx_value hm
            exact avgOK_pfx_branch (hall s (List.mem_cons_self s rest)) hm2
          have hrec := ih s (hsz s (List.mem_cons_self s rest))
            (Or.inr ⟨hall s (List.mem_cons_self s rest), hssub⟩)
          refine ⟨?_, by simp⟩
          intro s2 hs2
          rcases List.mem_cons.mp hs2 with rfl | hs2
          · exact hrec.1
          · exact hall s2 (List.mem_cons_of_mem s hs2)
        · rw [if_neg hm] at hwalk
          rw [Option.map_eq_some'] at hwalk
          obtain ⟨subs1', h1, h2⟩ := hwalk
          subst h2
          obtain ⟨hmem, hne⟩ := ihw
            (fun s2 h2 => hsz s2 (List.mem_cons_of_mem s h2))
            (fun s2 h2 => hall s2 (List.mem_cons_of_mem s h2)) subs1' h1
          refine ⟨?_, by simp⟩
          intro s2 hs2
          rcases List.mem_cons.mp hs2 with rfl | hs2
          · exact hall s2 (List.mem_cons_self s2 rest)
          · exact hmem s2 hs2
    cases t with
    | node nv tw subs len =>
      have hsz : ∀ s ∈ subs, sizeOf s ≤ n := by
        intro s hs
        have := sizeOf_mem_lt (t := PT.node nv tw subs len)
          (by rw [PT.subtrees]; exact hs)
        omega
      rw [insertS]
      by_cases hps : (!ps.isEmpty) = true
      · rw [if_pos hps]
        cases hwalk : insertSWalk .waverage subs v w ps with
        | some subs1 =>
          have hne : subs ≠ [] := by
            intro hc
            subst hc
            rw [insertSWalk] at hwalk
            cases hwalk
          have hok : avgOK (PT.node nv tw subs len) = true := by
            rcases hinv with he | ⟨hok, _⟩
            · exfalso
              rw [emptyTree] at he
              injection he with h1 h2 h3 h4
              exact hne h3
            · exact hok
          obtain ⟨hmem, hne1⟩ := walk subs hsz (avgOK_sub hok) subs1 hwalk
          have hmem2 : ∀ s2 ∈ sortDesc subs1, avgOK s2 = true :=
            fun s2 hs2 => hmem s2 (sortDesc_mem.mp hs2)
          have hlenpos : ∀ s2 ∈ sortDesc subs1, 1 ≤ s2.len :=
            fun s2 hs2 => avgOK_len_pos_of s2 (hmem2 s2 hs2)
          refine ⟨?_, by rw [PT.subtrees]; exact sortDesc_ne_nil hne1⟩
          refine avgOK_build ?_ (sortDesc_ne_nil hne1) rfl ?_ hmem2
          · have := avgOK_isPfx hok (by rw [PT.subtrees]; exact hne)
            rwa [PT.value] at this
          · rcases hsd : sortDesc subs1 with _ | ⟨x, _ | ⟨y, tail⟩⟩
            · exact absurd hsd (sortDesc_ne_nil hne1)
            · rw [get_aggr_avg_one]
              have hx := hmem2 x (by rw [hsd]; exact List.mem_singleton.mpr rfl)
              rw [show sumLens [x] = x.len from by simp [sumLens], gtlw_cons,
                avgOK_contrib hx]
              simp [get_total_leaf_weights]
            · rw [get_aggr_avg_two, div_mul_cancel₀]
              have h1 : 1 ≤ sumLens (x :: y :: tail) := by
                refine sumLens_pos (by simp) ?_
                intro s2 hs2
                rw [← hsd] at hs2
                exact hlenpos s2 hs2
              exact_mod_cast (by omega : sumLens (x :: y :: tail) ≠ 0)
        | none =>
          by_cases hnv : nvEqList nv ps = true
          · rw [if_pos hnv]
            by_cases hfind : (subs.find? (matchesQ (.val v) false)).isSome = true
            · rw [if_pos hfind]
              have hne : subs ≠ [] := by
                intro hc
                subst hc
                simp [List.find?] at hfind
              have hok : avgOK (PT.node nv tw subs len) = true := by
                rcases hinv with he | ⟨hok, _⟩
                · exfalso
                  rw [emptyTree] at he
                  injection he with h1 h2 h3 h4
                  exact hne h3
                · exact hok
              obtain ⟨hmem, hne1, hlens⟩ := addW_avg (matchesQ (.val v) false) hw
                subs hfind (avgOK_sub hok)
                (fun s2 h2 => matchesQ_val_value h2)
              have hlen : len = sumLens (addWFirst (matchesQ (.val v) false) w subs) := by
                have := avgOK_len_eq hok (by rw [PT.subtrees]; exact hne)
                rw [PT.len, PT.subtrees] at this
                rw [this, sumLens, sumLens, hlens]
              refine ⟨?_, by rw [PT.subtrees]; exact hne1⟩
              refine avgOK_build ?_ hne1 hlen ?_ hmem
              · have := avgOK_isPfx hok (by rw [PT.subtrees]; exact hne)
                rwa [PT.value] at this
              · rcases hsd : addWFirst (matchesQ (.val v) false) w subs
                    with _ | ⟨x, _ | ⟨y, tail⟩⟩
                · exact absurd hsd hne1
                · rw [get_aggr_avg_one]
                  have hx : avgOK x = true := hmem x (by rw [hsd]; simp)
                  rw [gtlw_cons, avgOK_contrib hx]
                  have hlx : len = x.len := by
                    rw [hlen, hsd]
                    simp [sumLens]
                  rw [hlx]
                  simp [get_total_leaf_weights]
                · rw [get_aggr_avg_two, div_mul_cancel₀]
                  have h1 : 1 ≤ sumLens (x :: y :: tail) := by
                    refine sumLens_pos (by simp) ?_
                    intro s2 hs2
                    rw [← hsd] at hs2
                    exact avgOK_len_pos_of s2 (hmem s2 hs2)
                  rw [hlen, hsd]
                  exact_mod_cast (by omega : sumLens (x :: y :: tail) ≠ 0)
            · rw [if_neg hfind]
              exact insert_spt_avg_top v ps hw _ _ hinv
          · rw [if_neg hnv]
            exact insert_spt_avg_top v ps hw _ _ hinv
      · rw [if_neg hps]
        exact insert_spt_avg_top v ps hw _ _ hinv

theorem nvEqList_dest {nv : NVal α} {ps : List α} (h : nvEqList nv ps = true) :
    nv = .pfx ps := by
  cases nv with
  | pfx l =>
    rw [nvEqList, beq_iff_eq] at h
    rw [h]
  | val vv => simp [nvEqList] at h

theorem create_subtree_nonzero (wt : WType) (nv : NVal α) {w : ℚ} (hw : w ≠ 0)
    (subs : List (PT α)) (len : ℤ) :
    create_subtree wt nv w subs len = .node nv w subs len := by
  simp [create_subtree, hw]

theorem create_subtree_zero (wt : WType) (nv : NVal α) (subs : List (PT α))
    (len : ℤ) :
    create_subtree wt nv 0 subs len
      = .node nv (get_aggr_weight wt 0 subs len) subs len := by
  simp [create_subtree]

/-- The fresh subtree appended by `CompressedPrefixTree.insert` on an
empty tree, `'sum'` mode. -/
theorem insert_into_empty_sum (v : List α) {w : ℚ} (ps : List α) (hw : 0 < w) :
    sumOK (insert_into_empty (α := α) .wsum emptyTree v w ps) = true ∧
    (insert_into_empty (α := α) .wsum emptyTree v w ps).subtrees ≠ [] ∧
    (insert_into_empty (α := α) .wsum emptyTree v w ps).weight = w := by
  have hcr := create_subtree_nonzero (α := α) .wsum (.val v) (ne_of_gt hw) [] 1
  refine ⟨?_, ?_, ?_⟩ <;>
    simp [insert_into_empty, emptyTree, hcr, sumOK, sumOKL, isPfx, isVal,
      PT.weight, PT.subtrees, hw]

theorem weight_sum_set : ∀ (subs : List (PT α)) (i : ℕ) (h : i < subs.length)
    (x : PT α),
    ((subs.set i x).map PT.weight).sum
      = (subs.map PT.weight).sum - (subs.get ⟨i, h⟩).weight + x.weight := by
  intro subs
  induction subs with
  | nil => intro i h; simp at h
  | cons s rest ihw =>
    intro i h x
    cases i with
    | zero =>
      simp only [List.set, List.map_cons, List.sum_cons, List.get]
      ring
    | succ j =>
      have hj : j < rest.length := by simpa using h
      simp only [List.set, List.map_cons, List.sum_cons, List.get]
      rw [ihw j hj x]
      ring

theorem weight_sum_eraseIdx : ∀ (subs : List (PT α)) (i : ℕ)
    (h : i < subs.length),
    ((subs.eraseIdx i).map PT.weight).sum
      = (subs.map PT.weight).sum - (subs.get ⟨i, h⟩).weight := by
  intro subs
  induction subs with
  | nil => intro i h; simp at h
  | cons s rest ihw =>
    intro i h
    cases i with
    | zero =>
      simp only [List.eraseIdx, List.map_cons, List.sum_cons, List.get]
      ring
    | succ j =>
      have hj : j < rest.length := by simpa using h
      simp only [List.eraseIdx, List.map_cons, List.sum_cons, List.get]
      rw [ihw j hj]
      ring

theorem mergeAt_eq (wt : WType) (common v : List α) (w : ℚ) (ps : List α) :
    ∀ (subs : List (PT α)) (i : ℕ) (h : i < subs.length),
    mergeAt wt subs i common v w ps
      = merge_value wt (subs.get ⟨i, h⟩) common v w ps := by
  intro subs
  induction subs with
  | nil => intro i h; simp at h
  | cons s rest ihm =>
    intro i h
    cases i with
    | zero =>
      rw [mergeAt]
      rfl
    | succ j =>
      have hj : j < rest.length := by simpa using h
      rw [mergeAt, ihm j hj]
      rfl

/-! ### Branch equations of `insert_cpt` / `merge_value` / `insert` -/

theorem insert_cpt_step_none {ps : List α} {subs : List (PT α)} {common : List α}
    (wt : WType) (nv : NVal α) (tw : ℚ) (len : ℤ) (v : List α) (w : ℚ)
    (hf : fmcsGo ps subs 0 ([], none) = (common, none)) :
    insert_cpt wt (.node nv tw subs len) v w ps
      = .node nv
          (get_aggr_weight wt tw (subs ++ [insert_into_empty wt emptyTree v w ps])
            (len + 1))
          (sortDesc (subs ++ [insert_into_empty wt emptyTree v w ps])) (len + 1) := by
  rw [insert_cpt, hf]

theorem insert_cpt_step_some {ps : List α} {subs : List (PT α)} {common : List α}
    {i : ℕ} (wt : WType) (nv : NVal α) (tw : ℚ) (len : ℤ) (v : List α) (w : ℚ)
    (hf : fmcsGo ps subs 0 ([], none) = (common, some i)) :
    insert_cpt wt (.node nv tw subs len) v w ps
      = if nvEqList nv common then
          .node nv
            (get_aggr_weight wt tw
              (subs ++ [insert_into_empty wt emptyTree v w ps]) (len + 1))
            (sortDesc (subs ++ [insert_into_empty wt emptyTree v w ps])) (len + 1)
        else
          .node nv
            (get_aggr_weight wt tw
              (if (mergeAt wt subs i common v w ps).2 then
                subs.set i (mergeAt wt subs i common v w ps).1
               else subs.eraseIdx i ++ [(mergeAt wt subs i common v w ps).1])
              (len + 1))
            (sortDesc
              (if (mergeAt wt subs i common v w ps).2 then
                subs.set i (mergeAt wt subs i common v w ps).1
               else subs.eraseIdx i ++ [(mergeAt wt subs i common v w ps).1]))
            (len + 1) := by
  rw [insert_cpt, hf]

theorem merge_value_step_bump {nvf : NVal α} {ps : List α} {s0 : PT α}
    {v : List α} (wt : WType) (wf : ℚ) (rest : List (PT α)) (lenf : ℤ)
    (common : List α) (w : ℚ)
    (hnv : nvEqList nvf ps = true) (hs0 : s0.value = NVal.val v) :
    merge_value wt (.node nvf wf (s0 :: rest) lenf) common v w ps
      = (.node nvf
          (get_aggr_weight wt wf
            (PT.node s0.value (s0.weight + w) s0.subtrees s0.len :: rest) lenf)
          (PT.node s0.value (s0.weight + w) s0.subtrees s0.len :: rest) lenf,
          true) := by
  rw [merge_value]
  rw [if_pos (show nvEqList (PT.node nvf wf (s0 :: rest) lenf).value ps = true
      from by rw [PT.value]; exact hnv)]
  simp only [PT.subtrees, hs0, if_pos]
  rfl

theorem merge_value_step_app {nvf : NVal α} {ps : List α} {s0 : PT α}
    {v : List α} (wt : WType) (wf : ℚ) (rest : List (PT α)) (lenf : ℤ)
    (common : List α) (w : ℚ)
    (hnv : nvEqList nvf ps = true) (hs0 : ¬ s0.value = NVal.val v) :
    merge_value wt (.node nvf wf (s0 :: rest) lenf) common v w ps
      = (.node nvf
          (get_aggr_weight wt wf
            ((s0 :: rest) ++ [create_subtree wt (.val v) w [] 1]) (lenf + 1))
          ((s0 :: rest) ++ [create_subtree wt (.val v) w [] 1]) (lenf + 1),
          true) := by
  rw [merge_value]
  rw [if_pos (show nvEqList (PT.node nvf wf (s0 :: rest) lenf).value ps = true
      from by rw [PT.value]; exact hnv)]
  simp only [PT.subtrees, hs0, if_neg]
  rfl

theorem merge_value_step_take {nvf : NVal α} {ps : List α}
    (wt : WType) (wf : ℚ) (subsf : List (PT α)) (lenf : ℤ)
    (common v : List α) {w : ℚ} (hw : w ≠ 0)
    (hnv : nvEqList nvf ps = false) (htk : nvTakeEq nvf ps = true) :
    merge_value wt (.node nvf wf subsf lenf) common v w ps
      = (create_subtree wt (.pfx common) 0
          [PT.node (.val v) w [] 1, PT.node nvf wf subsf lenf] (lenf + 1),
          false) := by
  rw [merge_value]
  rw [if_neg (show ¬ nvEqList (PT.node nvf wf subsf lenf).value ps = true
      from by rw [PT.value, hnv]; exact Bool.false_ne_true)]
  rw [if_pos (show nvTakeEq (PT.node nvf wf subsf lenf).value ps = true
      from by rw [PT.value]; exact htk)]
  rw [create_subtree_nonzero wt (.val v) hw [] 1]
  rfl

theorem merge_value_step_ins {nvf : NVal α} {ps : List α}
    (wt : WType) (wf : ℚ) (subsf : List (PT α)) (lenf : ℤ)
    (common v : List α) (w : ℚ)
    (hnv : nvEqList nvf ps = false) (htk : nvTakeEq nvf ps = false)
    (hm : matchesQ (.pfx ps) false (.node nvf wf subsf lenf) = true) :
    merge_value wt (.node nvf wf subsf lenf) common v w ps
      = (insert_cpt wt (.node nvf wf subsf lenf) v w ps, true) := by
  rw [merge_value]
  rw [if_neg (show ¬ nvEqList (PT.node nvf wf subsf lenf).value ps = true
      from by rw [PT.value, hnv]; exact Bool.false_ne_true)]
  rw [if_neg (show ¬ nvTakeEq (PT.node nvf wf subsf lenf).value ps = true
      from by rw [PT.value, htk]; exact Bool.false_ne_true)]
  rw [if_pos hm]

theorem merge_value_step_split {nvf : NVal α} {ps : List α}
    (wt : WType) (wf : ℚ) (subsf : List (PT α)) (lenf : ℤ)
    (common v : List α) {w : ℚ} (hw : w ≠ 0)
    (hnv : nvEqList nvf ps = false) (htk : nvTakeEq nvf ps = false)
    (hm : matchesQ (.pfx ps) false (.node nvf wf subsf lenf) = false) :
    merge_value wt (.node nvf wf subsf lenf) common v w ps
      = (create_subtree wt (.pfx common) 0
          [PT.node (.pfx ps) w [PT.node (.val v) w [] 1] 1,
            PT.node nvf wf subsf lenf] (lenf + 1),
          false) := by
  rw [merge_value]
  rw [if_neg (show ¬ nvEqList (PT.node nvf wf subsf lenf).value ps = true
      from by rw [PT.value, hnv]; exact Bool.false_ne_true)]
  rw [if_neg (show ¬ nvTakeEq (PT.node nvf wf subsf lenf).value ps = true
      from by rw [PT.value, htk]; exact Bool.false_ne_true)]
  rw [if_neg (show ¬ matchesQ (.pfx ps) false (PT.node nvf wf subsf lenf) = true
      from by rw [hm]; exact Bool.false_ne_true)]
  rw [create_subtree_nonzero wt (.val v) hw [] 1]
  simp only [create_subtree_nonzero wt (.pfx ps) hw, PT.len]

theorem insertC_step_empty (wt : WType) (t : PT α) (v : List α) (w : ℚ)
    (ps : List α) (h : is_empty t = true) :
    insertC wt t v w ps = insert_into_empty wt t v w ps := by
  rw [insertC, if_pos h]

theorem insertC_step_plain (wt : WType) (t : PT α) (v : List α) (w : ℚ)
    (ps : List α) (h1 : is_empty t = false) (h2 : nvTruthy t.value = false) :
    insertC wt t v w ps = insert_cpt wt t v w ps := by
  rw [insertC]
  rw [if_neg (show ¬ is_empty t = true from by rw [h1]; exact Bool.false_ne_true)]
  rw [if_neg (show ¬ nvTruthy t.value = true from
      by rw [h2]; exact Bool.false_ne_true)]

theorem insertC_step_wrap (wt : WType) (t : PT α) (v : List α) (w : ℚ)
    (ps : List α) (h1 : is_empty t = false) (h2 : nvTruthy t.value = true)
    (w2 : PT α)
    (hw2 : insert_cpt wt (create_subtree wt (.pfx []) t.weight
        [create_subtree wt t.value t.weight t.subtrees t.len] t.len) v w ps
      = w2) :
    insertC wt t v w ps =
      if 1 < w2.subtrees.length then
        .node (.pfx []) (get_aggr_weight wt t.weight w2.subtrees w2.len)
          w2.subtrees w2.len
      else
        match w2.subtrees with
        | s0 :: _ =>
          .node s0.value (get_aggr_weight wt t.weight s0.subtrees s0.len)
            s0.subtrees s0.len
        | [] =>
          .node (.pfx []) (get_aggr_weight wt t.weight ([] : List (PT α)) w2.len)
            [] w2.len := by
  subst hw2
  rw [insertC]
  rw [if_neg (show ¬ is_empty t = true from by rw [h1]; exact Bool.false_ne_true)]
  rw [if_pos h2]

/-- Rebuilding a node of the compressed tree from an updated subtree
list, `'sum'` mode. -/
theorem cpt_node_sum {nv : NVal α} {tw : ℚ} {subs : List (PT α)} {len : ℤ}
    {w : ℚ} (hok : sumOK (.node nv tw subs len) = true) (hne : subs ≠ [])
    (subs1 : List (PT α)) (h1 : subs1 ≠ [])
    (h2 : ∀ s ∈ subs1, sumOK s = true)
    (h3 : (subs1.map PT.weight).sum = tw + w)
    (h4 : ∀ s0, subs1 = [s0] → s0.subtrees ≠ []) :
    sumOK (.node nv (get_aggr_weight .wsum tw subs1 (len + 1)) (sortDesc subs1)
      (len + 1)) = true ∧
    (PT.node nv (get_aggr_weight .wsum tw subs1 (len + 1)) (sortDesc subs1)
      (len + 1)).subtrees ≠ [] ∧
    (PT.node nv (get_aggr_weight .wsum tw subs1 (len + 1)) (sortDesc subs1)
      (len + 1)).weight = (PT.node nv tw subs len).weight + w ∧
    (∀ s0, (PT.node nv (get_aggr_weight .wsum tw subs1 (len + 1))
      (sortDesc subs1) (len + 1)).subtrees = [s0] → s0.subtrees ≠ []) := by
  have hpfx : isPfx nv = true := by
    have := sumOK_isPfx hok (by rw [PT.subtrees]; exact hne)
    rwa [PT.value] at this
  refine ⟨?_, by rw [PT.subtrees]; exact sortDesc_ne_nil h1, ?_, ?_⟩
  · exact sumOK_build hpfx (sortDesc_ne_nil h1)
      (by rw [get_aggr_sum, sortDesc_weight_sum])
      (fun s2 hs2 => h2 s2 (sortDesc_mem.mp hs2))
  · rw [PT.weight, PT.weight, get_aggr_sum, h3]
  · intro s0 hs0
    rw [PT.subtrees] at hs0
    have hsingle : subs1 = [s0] := by
      have hp := sortDesc_perm subs1
      rw [hs0] at hp
      exact List.perm_singleton.mp hp.symm
    exact h4 s0 hsingle

/-- `CompressedPrefixTree.insert_cpt` and `merge_value` in `'sum'`
mode: the per-node sum rule is kept, the tree stays non-degenerate (a
single remaining subtree is a branch) and the inserted weight is added
to the node. -/
theorem cpt_sum (v : List α) {w : ℚ} (ps : List α) (hw : 0 < w) :
    ∀ n : ℕ,
    (∀ t : PT α, sizeOf t ≤ n → sumOK t = true → t.subtrees ≠ [] →
      sumOK (insert_cpt .wsum t v w ps) = true ∧
      (insert_cpt .wsum t v w ps).subtrees ≠ [] ∧
      (insert_cpt .wsum t v w ps).weight = t.weight + w ∧
      (∀ s0, (insert_cpt .wsum t v w ps).subtrees = [s0] → s0.subtrees ≠ [])) ∧
    (∀ f : PT α, sizeOf f ≤ n → sumOK f = true → ∀ common : List α,
      sumOK (merge_value .wsum f common v w ps).1 = true ∧
      (merge_value .wsum f common v w ps).1.subtrees ≠ [] ∧
      (merge_value .wsum f common v w ps).1.weight = f.weight + w) := by
  intro n
  induction n with
  | zero =>
    constructor
    · intro t ht
      exact absurd ht (by have := sizeOf_pos t; omega)
    · intro f hf
      exact absurd hf (by have := sizeOf_pos f; omega)
  | succ n ihn =>
    have hIns : ∀ t : PT α, sizeOf t ≤ n + 1 → sumOK t = true →
        t.subtrees ≠ [] →
        sumOK (insert_cpt .wsum t v w ps) = true ∧
        (insert_cpt .wsum t v w ps).subtrees ≠ [] ∧
        (insert_cpt .wsum t v w ps).weight = t.weight + w ∧
        (∀ s0, (insert_cpt .wsum t v w ps).subtrees = [s0] →
          s0.subtrees ≠ []) := by
      intro t ht hok hne0
      cases t with
      | node nv tw subs len =>
        rw [PT.subtrees] at hne0
        obtain ⟨hndOK, hndne, hndw⟩ := insert_into_empty_sum (α := α) v ps hw
        have htw : tw = (subs.map PT.weight).sum := by
          have := sumOK_weight_eq hok (by rw [PT.subtrees]; exact hne0)
          rwa [PT.weight, PT.subtrees] at this
        have happ := cpt_node_sum (w := w) hok hne0
          (subs ++ [insert_into_empty .wsum emptyTree v w ps])
          (by simp)
          (by
            intro s2 hs2
            rcases List.mem_append.mp hs2 with hs2 | hs2
            · exact sumOK_sub hok s2 (by rw [PT.subtrees]; exact hs2)
            · rw [List.mem_singleton] at hs2
              subst hs2
              exact hndOK)
          (by
            rw [List.map_append, List.sum_append, ← htw]
            simp [hndw])
          (by
            intro s0 hs
            exfalso
            have hl := congrArg List.length hs
            simp only [List.length_append, List.length_singleton,
              List.length_cons, List.length_nil] at hl
            exact hne0 (List.length_eq_zero.mp (by omega)))
        cases hf : fmcsGo ps subs 0 ([], none) with
        | mk common oi =>
          cases oi with
          | none =>
            rw [insert_cpt_step_none .wsum nv tw len v w hf]
            exact happ
          | some i =>
            rw [insert_cpt_step_some .wsum nv tw len v w hf]
            by_cases hnv : nvEqList nv common = true
            · rw [if_pos hnv]
              exact happ
            · rw [if_neg hnv]
              have hi : i < subs.length := by
                have := fmcsGo_idx_lt ps subs 0 ([], none)
                  (by intro j hj; simp at hj) i (by rw [hf])
                omega
              rw [mergeAt_eq .wsum common v w ps subs i hi]
              have hcm : subs.get ⟨i, hi⟩ ∈ subs := List.get_mem subs i hi
              have hsz : sizeOf (subs.get ⟨i, hi⟩) ≤ n := by
                have := sizeOf_mem_lt (t := PT.node nv tw subs len)
                  (by rw [PT.subtrees]; exact hcm)
                omega
              obtain ⟨hrOK, hrne, hrw⟩ := ihn.2 (subs.get ⟨i, hi⟩) hsz
                (sumOK_sub hok _ (by rw [PT.subtrees]; exact hcm)) common
              by_cases hr2 : (merge_value .wsum (subs.get ⟨i, hi⟩) common v w ps).2
                  = true
              · rw [if_pos hr2]
                refine cpt_node_sum (w := w) hok hne0 _ ?_ ?_ ?_ ?_
                · intro hc
                  have hl := congrArg List.length hc
                  rw [List.length_set] at hl
                  exact hne0 (List.length_eq_zero.mp hl)
                · intro s2 hs2
                  rcases List.mem_or_eq_of_mem_set hs2 with hs2 | hs2
                  · exact sumOK_sub hok s2 (by rw [PT.subtrees]; exact hs2)
                  · subst hs2
                    exact hrOK
                · rw [weight_sum_set subs i hi, hrw, ← htw]
                  ring
                · intro s0 hs
                  have hl := congrArg List.length hs
                  rw [List.length_set] at hl
                  simp only [List.length_singleton] at hl
                  cases subs with
                  | nil => exact absurd rfl hne0
                  | cons c rest =>
                    simp only [List.length_cons, Nat.add_left_eq_self,
                      Nat.add_right_cancel_iff] at hl
                    have hrest : rest = [] := List.length_eq_zero.mp (by omega)
                    subst hrest
                    have hi0 : i = 0 := by
                      simp only [List.length_cons, List.length_nil] at hi
                      omega
                    subst hi0
                    have hr1 : (merge_value .wsum ((c :: ([] : List (PT α))).get
                        ⟨0, hi⟩) common v w ps).1 = s0 := by
                      simpa [List.set] using hs
                    rw [← hr1]
                    exact hrne
              · rw [if_neg hr2]
                refine cpt_node_sum (w := w) hok hne0 _ (by simp) ?_ ?_ ?_
                · intro s2 hs2
                  rcases List.mem_append.mp hs2 with hs2 | hs2
                  · exact sumOK_sub hok s2
                      (by rw [PT.subtrees]; exact List.eraseIdx_subset _ _ hs2)
                  · rw [List.mem_singleton] at hs2
                    subst hs2
                    exact hrOK
                · rw [List.map_append, List.sum_append,
                    weight_sum_eraseIdx subs i hi, ← htw]
                  simp only [List.map_cons, List.map_nil, List.sum_cons,
                    List.sum_nil, hrw]
                  ring
                · intro s0 hs
                  cases he : subs.eraseIdx i with
                  | nil =>
                    rw [he] at hs
                    have hr1 : (merge_value .wsum (subs.get ⟨i, hi⟩) common v w
                        ps).1 = s0 := by
                      simpa using hs
                    rw [← hr1]
                    exact hrne
                  | cons x l =>
                    rw [he] at hs
                    exfalso
                    have hl := congrArg List.length hs
                    simp only [List.length_append, List.length_cons,
                      List.length_singleton, List.length_nil] at hl
                    omega
    refine ⟨hIns, ?_⟩
    intro f hf hok common
    cases f with
    | node nvf wf subsf lenf =>
      by_cases hnv : nvEqList nvf ps = true
      · have hpfx : nvf = .pfx ps := nvEqList_dest hnv
        cases subsf with
        | nil =>
          exfalso
          rcases sumOK_nil_iff.mp hok with ⟨h1, _⟩
          rw [hpfx, isVal] at h1
          cases h1
        | cons s0 rest =>
          have hs0OK : sumOK s0 = true :=
            sumOK_sub hok s0 (by rw [PT.subtrees]; exact List.mem_cons_self s0 rest)
          have hwf : wf = ((s0 :: rest).map PT.weight).sum := by
            have := sumOK_weight_eq hok (by rw [PT.subtrees]; simp)
            rwa [PT.weight, PT.subtrees] at this
          by_cases hs0 : s0.value = NVal.val v
          · rw [merge_value_step_bump .wsum wf rest lenf common w hnv hs0]
            have hs0leaf : s0.subtrees = [] := sumOK_val_leaf hs0OK hs0
            have hs0pos : 0 < s0.weight := sumOK_pos_of s0 hs0OK
            have hbump : sumOK (PT.node s0.value (s0.weight + w) s0.subtrees
                s0.len) = true := by
              rw [hs0, hs0leaf]
              exact sumOK_nil_iff.mpr ⟨by rw [isVal], add_pos hs0pos hw⟩
            refine ⟨?_, by rw [PT.subtrees]; simp, ?_⟩
            · refine sumOK_build (by rw [hpfx, isPfx]) (by simp)
                (by rw [get_aggr_sum]) ?_
              intro s2 hs2
              rcases List.mem_cons.mp hs2 with rfl | hs2
              · exact hbump
              · exact sumOK_sub hok s2
                  (by rw [PT.subtrees]; exact List.mem_cons_of_mem s0 hs2)
            · rw [PT.weight, PT.weight, get_aggr_sum, hwf]
              simp [PT.weight]
              ring
          · rw [merge_value_step_app .wsum wf rest lenf common w hnv hs0,
              create_subtree_nonzero .wsum (.val v) (ne_of_gt hw) [] 1]
            have hleafOK : sumOK (PT.node (NVal.val v) w [] 1) = true :=
              sumOK_nil_iff.mpr ⟨by rw [isVal], hw⟩
            refine ⟨?_, by rw [PT.subtrees]; simp, ?_⟩
            · refine sumOK_build (by rw [hpfx, isPfx]) (by simp)
                (by rw [get_aggr_sum]) ?_
              intro s2 hs2
              rcases List.mem_append.mp hs2 with hs2 | hs2
              · exact sumOK_sub hok s2 (by rw [PT.subtrees]; exact hs2)
              · rw [List.mem_singleton] at hs2
                subst hs2
                exact hleafOK
            · rw [PT.weight, PT.weight, get_aggr_sum, List.map_append,
                List.sum_append, hwf]
              simp [PT.weight]
      · by_cases htk : nvTakeEq nvf ps = true
        · rw [merge_value_step_take .wsum wf subsf lenf common v (ne_of_gt hw)
            (by simpa using hnv) htk, create_subtree_zero]
          have hleafOK : sumOK (PT.node (NVal.val v) w [] 1) = true :=
            sumOK_nil_iff.mpr ⟨by rw [isVal], hw⟩
          refine ⟨?_, by rw [PT.subtrees]; simp, ?_⟩
          · refine sumOK_build (by rw [isPfx]) (by simp)
              (by rw [get_aggr_sum]) ?_
            intro s2 hs2
            rcases List.mem_cons.mp hs2 with rfl | hs2
            · exact hleafOK
            · rw [List.mem_singleton] at hs2
              subst hs2
              exact hok
          · rw [PT.weight, PT.weight, get_aggr_sum]
            simp [PT.weight]
            ring
        · by_cases hm : matchesQ (.pfx ps) false (PT.node nvf wf subsf lenf)
              = true
          · rw [merge_value_step_ins .wsum wf subsf lenf common v w
              (by simpa using hnv) (by simpa using htk) hm]
            have hsubne : (PT.node nvf wf subsf lenf).subtrees ≠ [] := by
              obtain ⟨m, hm2⟩ := matchesQ_pfx_value hm
              exact sumOK_pfx_branch hok hm2
            obtain ⟨h1, h2, h3, _⟩ := hIns (PT.node nvf wf subsf lenf) hf hok
              hsubne
            exact ⟨h1, h2, h3⟩
          · rw [merge_value_step_split .wsum wf subsf lenf common v
              (ne_of_gt hw) (by simpa using hnv) (by simpa using htk)
              (by simpa using hm), create_subtree_zero]
            have hleafOK : sumOK (PT.node (NVal.val v) w [] 1) = true :=
              sumOK_nil_iff.mpr ⟨by rw [isVal], hw⟩
            have hntOK : sumOK (PT.node (NVal.pfx ps) w
                [PT.node (NVal.val v) w [] 1] 1) = true := by
              refine sumOK_build (by rw [isPfx]) (by simp) (by simp [PT.weight]) ?_
              intro s2 hs2
              rw [List.mem_singleton] at hs2
              subst hs2
              exact hleafOK
            refine ⟨?_, by rw [PT.subtrees]; simp, ?_⟩
            · refine sumOK_build (by rw [isPfx]) (by simp)
                (by rw [get_aggr_sum]) ?_
              intro s2 hs2
              rcases List.mem_cons.mp hs2 with rfl | hs2
              · exact hntOK
              · rw [List.mem_singleton] at hs2
                subst hs2
                exact hok
            · rw [PT.weight, PT.weight, get_aggr_sum]
              simp [PT.weight]
              ring

/-- `CompressedPrefixTree.insert` in `'sum'` mode. -/
theorem insC_sum (v : List α) {w : ℚ} (ps : List α) (hw : 0 < w) (t : PT α)
    (hinv : t = emptyTree ∨ (sumOK t = true ∧ t.subtrees ≠ [])) :
    sumOK (insertC .wsum t v w ps) = true ∧
    (insertC .wsum t v w ps).subtrees ≠ [] ∧
    (insertC .wsum t v w ps).weight = t.weight + w := by
  rcases hinv with rfl | ⟨hok, hne⟩
  · have hempty : is_empty (emptyTree (α := α)) = true := by
      simp [is_empty, emptyTree, PT.weight]
    rw [insertC_step_empty .wsum emptyTree v w ps hempty]
    obtain ⟨h1, h2, h3⟩ := insert_into_empty_sum (α := α) v ps hw
    exact ⟨h1, h2, by rw [h3]; simp [emptyTree, PT.weight]⟩
  · have hpos : 0 < t.weight := sumOK_pos_of t hok
    have hnotempty : is_empty t = false := by
      simp only [is_empty, beq_eq_false_iff_ne, ne_eq]
      exact ne_of_gt hpos
    cases htr : nvTruthy t.value with
    | false =>
      rw [insertC_step_plain .wsum t v w ps hnotempty htr]
      obtain ⟨h1, h2, h3, _⟩ := (cpt_sum v ps hw (sizeOf t)).1 t le_rfl hok hne
      exact ⟨h1, h2, h3⟩
    | true =>
      have hclone : create_subtree .wsum t.value t.weight t.subtrees t.len
          = t := by
        rw [create_subtree_nonzero .wsum t.value (ne_of_gt hpos) t.subtrees
          t.len]
        cases t
        simp [PT.value, PT.weight, PT.subtrees, PT.len]
      have hwrapOK : sumOK (PT.node (.pfx []) t.weight [t] t.len) = true := by
        refine sumOK_build (by rw [isPfx]) (by simp) (by simp) ?_
        intro s2 hs2
        rw [List.mem_singleton] at hs2
        subst hs2
        exact hok
      obtain ⟨hOK2, hne2, hw2, hsing2⟩ :=
        (cpt_sum v ps hw (sizeOf (PT.node (.pfx []) t.weight [t] t.len))).1 _
          le_rfl hwrapOK (by rw [PT.subtrees]; simp)
      rw [insertC_step_wrap .wsum t v w ps hnotempty htr _ rfl, hclone,
        create_subtree_nonzero .wsum (.pfx []) (ne_of_gt hpos) [t] t.len]
      have hW2w : (insert_cpt .wsum (PT.node (.pfx []) t.weight [t] t.len)
          v w ps).weight = t.weight + w := by
        rw [hw2, PT.weight]
      by_cases hlen : 1 < (insert_cpt .wsum (PT.node (.pfx []) t.weight [t]
          t.len) v w ps).subtrees.length
      · rw [if_pos hlen]
        refine ⟨?_, ?_, ?_⟩
        · refine sumOK_build (by rw [isPfx]) ?_ (by rw [get_aggr_sum])
            (fun s2 hs2 => sumOK_sub hOK2 s2 hs2)
          intro hc
          rw [hc] at hlen
          simp at hlen
        · rw [PT.subtrees]
          intro hc
          rw [hc] at hlen
          simp at hlen
        · rw [PT.weight, get_aggr_sum]
          have := sumOK_weight_eq hOK2 hne2
          rw [← this, hW2w]
      · rw [if_neg hlen]
        cases hsub : (insert_cpt .wsum (PT.node (.pfx []) t.weight [t] t.len)
            v w ps).subtrees with
        | nil => exact absurd hsub hne2
        | cons s0 stail =>
          have hstail : stail = [] := by
            have hl1 : (insert_cpt .wsum (PT.node (.pfx []) t.weight [t] t.len)
                v w ps).subtrees.length ≤ 1 := by omega
            rw [hsub] at hl1
            simp only [List.length_cons] at hl1
            exact List.length_eq_zero.mp (by omega)
          subst hstail
          have hs0ne : s0.subtrees ≠ [] := hsing2 s0 hsub
          have hs0OK : sumOK s0 = true := sumOK_sub hOK2 s0 (by rw [hsub]; simp)
          have hs0w : s0.weight = t.weight + w := by
            have h1 := sumOK_weight_eq hOK2 hne2
            rw [hsub] at h1
            simp only [List.map_cons, List.map_nil, List.sum_cons,
              List.sum_nil, add_zero] at h1
            rw [← h1, hW2w]
          refine ⟨?_, ?_, ?_⟩
          · show sumOK (PT.node s0.value
              (get_aggr_weight .wsum t.weight s0.subtrees s0.len)
              s0.subtrees s0.len) = true
            exact sumOK_build (sumOK_isPfx hs0OK hs0ne) hs0ne
              (by rw [get_aggr_sum]) (fun s2 hs2 => sumOK_sub hs0OK s2 hs2)
          · show (PT.node s0.value
              (get_aggr_weight .wsum t.weight s0.subtrees s0.len)
              s0.subtrees s0.len).subtrees ≠ []
            rw [PT.subtrees]
            exact hs0ne
          · show (PT.node s0.value
              (get_aggr_weight .wsum t.weight s0.subtrees s0.len)
              s0.subtrees s0.len).weight = t.weight + w
            rw [PT.weight, get_aggr_sum, ← sumOK_weight_eq hs0OK hs0ne, hs0w]

/-- `avgOK` at the root gives the average-mode weight equation. -/
theorem avgOK_root_product {t : PT α} (h : avgOK t = true)
    (hne : t.subtrees ≠ []) :
    t.weight * (t.len : ℚ) = totalLeafWeight t := by
  cases t with
  | node nv w subs len =>
    rw [PT.subtrees] at hne
    cases subs with
    | nil => exact absurd rfl hne
    | cons s rest =>
      rcases avgOK_cons_iff.mp h with ⟨_, _, hprod, hall⟩
      rw [totalLeafWeight, entries_node,
        ← gtlw_entriesL (sizeOf (s :: rest)) (s :: rest) le_rfl hall (nvList nv)]
      simpa [PT.weight, PT.len] using hprod

theorem foldS_sum : ∀ (reqs : List (List α × ℚ × List α)) (t : PT α),
    (∀ r ∈ reqs, 0 < r.2.1) → sumOK t = true → t.subtrees ≠ [] →
    sumOK (reqs.foldl (fun t r => insertS .wsum t r.1 r.2.1 r.2.2) t) = true ∧
    (reqs.foldl (fun t r => insertS .wsum t r.1 r.2.1 r.2.2) t).subtrees ≠ [] ∧
    (reqs.foldl (fun t r => insertS .wsum t r.1 r.2.1 r.2.2) t).weight
      = t.weight + (reqs.map (fun r => r.2.1)).sum := by
  intro reqs
  induction reqs with
  | nil =>
    intro t _ h1 h2
    exact ⟨h1, h2, by simp⟩
  | cons r rest ih =>
    intro t hall h1 h2
    have hw : 0 < r.2.1 := hall r (List.mem_cons_self r rest)
    obtain ⟨g1, g2, g3⟩ := insS_sum r.1 r.2.2 hw
      (sizeOf t) t le_rfl (Or.inr ⟨h1, h2⟩)
    obtain ⟨k1, k2, k3⟩ := ih (insertS .wsum t r.1 r.2.1 r.2.2)
      (fun r2 hr2 => hall r2 (List.mem_cons_of_mem r hr2)) g1 g2
    refine ⟨k1, k2, ?_⟩
    rw [List.foldl_cons] at *
    rw [k3, g3]
    simp only [List.map_cons, List.sum_cons]
    ring

theorem foldC_sum : ∀ (reqs : List (List α × ℚ × List α)) (t : PT α),
    (∀ r ∈ reqs, 0 < r.2.1) → sumOK t = true → t.subtrees ≠ [] →
    sumOK (reqs.foldl (fun t r => insertC .wsum t r.1 r.2.1 r.2.2) t) = true ∧
    (reqs.foldl (fun t r => insertC .wsum t r.1 r.2.1 r.2.2) t).subtrees ≠ [] ∧
    (reqs.foldl (fun t r => insertC .wsum t r.1 r.2.1 r.2.2) t).weight
      = t.weight + (reqs.map (fun r => r.2.1)).sum := by
  intro reqs
  induction reqs with
  | nil =>
    intro t _ h1 h2
    exact ⟨h1, h2, by simp⟩
  | cons r rest ih =>
    intro t hall h1 h2
    have hw : 0 < r.2.1 := hall r (List.mem_cons_self r rest)
    obtain ⟨g1, g2, g3⟩ := insC_sum r.1 r.2.2 hw t (Or.inr ⟨h1, h2⟩)
    obtain ⟨k1, k2, k3⟩ := ih (insertC .wsum t r.1 r.2.1 r.2.2)
      (fun r2 hr2 => hall r2 (List.mem_cons_of_mem r hr2)) g1 g2
    refine ⟨k1, k2, ?_⟩
    rw [List.foldl_cons] at *
    rw [k3, g3]
    simp only [List.map_cons, List.sum_cons]
    ring

theorem foldS_avg : ∀ (reqs : List (List α × ℚ × List α)) (t : PT α),
    (∀ r ∈ reqs, 0 < r.2.1) → avgOK t = true → t.subtrees ≠ [] →
    avgOK (reqs.foldl (fun t r => insertS .waverage t r.1 r.2.1 r.2.2) t) = true ∧
    (reqs.foldl (fun t r => insertS .waverage t r.1 r.2.1 r.2.2) t).subtrees
      ≠ [] := by
  intro reqs
  induction reqs with
  | nil =>
    intro t _ h1 h2
    exact ⟨h1, h2⟩
  | cons r rest ih =>
    intro t hall h1 h2
    have hw : 0 < r.2.1 := hall r (List.mem_cons_self r rest)
    obtain ⟨g1, g2⟩ := insS_avg r.1 r.2.2 hw (sizeOf t) t le_rfl
      (Or.inr ⟨h1, h2⟩)
    exact ih (insertS .waverage t r.1 r.2.1 r.2.2)
      (fun r2 hr2 => hall r2 (List.mem_cons_of_mem r hr2)) g1 g2

/-- Sum-mode run of `SimplePrefixTree`: root weight is the total of the
inserted weights, and the per-node sum rule holds throughout. -/
theorem runS_sum (reqs : List (List α × ℚ × List α))
    (hall : ∀ r ∈ reqs, 0 < r.2.1) :
    (runS .wsum reqs).weight = (reqs.map (fun r => r.2.1)).sum ∧
    (reqs ≠ [] → sumOK (runS .wsum reqs) = true) := by
  cases reqs with
  | nil =>
    constructor
    · simp [runS, emptyTree, PT.weight]
    · intro h
      exact absurd rfl h
  | cons r rest =>
    have hw : 0 < r.2.1 := hall r (List.mem_cons_self r rest)
    obtain ⟨g1, g2, g3⟩ := insS_sum r.1 r.2.2 hw (sizeOf (emptyTree (α := α)))
      emptyTree le_rfl (Or.inl rfl)
    obtain ⟨k1, k2, k3⟩ := foldS_sum rest (insertS .wsum emptyTree r.1 r.2.1 r.2.2)
      (fun r2 hr2 => hall r2 (List.mem_cons_of_mem r hr2)) g1 g2
    constructor
    · rw [runS, List.foldl_cons, k3, g3]
      simp [emptyTree, PT.weight]
    · intro _
      rw [runS, List.foldl_cons]
      exact k1

/-- Sum-mode run of `CompressedPrefixTree`. -/
theorem runC_sum (reqs : List (List α × ℚ × List α))
    (hall : ∀ r ∈ reqs, 0 < r.2.1) :
    (runC .wsum reqs).weight = (reqs.map (fun r => r.2.1)).sum ∧
    (reqs ≠ [] → sumOK (runC .wsum reqs) = true) := by
  cases reqs with
  | nil =>
    constructor
    · simp [runC, emptyTree, PT.weight]
    · intro h
      exact absurd rfl h
  | cons r rest =>
    have hw : 0 < r.2.1 := hall r (List.mem_cons_self r rest)
    obtain ⟨g1, g2, g3⟩ := insC_sum r.1 r.2.2 hw emptyTree (Or.inl rfl)
    obtain ⟨k1, k2, k3⟩ := foldC_sum rest (insertC .wsum emptyTree r.1 r.2.1 r.2.2)
      (fun r2 hr2 => hall r2 (List.mem_cons_of_mem r hr2)) g1 g2
    constructor
    · rw [runC, List.foldl_cons, k3, g3]
      simp [emptyTree, PT.weight]
    · intro _
      rw [runC, List.foldl_cons]
      exact k1

/-- Average-mode run of `SimplePrefixTree`: the root weight times the
recorded `len` is the total leaf weight. -/
theorem runS_avg (reqs : List (List α × ℚ × List α))
    (hall : ∀ r ∈ reqs, 0 < r.2.1) :
    (runS .waverage reqs).weight * ((runS .waverage reqs).len : ℚ)
      = totalLeafWeight (runS .waverage reqs) ∧
    (reqs ≠ [] → avgOK (runS .waverage reqs) = true ∧
      (runS .waverage reqs).subtrees ≠ [] ∧ 1 ≤ (runS .waverage reqs).len) := by
  cases reqs with
  | nil =>
    constructor
    · simp [runS, emptyTree, PT.weight, PT.len, totalLeafWeight, entries_node,
        entriesL]
    · intro h
      exact absurd rfl h
  | cons r rest =>
    have hw : 0 < r.2.1 := hall r (List.mem_cons_self r rest)
    obtain ⟨g1, g2⟩ := insS_avg r.1 r.2.2 hw (sizeOf (emptyTree (α := α)))
      emptyTree le_rfl (Or.inl rfl)
    obtain ⟨k1, k2⟩ := foldS_avg rest (insertS .waverage emptyTree r.1 r.2.1 r.2.2)
      (fun r2 hr2 => hall r2 (List.mem_cons_of_mem r hr2)) g1 g2
    have hres : avgOK (runS .waverage (r :: rest)) = true ∧
        (runS .waverage (r :: rest)).subtrees ≠ [] := by
      rw [runS, List.foldl_cons]
      exact ⟨k1, k2⟩
    refine ⟨avgOK_root_product hres.1 hres.2, fun _ =>
      ⟨hres.1, hres.2, avgOK_len_pos_of _ hres.1⟩⟩

/-- The compressed average-mode scenario tree (`cat` 2, `car` 4,
`care` 3). -/
def exCCCavg : PT Char :=
  insertC .waverage (insertC .waverage (insertC .waverage emptyTree
    ['c', 'a', 't'] 2 ['c', 'a', 't'])
    ['c', 'a', 'r'] 4 ['c', 'a', 'r'])
    ['c', 'a', 'r', 'e'] 3 ['c', 'a', 'r', 'e']

/-- The scenario insert requests (`cat` 2, `car` 4, `care` 3). -/
def reqsCCC : List (List Char × ℚ × List Char) :=
  [(['c', 'a', 't'], 2, ['c', 'a', 't']),
   (['c', 'a', 'r'], 4, ['c', 'a', 'r']),
   (['c', 'a', 'r', 'e'], 3, ['c', 'a', 'r', 'e'])]

/-- C9 (amended): after any sequence of positive-weight inserts with no
removals, in `'sum'` mode (either variant) the root's weight is the sum
of all inserted weights and every node with subtrees weighs the sum of
its subtrees' weights (`sumOK`); in `'average'` mode the simple
variant's root weight times its recorded `len` is the total leaf
weight, i.e. the divisor is the recorded `len`, not the number of
distinct stored values (see the counterexample); the compressed
average-mode scenario tree satisfies the same `len`-divisor formula
(root weight 3 = 9 / 3). -/
theorem C9_amended_weight_conservation :
    (∀ (β : Type) [DecidableEq β] (reqs : List (List β × ℚ × List β)),
      (∀ r ∈ reqs, 0 < r.2.1) →
      (runS .wsum reqs).weight = (reqs.map (fun r => r.2.1)).sum ∧
      (reqs ≠ [] → sumOK (runS .wsum reqs) = true)) ∧
    (∀ (β : Type) [DecidableEq β] (reqs : List (List β × ℚ × List β)),
      (∀ r ∈ reqs, 0 < r.2.1) →
      (runC .wsum reqs).weight = (reqs.map (fun r => r.2.1)).sum ∧
      (reqs ≠ [] → sumOK (runC .wsum reqs) = true)) ∧
    (∀ (β : Type) [DecidableEq β] (reqs : List (List β × ℚ × List β)),
      (∀ r ∈ reqs, 0 < r.2.1) →
      (runS .waverage reqs).weight * ((runS .waverage reqs).len : ℚ)
        = totalLeafWeight (runS .waverage reqs)) ∧
    (exCCCavg.weight = 3 ∧ exCCCavg.len = 3 ∧ totalLeafWeight exCCCavg = 9 ∧
      exCCCavg.weight = totalLeafWeight exCCCavg / (exCCCavg.len : ℚ)) := by
  have he : exCCCavg = PT.node (.pfx ['c', 'a']) 3
      [PT.node (.pfx ['c', 'a', 'r']) (7/2)
        [PT.node (.val ['c', 'a', 'r']) 4 [] 1,
         PT.node (.pfx ['c', 'a', 'r', 'e']) 3
           [PT.node (.val ['c', 'a', 'r', 'e']) 3 [] 1] 1] 2,
       PT.node (.pfx ['c', 'a', 't']) 2
         [PT.node (.val ['c', 'a', 't']) 2 [] 1] 1] 3 := by
    norm_num +decide [exCCCavg, insertC, insert_cpt, merge_value, mergeAt,
      insert_into_empty, create_subtree, find_max_common_subtree, fmcsGo,
      find_common_prefix_len, emptyTree, is_empty, is_leaf, nvTruthy, nvEqList,
      nvTakeEq, nvLen, nvList, matchesQ, sortDesc, insDesc, get_aggr_weight,
      get_total_leaf_weights, sumLens]
  have hw : exCCCavg.weight = 3 := by rw [he, PT.weight]
  have hl : exCCCavg.len = 3 := by rw [he, PT.len]
  have ht : totalLeafWeight exCCCavg = 9 := by
    rw [he]
    norm_num +decide [totalLeafWeight, entries, entriesL, is_leaf, nvList,
      PT.weight, PT.subtrees]
  refine ⟨?_, ?_, ?_, hw, hl, ht, ?_⟩
  · intro β _ reqs h
    exact runS_sum reqs h
  · intro β _ reqs h
    exact runC_sum reqs h
  · intro β _ reqs h
    exact (runS_avg reqs h).1
  · rw [hw, ht, hl]
    norm_num

/-- Witness for C9 (amended) at the scenario request list. -/
theorem C9_amended_witness :
    (∀ r ∈ reqsCCC, 0 < r.2.1) ∧ reqsCCC ≠ [] ∧
    (runS .wsum reqsCCC).weight = (reqsCCC.map (fun r => r.2.1)).sum ∧
    sumOK (runS .wsum reqsCCC) = true ∧
    (runC .wsum reqsCCC).weight = (reqsCCC.map (fun r => r.2.1)).sum ∧
    sumOK (runC .wsum reqsCCC) = true ∧
    (runS .waverage reqsCCC).weight * ((runS .waverage reqsCCC).len : ℚ)
      = totalLeafWeight (runS .waverage reqsCCC) := by
  have h : ∀ r ∈ reqsCCC, 0 < r.2.1 := by
    intro r hr
    simp only [reqsCCC, List.mem_cons, List.not_mem_nil, or_false] at hr
    rcases hr with rfl | rfl | rfl <;> norm_num
  have hne : reqsCCC ≠ [] := by simp [reqsCCC]
  exact ⟨h, hne,
    (C9_amended_weight_conservation.1 Char reqsCCC h).1,
    (C9_amended_weight_conservation.1 Char reqsCCC h).2 hne,
    (C9_amended_weight_conservation.2.1 Char reqsCCC h).1,
    (C9_amended_weight_conservation.2.1 Char reqsCCC h).2 hne,
    C9_amended_weight_conservation.2.2.1 Char reqsCCC h⟩

end Autocomplete
